import Mathlib

/-!
Shallow embedding of the `sat_micro_rust` DPLL workspace.

Data model (from `src/dpll/src/lib.rs`):
* a `Clause<Lit>` is a vector of literals kept sorted (`Clause::new` sorts,
  `Clause::push` does an ordered `binary_search` insert);
* a `Cnf<Lit>` is a vector of clauses;
* `LClause`/`LCnf` pair clauses with label sets, used by the CDCL engine;
* environments are hash sets (`Plain`) or hash maps literal to dependency
  set (`Cdcl`); they are modelled as lists used up to membership, and
  association lists with unique keys, respectively.

Engines (from `src/dpll/src/recursive/plain.rs`, `src/dpll/src/recursive/cdcl.rs`
and `src/dpll/src/functional/plain.rs`) are modelled as fuel-indexed functions.
The Rust code raises `Sat`/`Unsat` through `Result`s and can `panic!()` on
internal invariant violations; results are modelled by a four-way type:
a normal state, a raised outcome, a fatal invariant violation, and fuel
exhaustion (standing for a computation that has not yet returned).
-/

/-- Literal type mirroring `front::Lit`: an index plus a negation flag,
with the derived lexicographic order (index first, `false < true`). -/
structure RLit where
  idx : Nat
  neg : Bool
deriving DecidableEq, Repr

/-- Injective key realising the derived lexicographic order on `RLit`. -/
def RLit.key (l : RLit) : Nat := 2 * l.idx + (if l.neg then 1 else 0)

instance : LinearOrder RLit :=
  LinearOrder.lift' RLit.key (by
    intro a b h
    simp only [RLit.key] at h
    rcases a with ⟨i, n⟩
    rcases b with ⟨j, m⟩
    rcases n <;> rcases m <;> simp_all <;> omega)

/-- Negation of a literal, from `front::Lit::negate`: flip the flag. -/
def RLit.negate (l : RLit) : RLit := ⟨l.idx, !l.neg⟩

section Containers

variable {L : Type} [LinearOrder L]

/-- Insertion into a hash set (`Set<Lit>` is `AHashSet`): no-op when the
element is present. The Rust `insert` also reports whether the element was
new; call sites test membership separately. -/
def setInsert (s : List L) (x : L) : List L := if x ∈ s then s else x :: s

/-- `Set::extend`: fold insertion over the added collection. -/
def setExtend (s t : List L) : List L := t.foldl setInsert s

/-- Environment consistency: no literal together with its negation. -/
def consistent (neg : L → L) (s : List L) : Prop := ∀ l ∈ s, neg l ∉ s

/-- `Clause::push` from `src/dpll/src/lib.rs`: `binary_search` for the literal,
keep the clause unchanged when found, insert at the reported position
otherwise. On the sorted clauses the code maintains, this is ordered
insertion that skips duplicates. -/
def clausePush : List L → L → List L
  | [], x => [x]
  | y :: ys, x =>
    if x < y then x :: y :: ys
    else if x = y then y :: ys
    else y :: clausePush ys x

/-- `Clause::new` from `src/dpll/src/lib.rs`: sort the literal vector with the
standard library's stable sort; no duplicate removal happens. -/
def clauseNew (lits : List L) : List L := List.insertionSort (· ≤ ·) lits

/-- A labelled clause, `LClause` from `src/dpll/src/lib.rs`: a clause plus a
label set of literals. -/
structure LClause (L : Type) where
  clause : List L
  labels : List L
deriving DecidableEq, Repr

/-- Equality test used by `Set<LClause>`: clauses compare as vectors, label
sets compare as sets. -/
def lclBeq [DecidableEq L] (a b : LClause L) : Bool :=
  a.clause == b.clause && a.labels.all (· ∈ b.labels) && b.labels.all (· ∈ a.labels)

/-- Insertion into a `Set<LClause>` hash set, keeping first-insertion order. -/
def lclausesInsert [DecidableEq L] (s : List (LClause L)) (c : LClause L) : List (LClause L) :=
  if s.any (lclBeq c) then s else s ++ [c]

/-- `Set::extend` on `Set<LClause>`. -/
def lclausesExtend [DecidableEq L] (s t : List (LClause L)) : List (LClause L) :=
  t.foldl lclausesInsert s

/-- Association-list lookup modelling `HashMap::get` / `contains_key`. -/
def alistGet [DecidableEq L] (γ : List (L × List L)) (l : L) : Option (List L) :=
  match γ with
  | [] => none
  | (k, v) :: rest => if k = l then some v else alistGet rest l

/-- Keys of the environment map (`γ.keys()`). -/
def alistKeys (γ : List (L × List L)) : List L := γ.map Prod.fst

/-- Merge a cause into the dependency set of an existing entry, modelling the
`Occupied` branch of `Cdcl::assume` (`entry.get_mut().extend(cause)`). -/
def alistMerge [DecidableEq L] (γ : List (L × List L)) (l : L) (cause : List L) :
    List (L × List L) :=
  match γ with
  | [] => []
  | (k, v) :: rest =>
    if k = l then (k, setExtend v cause) :: rest else (k, v) :: alistMerge rest l cause

end Containers

/-- Outcome of the `Plain`/`Backjump` solvers and of `solve` after
`into_unit_unsat`: `Outcome<Lit, ()>` from `src/dpll/src/lib.rs`. -/
inductive POut (L : Type) where
  | sat (model : List L)
  | unsat
deriving DecidableEq, Repr

/-- Result of a search computation: a raised outcome, a fatal internal panic,
or fuel exhaustion (the Rust recursion has not returned yet). -/
inductive URes (L : Type) where
  | out (o : POut L)
  | panic
  | fuelOut
deriving DecidableEq, Repr

/-- Result of a state-producing rule (`Res<Self, Lit>` in the Rust code):
a new state on `Ok`, or a propagated `URes`. -/
inductive PRes (L : Type) (T : Type) where
  | ok (st : T)
  | out (o : POut L)
  | panic
  | fuelOut
deriving DecidableEq, Repr

/-- State of the `Plain` solver (`src/dpll/src/recursive/plain.rs`):
environment `γ` (a set of literals) and working CNF `δ`. -/
structure PlainS (L : Type) where
  γ : List L
  δ : List (List L)
deriving DecidableEq, Repr

/-- `Plain::new`: empty environment, the formula as the working CNF. -/
def PlainS.mk0 {L : Type} (f : List (List L)) : PlainS L := ⟨[], f⟩

section PlainEngine

variable {L : Type} [LinearOrder L] (neg : L → L)

/-- Inner loop `'disj_iter` of `Plain::bcp`: reduce one clause against the
environment. `none` means some literal is true and the clause is dropped;
otherwise the false literals are dropped and the unknown literals are pushed
(ordered insertion) into the accumulator clause. -/
def reduceGo (γ : List L) : List L → List L → Option (List L)
  | [], acc => some acc
  | lit :: rest, acc =>
    if lit ∈ γ then none
    else if neg lit ∈ γ then reduceGo γ rest acc
    else reduceGo γ rest (clausePush acc lit)

/-- Reduction of a clause against an environment, from `Plain::bcp`. -/
def reduceClause (γ disj : List L) : Option (List L) := reduceGo neg γ disj []

/-- Outer loop `'conj_iter` of `Plain::bcp` over the remaining clauses,
threading the state `new` being built; `assumeF` stands for the recursive
call to `Plain::assume` at the current fuel. An empty reduced clause raises
`Unsat`; a unit reduced clause is recursively assumed; otherwise the reduced
clause is appended to the new CNF. -/
def plainBcpGo (assumeF : PlainS L → L → PRes L (PlainS L)) (new : PlainS L) :
    List (List L) → PRes L (PlainS L)
  | [] => .ok new
  | disj :: rest =>
    match reduceClause neg new.γ disj with
    | none => plainBcpGo assumeF new rest
    | some [] => .out .unsat
    | some [l] =>
      match assumeF new l with
      | .ok new2 => plainBcpGo assumeF new2 rest
      | .out o => .out o
      | .panic => .panic
      | .fuelOut => .fuelOut
    | some c => plainBcpGo assumeF ⟨new.γ, new.δ ++ [c]⟩ rest

/-- `Plain::bcp`: start from the same environment and an empty CNF, then
process every clause of the current CNF. The lambda is the body of
`Plain::assume` (membership check, panic on a duplicate, insertion then
`bcp`), inlined so that the mutual recursion is structural on the fuel. -/
def plainBcpFn : Nat → PlainS L → PRes L (PlainS L)
  | 0, _ => .fuelOut
  | fuel + 1, st =>
    plainBcpGo neg
      (fun st2 lit =>
        match fuel with
        | 0 => .fuelOut
        | f + 1 =>
          if lit ∈ st2.γ then .panic
          else plainBcpFn f ⟨lit :: st2.γ, st2.δ⟩)
      ⟨st.γ, []⟩ st.δ

/-- `Plain::assume`: clone the state, insert the literal. If it was already
present this is a fatal internal error (`panic!("trying to assume a literal
twice")`); otherwise run `bcp` on the new state. -/
def plainAssume : Nat → PlainS L → L → PRes L (PlainS L)
  | 0, _, _ => .fuelOut
  | fuel + 1, st, lit =>
    if lit ∈ st.γ then .panic
    else plainBcpFn neg fuel ⟨lit :: st.γ, st.δ⟩

/-- `Plain::bcp`, named as in the source. -/
def plainBcp (fuel : Nat) (st : PlainS L) : PRes L (PlainS L) := plainBcpFn neg fuel st

/-- The inlined lambda of `plainBcpFn` is `Plain::assume` at the same fuel. -/
theorem plainBcpFn_succ (fuel : Nat) (st : PlainS L) :
    plainBcpFn neg (fuel + 1) st = plainBcpGo neg (plainAssume neg fuel) ⟨st.γ, []⟩ st.δ := by
  cases fuel <;> rfl

/-- One branch exploration in `Plain::unsat`:
`self.assume(lit).and_then(|new| new.unsat())`, with every raised outcome
propagated. `assumeF` and `unsatF` stand for `Plain::assume` and
`Plain::unsat` at the current fuel. -/
def plainUnsatStep (assumeF : PlainS L → L → PRes L (PlainS L))
    (unsatF : PlainS L → URes L) (st : PlainS L) (lit : L) : URes L :=
  match assumeF st lit with
  | .ok new => unsatF new
  | .out o => .out o
  | .panic => .panic
  | .fuelOut => .fuelOut

/-- `Plain::unsat`: an empty CNF raises `Sat` with the current environment;
otherwise the first literal of the first clause is the decision literal, the
positive branch is explored, and only an `Unsat` outcome from it lets the
search backtrack into the negated branch. An empty first clause is a fatal
internal error. -/
def plainUnsat (fuel : Nat) (st : PlainS L) : URes L :=
  match fuel with
  | 0 => .fuelOut
  | fuel + 1 =>
    match st.δ with
    | [] => .out (.sat st.γ)
    | disj :: _ =>
      match disj with
      | [] => .panic
      | lit :: _ =>
        match plainUnsatStep (plainAssume neg fuel)
            (fun st2 => plainUnsat fuel st2) st lit with
        | .out .unsat =>
          plainUnsatStep (plainAssume neg fuel)
            (fun st2 => plainUnsat fuel st2) st (neg lit)
        | r1 => r1

/-- Unfolding `plainUnsatStep` on a successful assume. -/
theorem plainUnsatStep_ok {assumeF : PlainS L → L → PRes L (PlainS L)}
    {unsatF : PlainS L → URes L} {st new : PlainS L} {lit : L}
    (ha : assumeF st lit = .ok new) :
    plainUnsatStep assumeF unsatF st lit = unsatF new := by
  simp only [plainUnsatStep, ha]

/-- Unfolding `plainUnsatStep` on a propagated outcome. -/
theorem plainUnsatStep_out {assumeF : PlainS L → L → PRes L (PlainS L)}
    {unsatF : PlainS L → URes L} {st : PlainS L} {lit : L} {o : POut L}
    (ha : assumeF st lit = .out o) :
    plainUnsatStep assumeF unsatF st lit = .out o := by
  simp only [plainUnsatStep, ha]

/-- Unfolding `plainUnsatStep` on a panicking assume. -/
theorem plainUnsatStep_panic {assumeF : PlainS L → L → PRes L (PlainS L)}
    {unsatF : PlainS L → URes L} {st : PlainS L} {lit : L}
    (ha : assumeF st lit = .panic) :
    plainUnsatStep assumeF unsatF st lit = .panic := by
  simp only [plainUnsatStep, ha]

/-- Unfolding `plainUnsatStep` on fuel exhaustion. -/
theorem plainUnsatStep_fuel {assumeF : PlainS L → L → PRes L (PlainS L)}
    {unsatF : PlainS L → URes L} {st : PlainS L} {lit : L}
    (ha : assumeF st lit = .fuelOut) :
    plainUnsatStep assumeF unsatF st lit = .fuelOut := by
  simp only [plainUnsatStep, ha]

/-- `Plain::solve`: run `unsat`; the raised outcome is the answer (a normal
return is impossible, its payload type is `Empty`). -/
def plainSolve (fuel : Nat) (st : PlainS L) : URes L := plainUnsat neg fuel st

end PlainEngine

section FunctionalPlainEngine

variable {L : Type} [LinearOrder L] (neg : L → L)

/-- Outer loop of `functional::Plain::bcp`; `γ0` is the environment captured
at `bcp` entry (`let Self { γ, .. } = self`), used for every membership
test, while `new` threads the state being built. -/
def fnBcpGo (assumeF : PlainS L → L → PRes L (PlainS L)) (γ0 : List L) (new : PlainS L) :
    List (List L) → PRes L (PlainS L)
  | [] => .ok new
  | disj :: rest =>
    match reduceClause neg γ0 disj with
    | none => fnBcpGo assumeF γ0 new rest
    | some [] => .out .unsat
    | some [l] =>
      match assumeF new l with
      | .ok new2 => fnBcpGo assumeF γ0 new2 rest
      | .out o => .out o
      | .panic => .panic
      | .fuelOut => .fuelOut
    | some c => fnBcpGo assumeF γ0 ⟨new.γ, new.δ ++ [c]⟩ rest

/-- `functional::Plain::bcp`: like the recursive version, but clause
reduction tests membership against the environment captured at entry, not
against the growing clone. The lambda inlines `functional::Plain::assume`:
when the literal is already present the state is returned unchanged. -/
def fnBcpFn : Nat → PlainS L → PRes L (PlainS L)
  | 0, _ => .fuelOut
  | fuel + 1, st =>
    fnBcpGo neg
      (fun st2 lit =>
        match fuel with
        | 0 => .fuelOut
        | f + 1 =>
          if lit ∈ st2.γ then .ok st2
          else fnBcpFn f ⟨lit :: st2.γ, st2.δ⟩)
      st.γ ⟨st.γ, []⟩ st.δ

/-- `functional::Plain::assume` (`src/dpll/src/functional/plain.rs`): insert
the literal; when it was already present the state is returned unchanged
(`Ok(new)`), there is no panic; otherwise run `bcp`. -/
def fnAssume : Nat → PlainS L → L → PRes L (PlainS L)
  | 0, _, _ => .fuelOut
  | fuel + 1, st, lit =>
    if lit ∈ st.γ then .ok st
    else fnBcpFn neg fuel ⟨lit :: st.γ, st.δ⟩

/-- The inlined lambda of `fnBcpFn` is `functional::Plain::assume`. -/
theorem fnBcpFn_succ (fuel : Nat) (st : PlainS L) :
    fnBcpFn neg (fuel + 1) st = fnBcpGo neg (fnAssume neg fuel) st.γ ⟨st.γ, []⟩ st.δ := by
  cases fuel <;> rfl

/-- `functional::Plain::unsat`: both `self.assume(lit)?` and `new.unsat()?`
propagate every raised outcome with `?`, so an `Unsat` from the first branch
is propagated directly and the negated branch below it is dead code. -/
def fnUnsat (fuel : Nat) (st : PlainS L) : URes L :=
  match fuel with
  | 0 => .fuelOut
  | fuel + 1 =>
    match st.δ with
    | [] => .out (.sat st.γ)
    | disj :: _ =>
      match disj with
      | [] => .panic
      | lit :: _ =>
        match fnAssume neg fuel st lit with
        | .ok new => fnUnsat fuel new
        | .out o => .out o
        | .panic => .panic
        | .fuelOut => .fuelOut

/-- `functional::Plain::solve`. -/
def fnSolve (fuel : Nat) (st : PlainS L) : URes L := fnUnsat neg fuel st

end FunctionalPlainEngine

/-- Outcome of the CDCL solver before erasure
(`Outcome<Lit, (Set<Lit>, Set<LClause<Lit>>)>`): a model, or a dependency set
together with the accumulated conflict clauses. -/
inductive COut (L : Type) where
  | sat (model : List L)
  | unsat (deps : List L) (conflict : List (LClause L))
deriving DecidableEq, Repr

/-- Result of a CDCL rule (`cdcl::Res<T, Lit>`). -/
inductive CRes (L : Type) (T : Type) where
  | ok (st : T)
  | out (o : COut L)
  | panic
  | fuelOut
deriving DecidableEq, Repr

/-- State of the `Cdcl` solver (`src/dpll/src/recursive/cdcl.rs`): environment
mapping each assumed literal to its dependency set, and a labelled CNF. -/
structure CdclS (L : Type) where
  γ : List (L × List L)
  δ : List (LClause L)
deriving DecidableEq, Repr

/-- `Cdcl::new`: empty environment; the formula becomes an `LCnf` with empty
label sets (`LCnf::from(Cnf)` maps `LClause::new` over the clauses). -/
def CdclS.mk0 {L : Type} (f : List (List L)) : CdclS L :=
  ⟨[], f.map fun c => ⟨c, []⟩⟩

section CdclEngine

variable {L : Type} [LinearOrder L] (neg : L → L)

/-- `Cdcl::invariant` (debug build): walk the environment and panic when a
literal and its negation are both present. -/
def cdclBadEnv (γ : List (L × List L)) : Prop :=
  ∃ l ∈ alistKeys γ, neg l ∈ alistKeys γ

instance cdclBadEnvDec [DecidableEq L] (γ : List (L × List L)) :
    Decidable (cdclBadEnv neg γ) := by
  unfold cdclBadEnv
  infer_instance

/-- `Cdcl::shift`: rewrite each learned clause whose label set contains the
literal, turning the label into the explicit disjunct of its negation, and
collect the results into a fresh set. -/
def cdclShift (lit : L) (lclauses : List (LClause L)) : List (LClause L) :=
  lclauses.foldl
    (fun res lc =>
      lclausesInsert res
        (if lit ∈ lc.labels then ⟨clausePush lc.clause (neg lit), lc.labels.erase lit⟩
         else lc))
    []

/-- Inner loop `'lclause_iter` of `Cdcl::bcp`: reduce one labelled clause.
A true literal drops the clause (`none`); a false literal contributes its
recorded dependency set to the accumulated dependencies; an unknown literal
is pushed into the accumulator clause. -/
def creduceGo (γ : List (L × List L)) :
    List L → List L → List L → Option (List L × List L)
  | [], accC, accD => some (accC, accD)
  | lit :: rest, accC, accD =>
    if lit ∈ alistKeys γ then none
    else
      match alistGet γ (neg lit) with
      | some deps => creduceGo γ rest accC (setExtend accD deps)
      | none => creduceGo γ rest (clausePush accC lit) accD

/-- Reduction of a labelled clause in `Cdcl::bcp`: the accumulated dependency
set starts from the clause's label set (line 132) and the labels are folded
in once more after the loop (line 163); insertion is idempotent so this is
the union of the labels and the dependency sets of the dropped literals. -/
def creduceClause (γ : List (L × List L)) (lc : LClause L) : Option (List L × List L) :=
  match creduceGo neg γ lc.clause [] (setExtend [] lc.labels) with
  | none => none
  | some (accC, accD) => some (accC, setExtend accD lc.labels)

/-- Outer loop `'conj_iter` of `Cdcl::bcp`; `assumeF` stands for the
recursive call to `Cdcl::assume` at the current fuel. An empty reduced
clause raises `Unsat` with the accumulated dependencies and no conflict
clauses; a unit reduced clause is recursively assumed with those
dependencies as cause; otherwise the reduced clause is kept, re-labelled
with the accumulated dependencies. -/
def cdclBcpGo (assumeF : CdclS L → L → List L → CRes L (CdclS L)) (new : CdclS L) :
    List (LClause L) → CRes L (CdclS L)
  | [] => .ok new
  | lc :: rest =>
    match creduceClause neg new.γ lc with
    | none => cdclBcpGo assumeF new rest
    | some ([], deps) => .out (.unsat deps [])
    | some ([l], deps) =>
      match assumeF new l deps with
      | .ok new2 => cdclBcpGo assumeF new2 rest
      | .out o => .out o
      | .panic => .panic
      | .fuelOut => .fuelOut
    | some (c, deps) => cdclBcpGo assumeF ⟨new.γ, new.δ ++ [⟨c, deps⟩]⟩ rest

/-- `Cdcl::bcp`: check the invariant, then process every labelled clause
starting from the same environment and an empty labelled CNF. The lambda
inlines the body of `Cdcl::assume` (invariant check, merged cause on an
occupied entry, insertion plus `bcp` on a vacant one) so that the mutual
recursion is structural on the fuel. -/
def cdclBcpFn : Nat → CdclS L → CRes L (CdclS L)
  | 0, _ => .fuelOut
  | fuel + 1, st =>
    if cdclBadEnv neg st.γ then .panic
    else
      cdclBcpGo neg
        (fun st2 l cause =>
          match fuel with
          | 0 => .fuelOut
          | f + 1 =>
            if cdclBadEnv neg st2.γ then .panic
            else if l ∈ alistKeys st2.γ then .ok ⟨alistMerge st2.γ l cause, st2.δ⟩
            else cdclBcpFn f ⟨(l, cause) :: st2.γ, st2.δ⟩)
        ⟨st.γ, []⟩ st.δ

/-- `Cdcl::assume`: check the environment invariant, then either merge the
cause into an existing entry (no `bcp`), or record the new entry and run
`bcp`. -/
def cdclAssume : Nat → CdclS L → L → List L → CRes L (CdclS L)
  | 0, _, _, _ => .fuelOut
  | fuel + 1, st, lit, cause =>
    if cdclBadEnv neg st.γ then .panic
    else if lit ∈ alistKeys st.γ then .ok ⟨alistMerge st.γ lit cause, st.δ⟩
    else cdclBcpFn neg fuel ⟨(lit, cause) :: st.γ, st.δ⟩

/-- `Cdcl::bcp`, named as in the source. -/
def cdclBcp (fuel : Nat) (st : CdclS L) : CRes L (CdclS L) := cdclBcpFn neg fuel st

/-- The inlined lambda of `cdclBcpFn` is `Cdcl::assume` at the same fuel. -/
theorem cdclBcpFn_succ (fuel : Nat) (st : CdclS L) :
    cdclBcpFn neg (fuel + 1) st =
      if cdclBadEnv neg st.γ then .panic
      else cdclBcpGo neg (cdclAssume neg fuel) ⟨st.γ, []⟩ st.δ := by
  cases fuel <;> rfl

/-- One branch exploration in `Cdcl::unsat`:
`self.assume(lit, cause).and_then(|new| new.unsat())`, with every raised
outcome propagated. -/
def cdclUnsatStep (assumeF : CdclS L → L → List L → CRes L (CdclS L))
    (unsatF : CdclS L → CRes L Empty) (st : CdclS L) (lit : L)
    (cause : List L) : CRes L Empty :=
  match assumeF st lit cause with
  | .ok new => unsatF new
  | .out o => .out o
  | .panic => .panic
  | .fuelOut => .fuelOut

/-- Unfolding `cdclUnsatStep` on a successful assume. -/
theorem cdclUnsatStep_ok {assumeF : CdclS L → L → List L → CRes L (CdclS L)}
    {unsatF : CdclS L → CRes L Empty} {st new : CdclS L} {lit : L} {cause : List L}
    (ha : assumeF st lit cause = .ok new) :
    cdclUnsatStep assumeF unsatF st lit cause = unsatF new := by
  simp only [cdclUnsatStep, ha]

/-- Unfolding `cdclUnsatStep` on a propagated outcome. -/
theorem cdclUnsatStep_out {assumeF : CdclS L → L → List L → CRes L (CdclS L)}
    {unsatF : CdclS L → CRes L Empty} {st : CdclS L} {lit : L} {cause : List L}
    {o : COut L} (ha : assumeF st lit cause = .out o) :
    cdclUnsatStep assumeF unsatF st lit cause = .out o := by
  simp only [cdclUnsatStep, ha]

/-- Unfolding `cdclUnsatStep` on a panicking assume. -/
theorem cdclUnsatStep_panic {assumeF : CdclS L → L → List L → CRes L (CdclS L)}
    {unsatF : CdclS L → CRes L Empty} {st : CdclS L} {lit : L} {cause : List L}
    (ha : assumeF st lit cause = .panic) :
    cdclUnsatStep assumeF unsatF st lit cause = .panic := by
  simp only [cdclUnsatStep, ha]

/-- Unfolding `cdclUnsatStep` on fuel exhaustion. -/
theorem cdclUnsatStep_fuel {assumeF : CdclS L → L → List L → CRes L (CdclS L)}
    {unsatF : CdclS L → CRes L Empty} {st : CdclS L} {lit : L} {cause : List L}
    (ha : assumeF st lit cause = .fuelOut) :
    cdclUnsatStep assumeF unsatF st lit cause = .fuelOut := by
  simp only [cdclUnsatStep, ha]

/-- Second branch of `Cdcl::unsat`, after the positive decision branch was
refuted with dependency set `deps` and conflict clauses `conflict0`:
`shift` the conflict clauses by the decision literal; when the decision
literal is absent from the dependency set, propagate the refutation
unchanged (backjump); otherwise retry the negated literal — over the CNF
extended with the learned clauses when there are any. The retry is
`self.assume(nlit, deps.clone())?.unsat()`: the `?` early-returns any
outcome raised while assuming the negated literal unchanged, and only a
refutation raised by the inner `unsat` call is wrapped with the combined
conflict sets plus the unit conflict clause for the negated decision
literal. `assumeF` and `unsatF` stand for `Cdcl::assume` and `Cdcl::unsat`
at the current fuel. -/
def cdclSecond (assumeF : CdclS L → L → List L → CRes L (CdclS L))
    (unsatF : CdclS L → CRes L Empty) (st : CdclS L) (lit : L)
    (deps : List L) (conflict0 : List (LClause L)) : CRes L Empty :=
  let conflict := cdclShift neg lit conflict0
  if lit ∈ deps then
    let deps2 := deps.erase lit
    let st2 : CdclS L := if conflict = [] then st else ⟨st.γ, st.δ ++ conflict⟩
    match assumeF st2 (neg lit) deps2 with
    | .ok new2 =>
      match unsatF new2 with
      | .out (.unsat newDeps newConflict) =>
        .out (.unsat newDeps
               (lclausesInsert (lclausesExtend conflict newConflict)
                 ⟨clauseNew [neg lit], deps2⟩))
      | r2 => r2
    | .out o => .out o
    | .panic => .panic
    | .fuelOut => .fuelOut
  else .out (.unsat deps conflict)

/-- `Cdcl::unsat`: on an empty CNF raise `Sat` with the environment's keys.
Otherwise decide the first literal of the first clause, assumed with itself
as cause; a refutation of that branch is handled by `cdclSecond`. -/
def cdclUnsat (fuel : Nat) (st : CdclS L) : CRes L Empty :=
  match fuel with
  | 0 => .fuelOut
  | fuel + 1 =>
    if cdclBadEnv neg st.γ then .panic
    else
      match st.δ with
      | [] => .out (.sat (alistKeys st.γ))
      | lc :: _ =>
        match lc.clause with
        | [] => .panic
        | lit :: _ =>
          match cdclUnsatStep (cdclAssume neg fuel)
              (fun st3 => cdclUnsat fuel st3) st lit (setInsert [] lit) with
          | .out (.unsat deps conflict0) =>
            cdclSecond neg (cdclAssume neg fuel) (fun st3 => cdclUnsat fuel st3)
              st lit deps conflict0
          | r1 => r1

/-- `Cdcl::solve`: run `unsat` and erase the unsat payload
(`into_unit_unsat`). -/
def cdclSolve (fuel : Nat) (st : CdclS L) : URes L :=
  match cdclUnsat neg fuel st with
  | .ok e => e.elim
  | .out (.sat m) => .out (.sat m)
  | .out (.unsat _ _) => .out .unsat
  | .panic => .panic
  | .fuelOut => .fuelOut

end CdclEngine

section BackjumpEngine

variable {L : Type} [LinearOrder L] (neg : L → L)

/-- Modelled from the spec: `src/dpll/src/recursive.rs` declares
`mod backjump` and calls `Backjump::new(f).solve()`, but the file
`recursive/backjump.rs` is not part of the sources. Following section 4.2
(same state shape and `assume`/`bcp` protocol, refutations carrying the
conflict structure) and the backjump step of section 4.3 (decision literal
absent from the returned dependency set means the refutation is propagated
unchanged, otherwise the negation is retried), the engine is the CDCL one
stripped of clause learning: dependency-labelled state and propagation, no
`shift`, no learned clauses. `unsat` decides the first literal of the first
clause, assumed caused by itself. -/
def bjUnsat (fuel : Nat) (st : CdclS L) : CRes L Empty :=
  match fuel with
  | 0 => .fuelOut
  | fuel + 1 =>
    match st.δ with
    | [] => .out (.sat (alistKeys st.γ))
    | lc :: _ =>
      match lc.clause with
      | [] => .panic
      | lit :: _ =>
        match cdclUnsatStep (cdclAssume neg fuel)
            (fun st3 => bjUnsat fuel st3) st lit (setInsert [] lit) with
        | .out (.unsat deps _) =>
          if lit ∈ deps then
            cdclUnsatStep (cdclAssume neg fuel) (fun st3 => bjUnsat fuel st3)
              st (neg lit) (deps.erase lit)
          else .out (.unsat deps [])
        | r1 => r1

/-- Modelled from the spec: entry point of the missing `Backjump` engine,
with the same outward `Outcome` shape as `Plain` (section 4.2). -/
def bjSolve (fuel : Nat) (st : CdclS L) : URes L :=
  match bjUnsat neg fuel st with
  | .ok e => e.elim
  | .out (.sat m) => .out (.sat m)
  | .out (.unsat _ _) => .out .unsat
  | .panic => .panic
  | .fuelOut => .fuelOut

end BackjumpEngine

/-- The `Dpll` variant selector from `src/dpll/src/lib.rs`. -/
inductive Dpll where
  | plain
  | backjump
  | cdcl
deriving DecidableEq, Repr

/-- The `DpllImpl` selector from `src/dpll/src/lib.rs`: only a recursive
implementation exists. -/
inductive DpllImpl where
  | recursive (d : Dpll)
deriving DecidableEq, Repr

section TopLevel

variable {L : Type} [LinearOrder L] (neg : L → L)

/-- `recursive::solve` from `src/dpll/src/recursive.rs`: dispatch on the
variant; the `Cdcl` arm returns an error — the CDCL module is not declared
there, so `Cdcl` is not reachable through this entry point. -/
def recursiveSolve (fuel : Nat) (f : List (List L)) : Dpll → Except String (URes L)
  | .plain => .ok (plainSolve neg fuel (PlainS.mk0 f))
  | .backjump => .ok (bjSolve neg fuel (CdclS.mk0 f))
  | .cdcl => .error "CDCL solver is not implemented yet"

/-- Top-level `solve` from `src/dpll/src/lib.rs`: unpack the implementation
selector and dispatch. -/
def topSolve (fuel : Nat) (f : List (List L)) : DpllImpl → Except String (URes L)
  | .recursive d => recursiveSolve neg fuel f d

end TopLevel

section ContainerLemmas

variable {L : Type} [LinearOrder L]

/-- Membership after a `Clause::push`. -/
theorem clausePush_mem (c : List L) (x a : L) :
    a ∈ clausePush c x ↔ a ∈ c ∨ a = x := by
  induction c with
  | nil => simp [clausePush]
  | cons y ys ih =>
    by_cases h1 : x < y
    · simp [clausePush, h1]
      tauto
    · by_cases h2 : x = y
      · subst h2
        simp [clausePush, h1]
        tauto
      · simp [clausePush, h1, h2, ih]
        tauto

/-- `Clause::push` preserves strict sortedness. -/
theorem clausePush_sorted {c : List L} (hs : List.Sorted (· < ·) c) (x : L) :
    List.Sorted (· < ·) (clausePush c x) := by
  induction c with
  | nil => simp [clausePush]
  | cons y ys ih =>
    rw [List.sorted_cons] at hs
    obtain ⟨hy, hys⟩ := hs
    by_cases h1 : x < y
    · rw [clausePush, if_pos h1, List.sorted_cons]
      refine ⟨?_, by rw [List.sorted_cons]; exact ⟨hy, hys⟩⟩
      intro b hb
      rcases List.mem_cons.1 hb with rfl | hb
      · exact h1
      · exact h1.trans (hy b hb)
    · by_cases h2 : x = y
      · rw [clausePush, if_neg h1, if_pos h2, List.sorted_cons]
        exact ⟨hy, hys⟩
      · rw [clausePush, if_neg h1, if_neg h2, List.sorted_cons]
        refine ⟨?_, ih hys⟩
        intro b hb
        rcases (clausePush_mem ys x b).1 hb with hb | rfl
        · exact hy b hb
        · exact lt_of_le_of_ne (not_lt.1 h1) (Ne.symm h2)

/-- `Clause::push` of a literal already present in a sorted clause is a
no-op. -/
theorem clausePush_mem_noop {c : List L} (hs : List.Sorted (· < ·) c) {x : L}
    (hx : x ∈ c) : clausePush c x = c := by
  induction c with
  | nil => cases hx
  | cons y ys ih =>
    rw [List.sorted_cons] at hs
    obtain ⟨hy, hys⟩ := hs
    rcases List.mem_cons.1 hx with rfl | hx
    · rw [clausePush, if_neg (lt_irrefl x), if_pos rfl]
    · have hyx : y < x := hy x hx
      rw [clausePush, if_neg (asymm hyx), if_neg (ne_of_gt hyx), ih hys hx]

/-- Membership in `setInsert`. -/
theorem setInsert_mem (s : List L) (x a : L) :
    a ∈ setInsert s x ↔ a ∈ s ∨ a = x := by
  by_cases h : x ∈ s
  · simp only [setInsert, if_pos h]
    constructor
    · tauto
    · rintro (ha | rfl) <;> [exact ha; exact h]
  · simp [setInsert, if_neg h]
    tauto

/-- Membership in `Set::extend`. -/
theorem setExtend_mem (s t : List L) (a : L) :
    a ∈ setExtend s t ↔ a ∈ s ∨ a ∈ t := by
  induction t generalizing s with
  | nil => simp [setExtend]
  | cons y ys ih =>
    show a ∈ setExtend (setInsert s y) ys ↔ _
    rw [ih, setInsert_mem]
    simp only [List.mem_cons]
    tauto

/-- An `alistGet` hit means the key is among the keys. -/
theorem alistGet_some_mem_keys {γ : List (L × List L)} {l : L} {v : List L}
    (h : alistGet γ l = some v) : l ∈ alistKeys γ := by
  induction γ with
  | nil => simp [alistGet] at h
  | cons p rest ih =>
    obtain ⟨k, w⟩ := p
    by_cases hk : k = l
    · subst hk
      simp [alistKeys]
    · rw [alistGet, if_neg hk] at h
      simp [alistKeys] at ih ⊢
      exact Or.inr (ih h)

/-- `alistMerge` does not change the key list. -/
theorem alistMerge_keys (γ : List (L × List L)) (l : L) (cause : List L) :
    alistKeys (alistMerge γ l cause) = alistKeys γ := by
  induction γ with
  | nil => rfl
  | cons p rest ih =>
    obtain ⟨k, w⟩ := p
    by_cases hk : k = l
    · simp [alistMerge, if_pos hk, alistKeys]
    · simp [alistMerge, if_neg hk, alistKeys]
      exact ih

/-- Looking up the merged key returns the extended dependency set. -/
theorem alistMerge_get_self {γ : List (L × List L)} {l : L} {v : List L}
    (h : alistGet γ l = some v) (cause : List L) :
    alistGet (alistMerge γ l cause) l = some (setExtend v cause) := by
  induction γ with
  | nil => simp [alistGet] at h
  | cons p rest ih =>
    obtain ⟨k, w⟩ := p
    by_cases hk : k = l
    · subst hk
      rw [alistGet, if_pos rfl] at h
      cases h
      rw [alistMerge, if_pos rfl, alistGet, if_pos rfl]
    · rw [alistGet, if_neg hk] at h
      rw [alistMerge, if_neg hk, alistGet, if_neg hk]
      exact ih h

end ContainerLemmas

/-- The satisfiable two-clause scenario formula from section 8 of the spec. -/
def exF1 : List (List RLit) := [[⟨1, false⟩, ⟨2, false⟩], [⟨1, true⟩, ⟨2, true⟩]]

/-- The formula `[[1, 2], [-1]]` separating the two Plain implementations. -/
def exF10 : List (List RLit) := [[⟨1, false⟩, ⟨2, false⟩], [⟨1, true⟩]]

/-- The formula made of a single empty clause. -/
def exFEmptyClause : List (List RLit) := [[]]

/-- C3, counterexample: selecting the `Cdcl` variant makes the top-level
`solve` return an `Err`, on the empty formula already. -/
theorem topSolve_cdcl_err :
    topSolve RLit.negate 1 ([] : List (List RLit)) (.recursive .cdcl) =
      .error "CDCL solver is not implemented yet" := rfl

/-- C3, amended: for every CNF formula, `solve` returns `Ok` with an outcome
for the `Plain` and `Backjump` variants, but the `Cdcl` arm of
`recursive::solve` returns the error `"CDCL solver is not implemented yet"`
(the `recursive::cdcl` module is dead code, not declared in
`recursive.rs`). -/
theorem topSolve_ok_except_cdcl {L : Type} [LinearOrder L] (neg : L → L)
    (fuel : Nat) (f : List (List L)) :
    (∃ r, topSolve neg fuel f (.recursive .plain) = .ok r) ∧
    (∃ r, topSolve neg fuel f (.recursive .backjump) = .ok r) ∧
    topSolve neg fuel f (.recursive .cdcl) =
      .error "CDCL solver is not implemented yet" :=
  ⟨⟨_, rfl⟩, ⟨_, rfl⟩, rfl⟩

/-- C9, counterexample: `Clause::new` only sorts — it does not remove
duplicates, so the clause built from `vec![1, 1]` has two equal entries and
is not strictly sorted (the code's own `invariant` only rejects *decreasing*
adjacent pairs, so it accepts this clause). -/
theorem clauseNew_dup_cex :
    ¬ (List.Sorted (· < ·) (clauseNew [(⟨1, false⟩ : RLit), ⟨1, false⟩]) ∧
       (clauseNew [(⟨1, false⟩ : RLit), ⟨1, false⟩]).Nodup) := by
  decide

/-- C9, amended: for every literal vector, `Clause::new` returns a
permutation of it sorted in non-decreasing order (duplicates are kept). -/
theorem clauseNew_sorted_perm {L : Type} [LinearOrder L] (lits : List L) :
    List.Sorted (· ≤ ·) (clauseNew lits) ∧ (clauseNew lits).Perm lits :=
  ⟨List.sorted_insertionSort _ lits, List.perm_insertionSort _ lits⟩

/-- C8: any sequence of `Clause::push` operations starting from
`Clause::empty()` yields a strictly sorted, duplicate-free literal sequence,
and pushing a literal that is already present leaves the clause unchanged. -/
theorem clause_push_invariant {L : Type} [LinearOrder L] (pushes : List L) :
    List.Sorted (· < ·) (pushes.foldl clausePush []) ∧
    (pushes.foldl clausePush []).Nodup ∧
    ∀ lit ∈ pushes.foldl clausePush [],
      clausePush (pushes.foldl clausePush []) lit = pushes.foldl clausePush [] := by
  have key : ∀ (acc : List L), List.Sorted (· < ·) acc →
      List.Sorted (· < ·) (pushes.foldl clausePush acc) := by
    induction pushes with
    | nil => intro acc h; exact h
    | cons p ps ih => intro acc h; exact ih _ (clausePush_sorted h p)
  have hs := key [] (by simp)
  exact ⟨hs, hs.nodup, fun lit hl => clausePush_mem_noop hs hl⟩

/-- C8, witness instantiation at a concrete push sequence. -/
theorem clause_push_invariant_witness :
    List.Sorted (· < ·) ([(⟨2, false⟩ : RLit), ⟨1, true⟩, ⟨2, false⟩].foldl clausePush []) ∧
    ((⟨1, true⟩ : RLit) ∈ [(⟨2, false⟩ : RLit), ⟨1, true⟩, ⟨2, false⟩].foldl clausePush [] →
      clausePush ([(⟨2, false⟩ : RLit), ⟨1, true⟩, ⟨2, false⟩].foldl clausePush []) ⟨1, true⟩ =
        [(⟨2, false⟩ : RLit), ⟨1, true⟩, ⟨2, false⟩].foldl clausePush []) := by
  obtain ⟨h1, _, h3⟩ := clause_push_invariant [(⟨2, false⟩ : RLit), ⟨1, true⟩, ⟨2, false⟩]
  exact ⟨h1, h3 _⟩

/-- C6: in the CDCL engine, `assume` on a literal already present in a
well-formed environment is never an error: it returns `Ok` with the same key
set (no duplicated literal) and maps the literal to the union of its
previous dependency set and the new cause. -/
theorem cdcl_assume_occupied {L : Type} [LinearOrder L] (neg : L → L)
    (fuel : Nat) (st : CdclS L) (lit : L) (cause D : List L)
    (henv : ¬ cdclBadEnv neg st.γ) (hD : alistGet st.γ lit = some D) :
    cdclAssume neg (fuel + 1) st lit cause = .ok ⟨alistMerge st.γ lit cause, st.δ⟩ ∧
    alistKeys (alistMerge st.γ lit cause) = alistKeys st.γ ∧
    alistGet (alistMerge st.γ lit cause) lit = some (setExtend D cause) ∧
    ∀ x, x ∈ setExtend D cause ↔ x ∈ D ∨ x ∈ cause := by
  refine ⟨?_, alistMerge_keys st.γ lit cause, alistMerge_get_self hD cause,
    fun x => setExtend_mem D cause x⟩
  rw [cdclAssume, if_neg henv, if_pos (alistGet_some_mem_keys hD)]

/-- C6, witness instantiation: re-assuming literal `1` with cause `{2}` when
it is already bound to `{3}` unions the causes. -/
theorem cdcl_assume_occupied_witness :
    cdclAssume RLit.negate 1 ⟨[(⟨1, false⟩, [⟨3, false⟩])], []⟩ ⟨1, false⟩ [⟨2, false⟩] =
      .ok ⟨[(⟨1, false⟩, [⟨2, false⟩, ⟨3, false⟩])], []⟩ ∧
    ((⟨2, false⟩ : RLit) ∈ setExtend [(⟨3, false⟩ : RLit)] [⟨2, false⟩] ↔
      (⟨2, false⟩ : RLit) ∈ [(⟨3, false⟩ : RLit)] ∨ (⟨2, false⟩ : RLit) ∈ [(⟨2, false⟩ : RLit)]) := by
  obtain ⟨h1, _, _, h4⟩ :=
    cdcl_assume_occupied RLit.negate 0 ⟨[(⟨1, false⟩, [⟨3, false⟩])], []⟩ ⟨1, false⟩
      [⟨2, false⟩] [⟨3, false⟩] (by decide) (by decide)
  exact ⟨by rw [h1]; decide, h4 _⟩

/-- C10, counterexample: on `[[1, 2], [-1]]` the recursive `Plain` returns
`Sat` while the undeclared functional `Plain` returns `Unsat` (its `unsat`
propagates the first branch's refutation with `?` instead of trying the
negated decision literal), so the two implementations do not agree. -/
theorem fn_recursive_disagree :
    plainSolve RLit.negate 30 (PlainS.mk0 exF10) = .out (.sat [⟨2, false⟩, ⟨1, true⟩]) ∧
    fnSolve RLit.negate 30 (PlainS.mk0 exF10) = .out .unsat := by
  constructor <;> decide

/-- C10, amended: the two Plain implementations disagree on satisfiability
in general; the undeclared functional `Plain` differs in that its `assume`
on an already-present literal returns `Ok` with the state unchanged instead
of failing. -/
theorem fnAssume_present_noop {L : Type} [LinearOrder L] (neg : L → L)
    (fuel : Nat) (st : PlainS L) (lit : L) (h : lit ∈ st.γ) :
    fnAssume neg (fuel + 1) st lit = .ok st := by
  rw [fnAssume, if_pos h]

/-- C10, witness instantiation of the amended no-op property. -/
theorem fnAssume_present_noop_witness :
    (⟨1, false⟩ : RLit) ∈ [(⟨1, false⟩ : RLit)] ∧
    fnAssume RLit.negate 1 ⟨[⟨1, false⟩], []⟩ ⟨1, false⟩ = .ok ⟨[⟨1, false⟩], []⟩ :=
  ⟨by decide, fnAssume_present_noop RLit.negate 0 ⟨[⟨1, false⟩], []⟩ ⟨1, false⟩ (by decide)⟩

/-- C7: the panic branches are reachable. On the formula consisting of one
empty clause, every engine's very first `unsat` call selects the first
clause, finds no literal in it, and hits the
`panic!("illegal empty disjunct in application of unsat rule")` branch —
whereas section 8 of the spec expects this formula to yield `Unsat`
immediately. -/
theorem empty_clause_panics :
    plainSolve RLit.negate 5 (PlainS.mk0 exFEmptyClause) = .panic ∧
    cdclSolve RLit.negate 5 (CdclS.mk0 exFEmptyClause) = .panic ∧
    bjSolve RLit.negate 5 (CdclS.mk0 exFEmptyClause) = .panic := by
  refine ⟨by decide, by decide, by decide⟩

section PlainSoundness

variable {L : Type} [LinearOrder L] (neg : L → L)

/-- A clause is satisfied by an environment when one of its literals is
in it. -/
def satClause (γ C : List L) : Prop := ∃ l ∈ C, l ∈ γ

/-- Search invariant of a `Plain` state: the environment is consistent and
every literal of the working CNF is unknown (neither it nor its negation has
been assumed). -/
def PlainInv (st : PlainS L) : Prop :=
  consistent neg st.γ ∧ ∀ C ∈ st.δ, ∀ l ∈ C, l ∉ st.γ ∧ neg l ∉ st.γ

/-- A clause is covered by a state: it is satisfied by the environment, or
a subclause of it is still in the working CNF. -/
def coversTo (st2 : PlainS L) (C : List L) : Prop :=
  satClause st2.γ C ∨ ∃ D ∈ st2.δ, D ⊆ C

/-- Soundness contract of an `assume`-shaped function: called on a
consistent environment with an unknown literal, a normal return establishes
the search invariant, only grows the environment, records the literal, and
covers every clause of the input CNF. -/
def AssumeOK (assumeF : PlainS L → L → PRes L (PlainS L)) : Prop :=
  ∀ st lit st2, consistent neg st.γ → lit ∉ st.γ → neg lit ∉ st.γ →
    assumeF st lit = .ok st2 →
    PlainInv neg st2 ∧ st.γ ⊆ st2.γ ∧ lit ∈ st2.γ ∧ ∀ C ∈ st.δ, coversTo st2 C

/-- Inserting an unknown literal preserves consistency. -/
theorem consistent_insert (hinv : ∀ l, neg (neg l) = l) (hne : ∀ l, neg l ≠ l)
    {γ : List L} (hc : consistent neg γ) {lit : L}
    (h1 : lit ∉ γ) (h2 : neg lit ∉ γ) : consistent neg (lit :: γ) := by
  intro x hx
  rcases List.mem_cons.1 hx with rfl | hx
  · intro hmem
    rcases List.mem_cons.1 hmem with heq | hmem
    · exact hne x heq
    · exact h2 hmem
  · intro hmem
    rcases List.mem_cons.1 hmem with heq | hmem
    · have hx2 : x = neg lit := by rw [← heq, hinv]
      rw [hx2] at hx
      exact h2 hx
    · exact hc x hx hmem

/-- A satisfied clause stays satisfied when the environment grows. -/
theorem satClause_mono {γ γ2 C : List L} (hsub : γ ⊆ γ2) (h : satClause γ C) :
    satClause γ2 C := by
  obtain ⟨l, hl, hmem⟩ := h
  exact ⟨l, hl, hsub hmem⟩

/-- Chaining coverage through a later state. -/
theorem coversTo_trans {st2 st3 : PlainS L} {C : List L}
    (hcov : ∀ D ∈ st2.δ, coversTo st3 D) (hsub : st2.γ ⊆ st3.γ)
    (h : coversTo st2 C) : coversTo st3 C := by
  rcases h with h | ⟨D, hD, hDC⟩
  · exact Or.inl (satClause_mono hsub h)
  · rcases hcov D hD with ⟨l, hl, hm⟩ | ⟨E, hE, hED⟩
    · exact Or.inl ⟨l, hDC hl, hm⟩
    · exact Or.inr ⟨E, hE, hED.trans hDC⟩

/-- The clause reduction loop returns `none` exactly when some literal of
the clause is true in the environment. -/
theorem reduceGo_none {γ : List L} (lits acc : List L) :
    reduceGo neg γ lits acc = none ↔ ∃ l ∈ lits, l ∈ γ := by
  induction lits generalizing acc with
  | nil => simp [reduceGo]
  | cons lit rest ih =>
    by_cases h1 : lit ∈ γ
    · simp [reduceGo, h1]
    · by_cases h2 : neg lit ∈ γ
      · rw [reduceGo, if_neg h1, if_pos h2, ih]
        simp only [List.mem_cons]
        constructor
        · rintro ⟨l, hl, hm⟩
          exact ⟨l, Or.inr hl, hm⟩
        · rintro ⟨l, rfl | hl, hm⟩
          · exact absurd hm h1
          · exact ⟨l, hl, hm⟩
      · rw [reduceGo, if_neg h1, if_neg h2, ih]
        simp only [List.mem_cons]
        constructor
        · rintro ⟨l, hl, hm⟩
          exact ⟨l, Or.inr hl, hm⟩
        · rintro ⟨l, rfl | hl, hm⟩
          · exact absurd hm h1
          · exact ⟨l, hl, hm⟩

/-- Characterisation of the literals of a reduced clause: those already in
the accumulator, plus the clause literals whose truth is unknown. -/
theorem reduceGo_some {γ : List L} {lits acc res : List L}
    (h : reduceGo neg γ lits acc = some res) :
    ∀ a, a ∈ res ↔ a ∈ acc ∨ (a ∈ lits ∧ a ∉ γ ∧ neg a ∉ γ) := by
  induction lits generalizing acc with
  | nil =>
    rw [reduceGo] at h
    cases h
    simp
  | cons lit rest ih =>
    by_cases h1 : lit ∈ γ
    · rw [reduceGo, if_pos h1] at h
      cases h
    · by_cases h2 : neg lit ∈ γ
      · rw [reduceGo, if_neg h1, if_pos h2] at h
        intro a
        rw [ih h a]
        simp only [List.mem_cons]
        constructor
        · rintro (ha | ⟨hl, hu⟩)
          · exact Or.inl ha
          · exact Or.inr ⟨Or.inr hl, hu⟩
        · rintro (ha | ⟨rfl | hl, hu⟩)
          · exact Or.inl ha
          · exact absurd h2 hu.2
          · exact Or.inr ⟨hl, hu⟩
      · rw [reduceGo, if_neg h1, if_neg h2] at h
        intro a
        rw [ih h a, clausePush_mem]
        simp only [List.mem_cons]
        constructor
        · rintro ((ha | rfl) | ⟨hl, hu⟩)
          · exact Or.inl ha
          · exact Or.inr ⟨Or.inl rfl, h1, h2⟩
          · exact Or.inr ⟨Or.inr hl, hu⟩
        · rintro (ha | ⟨rfl | hl, hu⟩)
          · exact Or.inl (Or.inl ha)
          · exact Or.inl (Or.inr rfl)
          · exact Or.inr ⟨hl, hu⟩

/-- Unfolding `plainBcpGo` when the clause is dropped. -/
theorem plainBcpGo_cons_drop {assumeF : PlainS L → L → PRes L (PlainS L)}
    {new : PlainS L} {disj : List L} {rest : List (List L)}
    (hr : reduceClause neg new.γ disj = none) :
    plainBcpGo neg assumeF new (disj :: rest) = plainBcpGo neg assumeF new rest := by
  simp only [plainBcpGo, hr]

/-- Unfolding `plainBcpGo` when the clause reduces to the empty clause. -/
theorem plainBcpGo_cons_empty {assumeF : PlainS L → L → PRes L (PlainS L)}
    {new : PlainS L} {disj : List L} {rest : List (List L)}
    (hr : reduceClause neg new.γ disj = some []) :
    plainBcpGo neg assumeF new (disj :: rest) = .out .unsat := by
  simp only [plainBcpGo, hr]

/-- Unfolding `plainBcpGo` when the clause reduces to a unit and the assume
succeeds. -/
theorem plainBcpGo_cons_unit_ok {assumeF : PlainS L → L → PRes L (PlainS L)}
    {new new2 : PlainS L} {disj : List L} {l : L} {rest : List (List L)}
    (hr : reduceClause neg new.γ disj = some [l]) (ha : assumeF new l = .ok new2) :
    plainBcpGo neg assumeF new (disj :: rest) = plainBcpGo neg assumeF new2 rest := by
  simp only [plainBcpGo, hr, ha]

/-- Unfolding `plainBcpGo` when the clause reduces to a unit and the assume
propagates an outcome. -/
theorem plainBcpGo_cons_unit_out {assumeF : PlainS L → L → PRes L (PlainS L)}
    {new : PlainS L} {disj : List L} {l : L} {rest : List (List L)} {o : POut L}
    (hr : reduceClause neg new.γ disj = some [l]) (ha : assumeF new l = .out o) :
    plainBcpGo neg assumeF new (disj :: rest) = .out o := by
  simp only [plainBcpGo, hr, ha]

/-- Unfolding `plainBcpGo` when the clause reduces to a unit and the assume
panics. -/
theorem plainBcpGo_cons_unit_panic {assumeF : PlainS L → L → PRes L (PlainS L)}
    {new : PlainS L} {disj : List L} {l : L} {rest : List (List L)}
    (hr : reduceClause neg new.γ disj = some [l]) (ha : assumeF new l = .panic) :
    plainBcpGo neg assumeF new (disj :: rest) = .panic := by
  simp only [plainBcpGo, hr, ha]

/-- Unfolding `plainBcpGo` when the clause reduces to a unit and the assume
runs out of fuel. -/
theorem plainBcpGo_cons_unit_fuel {assumeF : PlainS L → L → PRes L (PlainS L)}
    {new : PlainS L} {disj : List L} {l : L} {rest : List (List L)}
    (hr : reduceClause neg new.γ disj = some [l]) (ha : assumeF new l = .fuelOut) :
    plainBcpGo neg assumeF new (disj :: rest) = .fuelOut := by
  simp only [plainBcpGo, hr, ha]

/-- Unfolding `plainBcpGo` when the reduced clause is kept. -/
theorem plainBcpGo_cons_keep {assumeF : PlainS L → L → PRes L (PlainS L)}
    {new : PlainS L} {disj : List L} {rest : List (List L)} {a b : L} {res2 : List L}
    (hr : reduceClause neg new.γ disj = some (a :: b :: res2)) :
    plainBcpGo neg assumeF new (disj :: rest) =
      plainBcpGo neg assumeF ⟨new.γ, new.δ ++ [a :: b :: res2]⟩ rest := by
  simp only [plainBcpGo, hr]

/-- The `bcp` loop is sound: given a sound `assume` and a state satisfying
the search invariant, a normal return satisfies the invariant, grows the
environment, and covers both the clauses already kept and those still to be
processed. -/
theorem plainBcpGo_sound {assumeF : PlainS L → L → PRes L (PlainS L)}
    (hA : AssumeOK neg assumeF) :
    ∀ (todo : List (List L)) (new st2 : PlainS L), PlainInv neg new →
      plainBcpGo neg assumeF new todo = .ok st2 →
      PlainInv neg st2 ∧ new.γ ⊆ st2.γ ∧
        ∀ C, C ∈ new.δ ∨ C ∈ todo → coversTo st2 C := by
  intro todo
  induction todo with
  | nil =>
    intro new st2 hI h
    rw [plainBcpGo] at h
    cases h
    refine ⟨hI, fun a ha => ha, fun C hC => ?_⟩
    rcases hC with hC | hC
    · exact Or.inr ⟨C, hC, fun a ha => ha⟩
    · cases hC
  | cons disj rest ih =>
    intro new st2 hI h
    rcases hr : reduceClause neg new.γ disj with _ | (_ | ⟨l, _ | ⟨b, res2⟩⟩)
    · rw [plainBcpGo_cons_drop neg hr] at h
      obtain ⟨hI2, hsub, hcov⟩ := ih new st2 hI h
      refine ⟨hI2, hsub, fun C hC => ?_⟩
      rcases hC with hC | hC
      · exact hcov C (Or.inl hC)
      · rcases List.mem_cons.1 hC with rfl | hC
        · obtain ⟨l, hl, hm⟩ := (reduceGo_none neg _ _).1 hr
          exact Or.inl ⟨l, hl, hsub hm⟩
        · exact hcov C (Or.inr hC)
    · rw [plainBcpGo_cons_empty neg hr] at h
      cases h
    · have hres := reduceGo_some neg hr
      have hl : l ∈ disj ∧ l ∉ new.γ ∧ neg l ∉ new.γ := by
        have := (hres l).1 (by simp)
        simpa using this
      rcases ha : assumeF new l with new2 | o | _ | _
      · rw [plainBcpGo_cons_unit_ok neg hr ha] at h
        obtain ⟨hI2, hsub2, hmem2, hcov2⟩ :=
          hA new l new2 hI.1 hl.2.1 hl.2.2 ha
        obtain ⟨hI3, hsub3, hcov3⟩ := ih new2 st2 hI2 h
        refine ⟨hI3, hsub2.trans hsub3, fun C hC => ?_⟩
        rcases hC with hC | hC
        · exact coversTo_trans (fun D hD => hcov3 D (Or.inl hD)) hsub3 (hcov2 C hC)
        · rcases List.mem_cons.1 hC with rfl | hC
          · exact Or.inl ⟨l, hl.1, hsub3 hmem2⟩
          · exact hcov3 C (Or.inr hC)
      · rw [plainBcpGo_cons_unit_out neg hr ha] at h
        cases h
      · rw [plainBcpGo_cons_unit_panic neg hr ha] at h
        cases h
      · rw [plainBcpGo_cons_unit_fuel neg hr ha] at h
        cases h
    · have hres := reduceGo_some neg hr
      rw [plainBcpGo_cons_keep neg hr] at h
      have hsubd : l :: b :: res2 ⊆ disj := by
        intro x hx
        have := (hres x).1 hx
        simpa using ((this.resolve_left (by simp)).1)
      have hI2 : PlainInv neg (⟨new.γ, new.δ ++ [l :: b :: res2]⟩ : PlainS L) := by
        refine ⟨hI.1, fun C hC y hy => ?_⟩
        rcases List.mem_append.1 hC with hC | hC
        · exact hI.2 C hC y hy
        · rcases List.mem_singleton.1 hC with rfl
          have := (hres y).1 hy
          exact (this.resolve_left (by simp)).2
      obtain ⟨hI3, hsub3, hcov3⟩ := ih _ st2 hI2 h
      refine ⟨hI3, hsub3, fun C hC => ?_⟩
      rcases hC with hC | hC
      · exact hcov3 C (Or.inl (List.mem_append.2 (Or.inl hC)))
      · rcases List.mem_cons.1 hC with rfl | hC
        · have hcc : coversTo st2 (l :: b :: res2) :=
            hcov3 _ (Or.inl (List.mem_append.2 (Or.inr (by simp))))
          rcases hcc with ⟨y, hy, hm⟩ | ⟨E, hE, hES⟩
          · exact Or.inl ⟨y, hsubd hy, hm⟩
          · exact Or.inr ⟨E, hE, hES.trans hsubd⟩
        · exact hcov3 C (Or.inr hC)

/-- `Plain::assume` satisfies the soundness contract at every fuel. -/
theorem plainAssume_assumeOK (hinv : ∀ l, neg (neg l) = l) (hne : ∀ l, neg l ≠ l) :
    ∀ fuel, AssumeOK neg (plainAssume neg fuel) := by
  intro fuel
  induction fuel using Nat.strong_induction_on with
  | _ fuel IH =>
    match fuel with
    | 0 => intro st lit st2 _ _ _ h; cases h
    | 1 =>
      intro st lit st2 hc h1 h2 h
      rw [plainAssume, if_neg h1] at h
      cases h
    | f + 2 =>
      intro st lit st2 hc h1 h2 h
      rw [plainAssume, if_neg h1, plainBcpFn_succ] at h
      have hI : PlainInv neg (⟨lit :: st.γ, []⟩ : PlainS L) :=
        ⟨consistent_insert neg hinv hne hc h1 h2, by simp⟩
      obtain ⟨hI2, hsub, hcov⟩ :=
        plainBcpGo_sound neg (IH f (by omega)) st.δ _ st2 hI h
      refine ⟨hI2, fun a ha => hsub (List.mem_cons.2 (Or.inr ha)),
        hsub (List.mem_cons.2 (Or.inl rfl)), fun C hC => hcov C (Or.inr hC)⟩

/-- Neither the `bcp` loop nor a `Sat`-free `assume` ever raises `Sat`. -/
theorem plainBcpGo_no_sat {assumeF : PlainS L → L → PRes L (PlainS L)}
    (hA : ∀ st lit m, assumeF st lit ≠ .out (.sat m)) :
    ∀ (todo : List (List L)) (new : PlainS L) (m : List L),
      plainBcpGo neg assumeF new todo ≠ .out (.sat m) := by
  intro todo
  induction todo with
  | nil =>
    intro new m h
    rw [plainBcpGo] at h
    cases h
  | cons disj rest ih =>
    intro new m h
    rcases hr : reduceClause neg new.γ disj with _ | (_ | ⟨l, _ | ⟨b, res2⟩⟩)
    · rw [plainBcpGo_cons_drop neg hr] at h
      exact ih new m h
    · rw [plainBcpGo_cons_empty neg hr] at h
      cases h
    · rcases ha : assumeF new l with new2 | o | _ | _
      · rw [plainBcpGo_cons_unit_ok neg hr ha] at h
        exact ih new2 m h
      · rw [plainBcpGo_cons_unit_out neg hr ha] at h
        cases h
        exact hA new l m ha
      · rw [plainBcpGo_cons_unit_panic neg hr ha] at h
        cases h
      · rw [plainBcpGo_cons_unit_fuel neg hr ha] at h
        cases h
    · rw [plainBcpGo_cons_keep neg hr] at h
      exact ih _ m h

/-- `Plain::assume` never raises a `Sat` outcome. -/
theorem plainAssume_no_sat :
    ∀ fuel (st : PlainS L) lit m, plainAssume neg fuel st lit ≠ .out (.sat m) := by
  intro fuel
  induction fuel using Nat.strong_induction_on with
  | _ fuel IH =>
    match fuel with
    | 0 => intro st lit m h; cases h
    | 1 =>
      intro st lit m h
      rw [plainAssume] at h
      by_cases h1 : lit ∈ st.γ
      · rw [if_pos h1] at h; cases h
      · rw [if_neg h1] at h; cases h
    | f + 2 =>
      intro st lit m h
      rw [plainAssume] at h
      by_cases h1 : lit ∈ st.γ
      · rw [if_pos h1] at h
        cases h
      · rw [if_neg h1, plainBcpFn_succ] at h
        exact plainBcpGo_no_sat neg (fun st2 l m2 => IH f (by omega) st2 l m2) _ _ m h

end PlainSoundness

section PlainUnsatSoundness

variable {L : Type} [LinearOrder L] (neg : L → L)

/-- A covered clause is satisfied by any model of the covering state. -/
theorem satClause_of_covers {st2 : PlainS L} {C m : List L}
    (hcov : coversTo st2 C) (hsub : st2.γ ⊆ m)
    (hmod : ∀ D ∈ st2.δ, satClause m D) : satClause m C := by
  rcases hcov with h | ⟨D, hD, hDC⟩
  · exact satClause_mono hsub h
  · obtain ⟨l, hl, hm⟩ := hmod D hD
    exact ⟨l, hDC hl, hm⟩

/-- Sat-soundness of `Plain::unsat`: under the search invariant, a raised
`Sat` model is a consistent extension of the environment satisfying every
clause of the working CNF. -/
theorem plainUnsat_sat_sound (hinv : ∀ l, neg (neg l) = l) (hne : ∀ l, neg l ≠ l) :
    ∀ fuel (st : PlainS L) m, PlainInv neg st →
      plainUnsat neg fuel st = .out (.sat m) →
      consistent neg m ∧ st.γ ⊆ m ∧ ∀ C ∈ st.δ, satClause m C := by
  intro fuel
  induction fuel with
  | zero => intro st m _ h; cases h
  | succ fuel IH =>
    rintro ⟨γ, δ⟩ m hI h
    match δ, h with
    | [], h =>
      simp only [plainUnsat] at h
      cases h
      exact ⟨hI.1, fun a ha => ha, by simp⟩
    | [] :: rest, h =>
      simp only [plainUnsat] at h
      cases h
    | (lit :: ds) :: rest, h =>
      have hunk : lit ∉ γ ∧ neg lit ∉ γ :=
        hI.2 (lit :: ds) (by simp) lit (by simp)
      have hAOK := plainAssume_assumeOK neg hinv hne fuel
      have hstep : ∀ l2 m2, l2 ∉ γ → neg l2 ∉ γ →
          plainUnsatStep (plainAssume neg fuel) (fun st2 => plainUnsat neg fuel st2)
            ⟨γ, (lit :: ds) :: rest⟩ l2 = .out (.sat m2) →
          consistent neg m2 ∧ γ ⊆ m2 ∧ ∀ C ∈ (lit :: ds) :: rest, satClause m2 C := by
        intro l2 m2 hu1 hu2 hs
        rcases ha : plainAssume neg fuel ⟨γ, (lit :: ds) :: rest⟩ l2 with new | o | _ | _
        · rw [plainUnsatStep_ok ha] at hs
          obtain ⟨hI2, hsub2, hmem2, hcov2⟩ := hAOK _ l2 new hI.1 hu1 hu2 ha
          obtain ⟨hcm, hsubm, hmodm⟩ := IH new m2 hI2 hs
          exact ⟨hcm, hsub2.trans hsubm,
            fun C hC => satClause_of_covers (hcov2 C hC) hsubm hmodm⟩
        · rw [plainUnsatStep_out ha] at hs
          cases hs
          exact absurd ha (plainAssume_no_sat neg fuel _ _ m2)
        · rw [plainUnsatStep_panic ha] at hs
          cases hs
        · rw [plainUnsatStep_fuel ha] at hs
          cases hs
      simp only [plainUnsat] at h
      rcases hs1 : plainUnsatStep (plainAssume neg fuel)
          (fun st2 => plainUnsat neg fuel st2) ⟨γ, (lit :: ds) :: rest⟩ lit
        with o1 | _ | _ <;> simp only [hs1] at h
      · match o1, hs1, h with
        | .sat m2, hs1, h =>
          cases h
          exact hstep lit m hunk.1 hunk.2 hs1
        | .unsat, hs1, h =>
          refine hstep (neg lit) m hunk.2 ?_ h
          rw [hinv]
          exact hunk.1
      · cases h
      · cases h

/-- Sat-soundness of `Plain::solve` on the state built from a formula. -/
theorem plainSolve_sat_sound (hinv : ∀ l, neg (neg l) = l) (hne : ∀ l, neg l ≠ l)
    (fuel : Nat) (f : List (List L)) (m : List L)
    (h : plainSolve neg fuel (PlainS.mk0 f) = .out (.sat m)) :
    consistent neg m ∧ ∀ C ∈ f, satClause m C := by
  have hI : PlainInv neg (PlainS.mk0 f) := by
    constructor
    · intro l hl
      cases hl
    · intro C hC l hl
      exact ⟨List.not_mem_nil l, List.not_mem_nil (neg l)⟩
  obtain ⟨h1, _, h3⟩ := plainUnsat_sat_sound neg hinv hne fuel _ m hI h
  exact ⟨h1, h3⟩

end PlainUnsatSoundness

section CdclSoundness

variable {L : Type} [LinearOrder L] (neg : L → L)

/-- A failed lookup means the key is absent. -/
theorem alistGet_none {γ : List (L × List L)} {l : L} :
    alistGet γ l = none ↔ l ∉ alistKeys γ := by
  induction γ with
  | nil => simp [alistGet, alistKeys]
  | cons p rest ih =>
    obtain ⟨k, v⟩ := p
    by_cases hk : k = l
    · subst hk
      simp [alistGet, alistKeys]
    · rw [alistGet, if_neg hk, ih]
      constructor
      · intro h hmem
        rcases List.mem_cons.1 hmem with heq | hmem2
        · exact hk heq.symm
        · exact h hmem2
      · intro h hmem
        exact h (List.mem_cons.2 (Or.inr hmem))

/-- The debug environment walk fails exactly on inconsistent key sets. -/
theorem cdclBadEnv_iff_not_consistent (γ : List (L × List L)) :
    ¬ cdclBadEnv neg γ ↔ consistent neg (alistKeys γ) := by
  unfold cdclBadEnv consistent
  push_neg
  rfl

/-- Search invariant of a `Cdcl` state: consistent assumed keys and every
working-CNF literal unknown. -/
def CdclInv (st : CdclS L) : Prop :=
  consistent neg (alistKeys st.γ) ∧
  ∀ lc ∈ st.δ, ∀ l ∈ lc.clause, l ∉ alistKeys st.γ ∧ neg l ∉ alistKeys st.γ

/-- A clause is covered by a `Cdcl` state: satisfied by the assumed keys, or
a subclause of it is still in the working CNF. -/
def coversToC (st2 : CdclS L) (C : List L) : Prop :=
  satClause (alistKeys st2.γ) C ∨ ∃ D ∈ st2.δ, D.clause ⊆ C

/-- Soundness contract of a CDCL `assume`-shaped function, mirroring
`AssumeOK`. -/
def CAssumeOK (assumeF : CdclS L → L → List L → CRes L (CdclS L)) : Prop :=
  ∀ st lit cause st2, consistent neg (alistKeys st.γ) →
    lit ∉ alistKeys st.γ → neg lit ∉ alistKeys st.γ →
    assumeF st lit cause = .ok st2 →
    CdclInv neg st2 ∧ alistKeys st.γ ⊆ alistKeys st2.γ ∧ lit ∈ alistKeys st2.γ ∧
      ∀ lc ∈ st.δ, coversToC st2 lc.clause

/-- A covered clause is satisfied by any model of the covering state. -/
theorem satClause_of_coversC {st2 : CdclS L} {C m : List L}
    (hcov : coversToC st2 C) (hsub : alistKeys st2.γ ⊆ m)
    (hmod : ∀ D ∈ st2.δ, satClause m D.clause) : satClause m C := by
  rcases hcov with h | ⟨D, hD, hDC⟩
  · exact satClause_mono hsub h
  · obtain ⟨l, hl, hm⟩ := hmod D hD
    exact ⟨l, hDC hl, hm⟩

/-- The CDCL clause reduction loop returns `none` exactly when some literal
of the clause is assumed. -/
theorem creduceGo_none {γ : List (L × List L)} (lits accC accD : List L) :
    creduceGo neg γ lits accC accD = none ↔ ∃ l ∈ lits, l ∈ alistKeys γ := by
  induction lits generalizing accC accD with
  | nil => simp [creduceGo]
  | cons lit rest ih =>
    by_cases h1 : lit ∈ alistKeys γ
    · simp [creduceGo, h1]
    · rcases hg : alistGet γ (neg lit) with _ | deps
      · rw [creduceGo, if_neg h1, hg, ih]
        simp only [List.mem_cons]
        constructor
        · rintro ⟨l, hl, hm⟩
          exact ⟨l, Or.inr hl, hm⟩
        · rintro ⟨l, rfl | hl, hm⟩
          · exact absurd hm h1
          · exact ⟨l, hl, hm⟩
      · rw [creduceGo, if_neg h1, hg, ih]
        simp only [List.mem_cons]
        constructor
        · rintro ⟨l, hl, hm⟩
          exact ⟨l, Or.inr hl, hm⟩
        · rintro ⟨l, rfl | hl, hm⟩
          · exact absurd hm h1
          · exact ⟨l, hl, hm⟩

/-- Characterisation of the literals kept by the CDCL clause reduction. -/
theorem creduceGo_some {γ : List (L × List L)} {lits accC accD resC resD : List L}
    (h : creduceGo neg γ lits accC accD = some (resC, resD)) :
    ∀ a, a ∈ resC ↔ a ∈ accC ∨ (a ∈ lits ∧ a ∉ alistKeys γ ∧ neg a ∉ alistKeys γ) := by
  induction lits generalizing accC accD with
  | nil =>
    rw [creduceGo] at h
    cases h
    simp
  | cons lit rest ih =>
    by_cases h1 : lit ∈ alistKeys γ
    · rw [creduceGo, if_pos h1] at h
      cases h
    · rcases hg : alistGet γ (neg lit) with _ | deps
      · have h2 : neg lit ∉ alistKeys γ := alistGet_none.1 hg
        rw [creduceGo, if_neg h1, hg] at h
        intro a
        rw [ih h a, clausePush_mem]
        simp only [List.mem_cons]
        constructor
        · rintro ((ha | rfl) | ⟨hl, hu⟩)
          · exact Or.inl ha
          · exact Or.inr ⟨Or.inl rfl, h1, h2⟩
          · exact Or.inr ⟨Or.inr hl, hu⟩
        · rintro (ha | ⟨rfl | hl, hu⟩)
          · exact Or.inl (Or.inl ha)
          · exact Or.inl (Or.inr rfl)
          · exact Or.inr ⟨hl, hu⟩
      · have h2 : neg lit ∈ alistKeys γ := alistGet_some_mem_keys hg
        rw [creduceGo, if_neg h1, hg] at h
        intro a
        rw [ih h a]
        simp only [List.mem_cons]
        constructor
        · rintro (ha | ⟨hl, hu⟩)
          · exact Or.inl ha
          · exact Or.inr ⟨Or.inr hl, hu⟩
        · rintro (ha | ⟨rfl | hl, hu⟩)
          · exact Or.inl ha
          · exact absurd h2 hu.2
          · exact Or.inr ⟨hl, hu⟩

/-- `none` propagates from the loop to `creduceClause`. -/
theorem creduceClause_none {γ : List (L × List L)} {lc : LClause L} :
    creduceClause neg γ lc = none ↔ ∃ l ∈ lc.clause, l ∈ alistKeys γ := by
  unfold creduceClause
  rcases hg : creduceGo neg γ lc.clause [] (setExtend [] lc.labels) with _ | ⟨c, d⟩
  · simpa using (creduceGo_none neg _ _ _).1 hg
  · simp only []
    constructor
    · intro h
      cases h
    · intro hex
      exact absurd hg (by rw [(creduceGo_none neg _ _ _).2 hex]; exact fun h => by cases h)

/-- Clause characterisation through `creduceClause`. -/
theorem creduceClause_some {γ : List (L × List L)} {lc : LClause L}
    {resC resD : List L} (h : creduceClause neg γ lc = some (resC, resD)) :
    ∀ a, a ∈ resC ↔ a ∈ lc.clause ∧ a ∉ alistKeys γ ∧ neg a ∉ alistKeys γ := by
  unfold creduceClause at h
  rcases hg : creduceGo neg γ lc.clause [] (setExtend [] lc.labels) with _ | ⟨c, d⟩
  · rw [hg] at h
    cases h
  · rw [hg] at h
    cases h
    intro a
    have := creduceGo_some neg hg a
    simpa using this

end CdclSoundness

section CdclBcpSoundness

variable {L : Type} [LinearOrder L] (neg : L → L)

/-- Unfolding `cdclBcpGo` when the clause is dropped. -/
theorem cdclBcpGo_cons_drop {assumeF : CdclS L → L → List L → CRes L (CdclS L)}
    {new : CdclS L} {lc : LClause L} {rest : List (LClause L)}
    (hr : creduceClause neg new.γ lc = none) :
    cdclBcpGo neg assumeF new (lc :: rest) = cdclBcpGo neg assumeF new rest := by
  simp only [cdclBcpGo, hr]

/-- Unfolding `cdclBcpGo` when the clause reduces to the empty clause. -/
theorem cdclBcpGo_cons_empty {assumeF : CdclS L → L → List L → CRes L (CdclS L)}
    {new : CdclS L} {lc : LClause L} {rest : List (LClause L)} {deps : List L}
    (hr : creduceClause neg new.γ lc = some ([], deps)) :
    cdclBcpGo neg assumeF new (lc :: rest) = .out (.unsat deps []) := by
  simp only [cdclBcpGo, hr]

/-- Unfolding `cdclBcpGo` on a unit reduced clause with a successful
assume. -/
theorem cdclBcpGo_cons_unit_ok {assumeF : CdclS L → L → List L → CRes L (CdclS L)}
    {new new2 : CdclS L} {lc : LClause L} {rest : List (LClause L)} {l : L}
    {deps : List L} (hr : creduceClause neg new.γ lc = some ([l], deps))
    (ha : assumeF new l deps = .ok new2) :
    cdclBcpGo neg assumeF new (lc :: rest) = cdclBcpGo neg assumeF new2 rest := by
  simp only [cdclBcpGo, hr, ha]

/-- Unfolding `cdclBcpGo` on a unit reduced clause with a propagated
outcome. -/
theorem cdclBcpGo_cons_unit_out {assumeF : CdclS L → L → List L → CRes L (CdclS L)}
    {new : CdclS L} {lc : LClause L} {rest : List (LClause L)} {l : L}
    {deps : List L} {o : COut L} (hr : creduceClause neg new.γ lc = some ([l], deps))
    (ha : assumeF new l deps = .out o) :
    cdclBcpGo neg assumeF new (lc :: rest) = .out o := by
  simp only [cdclBcpGo, hr, ha]

/-- Unfolding `cdclBcpGo` on a unit reduced clause with a panicking
assume. -/
theorem cdclBcpGo_cons_unit_panic {assumeF : CdclS L → L → List L → CRes L (CdclS L)}
    {new : CdclS L} {lc : LClause L} {rest : List (LClause L)} {l : L}
    {deps : List L} (hr : creduceClause neg new.γ lc = some ([l], deps))
    (ha : assumeF new l deps = .panic) :
    cdclBcpGo neg assumeF new (lc :: rest) = .panic := by
  simp only [cdclBcpGo, hr, ha]

/-- Unfolding `cdclBcpGo` on a unit reduced clause with fuel exhaustion. -/
theorem cdclBcpGo_cons_unit_fuel {assumeF : CdclS L → L → List L → CRes L (CdclS L)}
    {new : CdclS L} {lc : LClause L} {rest : List (LClause L)} {l : L}
    {deps : List L} (hr : creduceClause neg new.γ lc = some ([l], deps))
    (ha : assumeF new l deps = .fuelOut) :
    cdclBcpGo neg assumeF new (lc :: rest) = .fuelOut := by
  simp only [cdclBcpGo, hr, ha]

/-- Unfolding `cdclBcpGo` when the reduced clause is kept. -/
theorem cdclBcpGo_cons_keep {assumeF : CdclS L → L → List L → CRes L (CdclS L)}
    {new : CdclS L} {lc : LClause L} {rest : List (LClause L)} {a b : L}
    {res2 deps : List L}
    (hr : creduceClause neg new.γ lc = some (a :: b :: res2, deps)) :
    cdclBcpGo neg assumeF new (lc :: rest) =
      cdclBcpGo neg assumeF ⟨new.γ, new.δ ++ [⟨a :: b :: res2, deps⟩]⟩ rest := by
  simp only [cdclBcpGo, hr]

/-- The CDCL `bcp` loop is sound, mirroring `plainBcpGo_sound`. -/
theorem cdclBcpGo_sound {assumeF : CdclS L → L → List L → CRes L (CdclS L)}
    (hA : CAssumeOK neg assumeF) :
    ∀ (todo : List (LClause L)) (new st2 : CdclS L), CdclInv neg new →
      cdclBcpGo neg assumeF new todo = .ok st2 →
      CdclInv neg st2 ∧ alistKeys new.γ ⊆ alistKeys st2.γ ∧
        ∀ lc, lc ∈ new.δ ∨ lc ∈ todo → coversToC st2 lc.clause := by
  intro todo
  induction todo with
  | nil =>
    intro new st2 hI h
    rw [cdclBcpGo] at h
    cases h
    refine ⟨hI, fun a ha => ha, fun lc hlc => ?_⟩
    rcases hlc with hlc | hlc
    · exact Or.inr ⟨lc, hlc, fun a ha => ha⟩
    · cases hlc
  | cons lc rest ih =>
    intro new st2 hI h
    rcases hr : creduceClause neg new.γ lc with _ | ⟨_ | ⟨l, _ | ⟨b, res2⟩⟩, deps⟩
    · rw [cdclBcpGo_cons_drop neg hr] at h
      obtain ⟨hI2, hsub, hcov⟩ := ih new st2 hI h
      refine ⟨hI2, hsub, fun D hD => ?_⟩
      rcases hD with hD | hD
      · exact hcov D (Or.inl hD)
      · rcases List.mem_cons.1 hD with rfl | hD
        · obtain ⟨l, hl, hm⟩ := (creduceClause_none neg).1 hr
          exact Or.inl ⟨l, hl, hsub hm⟩
        · exact hcov D (Or.inr hD)
    · rw [cdclBcpGo_cons_empty neg hr] at h
      cases h
    · have hres := creduceClause_some neg hr
      have hl : l ∈ lc.clause ∧ l ∉ alistKeys new.γ ∧ neg l ∉ alistKeys new.γ := by
        have := (hres l).1 (by simp)
        simpa using this
      rcases ha : assumeF new l deps with new2 | o | _ | _
      · rw [cdclBcpGo_cons_unit_ok neg hr ha] at h
        obtain ⟨hI2, hsub2, hmem2, hcov2⟩ :=
          hA new l deps new2 hI.1 hl.2.1 hl.2.2 ha
        obtain ⟨hI3, hsub3, hcov3⟩ := ih new2 st2 hI2 h
        refine ⟨hI3, hsub2.trans hsub3, fun D hD => ?_⟩
        rcases hD with hD | hD
        · rcases hcov2 D hD with hsat | ⟨E, hE, hEC⟩
          · exact Or.inl (satClause_mono hsub3 hsat)
          · rcases hcov3 E (Or.inl hE) with ⟨y, hy, hm⟩ | ⟨F2, hF2, hFE⟩
            · exact Or.inl ⟨y, hEC hy, hm⟩
            · exact Or.inr ⟨F2, hF2, hFE.trans hEC⟩
        · rcases List.mem_cons.1 hD with rfl | hD
          · exact Or.inl ⟨l, hl.1, hsub3 hmem2⟩
          · exact hcov3 D (Or.inr hD)
      · rw [cdclBcpGo_cons_unit_out neg hr ha] at h
        cases h
      · rw [cdclBcpGo_cons_unit_panic neg hr ha] at h
        cases h
      · rw [cdclBcpGo_cons_unit_fuel neg hr ha] at h
        cases h
    · have hres := creduceClause_some neg hr
      rw [cdclBcpGo_cons_keep neg hr] at h
      have hsubd : l :: b :: res2 ⊆ lc.clause := by
        intro x hx
        exact ((hres x).1 hx).1
      have hI2 : CdclInv neg (⟨new.γ, new.δ ++ [⟨l :: b :: res2, deps⟩]⟩ : CdclS L) := by
        refine ⟨hI.1, fun D hD y hy => ?_⟩
        rcases List.mem_append.1 hD with hD | hD
        · exact hI.2 D hD y hy
        · rcases List.mem_singleton.1 hD with rfl
          exact ((hres y).1 hy).2
      obtain ⟨hI3, hsub3, hcov3⟩ := ih _ st2 hI2 h
      refine ⟨hI3, hsub3, fun D hD => ?_⟩
      rcases hD with hD | hD
      · exact hcov3 D (Or.inl (List.mem_append.2 (Or.inl hD)))
      · rcases List.mem_cons.1 hD with rfl | hD
        · have hcc : coversToC st2 (l :: b :: res2) :=
            hcov3 ⟨l :: b :: res2, deps⟩ (Or.inl (List.mem_append.2 (Or.inr (by simp))))
          rcases hcc with ⟨y, hy, hm⟩ | ⟨E, hE, hES⟩
          · exact Or.inl ⟨y, hsubd hy, hm⟩
          · exact Or.inr ⟨E, hE, hES.trans hsubd⟩
        · exact hcov3 D (Or.inr hD)

/-- `Cdcl::assume` satisfies the CDCL soundness contract at every fuel. -/
theorem cdclAssume_assumeOK (hinv : ∀ l, neg (neg l) = l) (hne : ∀ l, neg l ≠ l) :
    ∀ fuel, CAssumeOK neg (cdclAssume neg fuel) := by
  intro fuel
  induction fuel using Nat.strong_induction_on with
  | _ fuel IH =>
    match fuel with
    | 0 => intro st lit cause st2 _ _ _ h; cases h
    | 1 =>
      intro st lit cause st2 hc h1 h2 h
      rw [cdclAssume, if_neg ((cdclBadEnv_iff_not_consistent neg st.γ).2 hc),
        if_neg h1] at h
      cases h
    | f + 2 =>
      intro st lit cause st2 hc h1 h2 h
      rw [cdclAssume, if_neg ((cdclBadEnv_iff_not_consistent neg st.γ).2 hc),
        if_neg h1, cdclBcpFn_succ] at h
      have hc2 : consistent neg (alistKeys ((lit, cause) :: st.γ)) :=
        consistent_insert neg hinv hne hc h1 h2
      rw [if_neg ((cdclBadEnv_iff_not_consistent neg _).2 hc2)] at h
      have hI : CdclInv neg (⟨(lit, cause) :: st.γ, []⟩ : CdclS L) := ⟨hc2, by simp⟩
      obtain ⟨hI2, hsub, hcov⟩ :=
        cdclBcpGo_sound neg (IH f (by omega)) st.δ _ st2 hI h
      refine ⟨hI2, fun a ha => hsub (List.mem_cons.2 (Or.inr ha)),
        hsub (List.mem_cons.2 (Or.inl rfl)), fun lc hlc => hcov lc (Or.inr hlc)⟩

/-- The CDCL `bcp` loop cannot raise `Sat` when its `assume` cannot. -/
theorem cdclBcpGo_no_sat {assumeF : CdclS L → L → List L → CRes L (CdclS L)}
    (hA : ∀ st lit cause m, assumeF st lit cause ≠ .out (.sat m)) :
    ∀ (todo : List (LClause L)) (new : CdclS L) (m : List L),
      cdclBcpGo neg assumeF new todo ≠ .out (.sat m) := by
  intro todo
  induction todo with
  | nil =>
    intro new m h
    rw [cdclBcpGo] at h
    cases h
  | cons lc rest ih =>
    intro new m h
    rcases hr : creduceClause neg new.γ lc with _ | ⟨_ | ⟨l, _ | ⟨b, res2⟩⟩, deps⟩
    · rw [cdclBcpGo_cons_drop neg hr] at h
      exact ih new m h
    · rw [cdclBcpGo_cons_empty neg hr] at h
      cases h
    · rcases ha : assumeF new l deps with new2 | o | _ | _
      · rw [cdclBcpGo_cons_unit_ok neg hr ha] at h
        exact ih new2 m h
      · rw [cdclBcpGo_cons_unit_out neg hr ha] at h
        cases h
        exact hA new l deps m ha
      · rw [cdclBcpGo_cons_unit_panic neg hr ha] at h
        cases h
      · rw [cdclBcpGo_cons_unit_fuel neg hr ha] at h
        cases h
    · rw [cdclBcpGo_cons_keep neg hr] at h
      exact ih _ m h

/-- `Cdcl::assume` never raises a `Sat` outcome. -/
theorem cdclAssume_no_sat :
    ∀ fuel (st : CdclS L) lit cause m,
      cdclAssume neg fuel st lit cause ≠ .out (.sat m) := by
  intro fuel
  induction fuel using Nat.strong_induction_on with
  | _ fuel IH =>
    match fuel with
    | 0 => intro st lit cause m h; cases h
    | 1 =>
      intro st lit cause m h
      rw [cdclAssume] at h
      by_cases hb : cdclBadEnv neg st.γ
      · rw [if_pos hb] at h; cases h
      · rw [if_neg hb] at h
        by_cases h1 : lit ∈ alistKeys st.γ
        · rw [if_pos h1] at h; cases h
        · rw [if_neg h1] at h; cases h
    | f + 2 =>
      intro st lit cause m h
      rw [cdclAssume] at h
      by_cases hb : cdclBadEnv neg st.γ
      · rw [if_pos hb] at h; cases h
      · rw [if_neg hb] at h
        by_cases h1 : lit ∈ alistKeys st.γ
        · rw [if_pos h1] at h; cases h
        · rw [if_neg h1, cdclBcpFn_succ] at h
          by_cases hb2 : cdclBadEnv neg ((lit, cause) :: st.γ)
          · rw [if_pos hb2] at h; cases h
          · rw [if_neg hb2] at h
            exact cdclBcpGo_no_sat neg
              (fun st2 l c m2 => IH f (by omega) st2 l c m2) _ _ m h

end CdclBcpSoundness

section CdclUnsatSoundness

variable {L : Type} [LinearOrder L] (neg : L → L)

/-- Sat-soundness of the second branch of `Cdcl::unsat`, given sound
`assume` and `unsat` continuations. -/
theorem cdclSecond_sat_sound (hinv : ∀ l, neg (neg l) = l)
    {assumeF : CdclS L → L → List L → CRes L (CdclS L)}
    {unsatF : CdclS L → CRes L Empty}
    (hA : CAssumeOK neg assumeF)
    (hAns : ∀ st l c m, assumeF st l c ≠ .out (.sat m))
    (hU : ∀ st m, CdclInv neg st → unsatF st = .out (.sat m) →
          consistent neg m ∧ alistKeys st.γ ⊆ m ∧ ∀ lc ∈ st.δ, satClause m lc.clause)
    {st : CdclS L} {lit : L} {deps : List L} {conf0 : List (LClause L)} {m : List L}
    (hI : CdclInv neg st) (h1 : lit ∉ alistKeys st.γ) (h2 : neg lit ∉ alistKeys st.γ)
    (h : cdclSecond neg assumeF unsatF st lit deps conf0 = .out (.sat m)) :
    consistent neg m ∧ alistKeys st.γ ⊆ m ∧ ∀ lc ∈ st.δ, satClause m lc.clause := by
  have hmain : ∀ (stB : CdclS L), stB.γ = st.γ → (∀ lc ∈ st.δ, lc ∈ stB.δ) →
      (match assumeF stB (neg lit) (deps.erase lit) with
        | CRes.ok new2 =>
          match unsatF new2 with
          | CRes.out (COut.unsat newDeps newConflict) =>
              CRes.out (.unsat newDeps
                (lclausesInsert (lclausesExtend (cdclShift neg lit conf0) newConflict)
                  ⟨clauseNew [neg lit], deps.erase lit⟩))
          | r2 => r2
        | CRes.out o => CRes.out o
        | CRes.panic => CRes.panic
        | CRes.fuelOut => CRes.fuelOut) = .out (.sat m) →
      consistent neg m ∧ alistKeys st.γ ⊆ m ∧ ∀ lc ∈ st.δ, satClause m lc.clause := by
    intro stB hγB hδB hm
    rcases ha2 : assumeF stB (neg lit) (deps.erase lit) with new2 | o | _ | _ <;>
      simp only [ha2] at hm
    · have hu1 : neg lit ∉ alistKeys stB.γ := by rw [hγB]; exact h2
      have hu2b : neg (neg lit) ∉ alistKeys stB.γ := by rw [hγB, hinv]; exact h1
      have hcB : consistent neg (alistKeys stB.γ) := by rw [hγB]; exact hI.1
      obtain ⟨hI2, hsub2, hmem2, hcov2⟩ := hA stB (neg lit) _ new2 hcB hu1 hu2b ha2
      rcases hs2 : unsatF new2 with e | o2 | _ | _ <;> simp only [hs2] at hm
      · exact e.elim
      · match o2, hs2, hm with
        | .sat m2, hs2, hm =>
          cases hm
          obtain ⟨hcm, hsubm, hmodm⟩ := hU new2 _ hI2 hs2
          refine ⟨hcm, ?_,
            fun lc hlc => satClause_of_coversC (hcov2 lc (hδB lc hlc)) hsubm hmodm⟩
          rw [← hγB]
          exact hsub2.trans hsubm
        | .unsat nd nc, hs2, hm => cases hm
      · cases hm
      · cases hm
    · cases hm
      exact absurd ha2 (hAns _ _ _ m)
    · cases hm
    · cases hm
  simp only [cdclSecond] at h
  by_cases hmem : lit ∈ deps
  · rw [if_pos hmem] at h
    by_cases hce : cdclShift neg lit conf0 = []
    · rw [if_pos hce] at h
      exact hmain st rfl (fun lc hlc => hlc) h
    · rw [if_neg hce] at h
      exact hmain ⟨st.γ, st.δ ++ cdclShift neg lit conf0⟩ rfl
        (fun lc hlc => List.mem_append.2 (Or.inl hlc)) h
  · rw [if_neg hmem] at h
    cases h

/-- Sat-soundness of `Cdcl::unsat`: under the search invariant, a raised
`Sat` model is consistent, extends the assumed keys, and satisfies every
clause of the working CNF. -/
theorem cdclUnsat_sat_sound (hinv : ∀ l, neg (neg l) = l) (hne : ∀ l, neg l ≠ l) :
    ∀ fuel (st : CdclS L) m, CdclInv neg st →
      cdclUnsat neg fuel st = .out (.sat m) →
      consistent neg m ∧ alistKeys st.γ ⊆ m ∧ ∀ lc ∈ st.δ, satClause m lc.clause := by
  intro fuel
  induction fuel with
  | zero => intro st m _ h; cases h
  | succ fuel IH =>
    rintro ⟨γ, δ⟩ m hI h
    have hnb : ¬ cdclBadEnv neg γ := (cdclBadEnv_iff_not_consistent neg γ).2 hI.1
    match δ, h with
    | [], h =>
      simp only [cdclUnsat, if_neg hnb] at h
      cases h
      exact ⟨hI.1, fun a ha => ha, by simp⟩
    | ⟨[], labs⟩ :: rest, h =>
      simp only [cdclUnsat, if_neg hnb] at h
      cases h
    | ⟨lit :: ds, labs⟩ :: rest, h =>
      have hunk : lit ∉ alistKeys γ ∧ neg lit ∉ alistKeys γ :=
        hI.2 ⟨lit :: ds, labs⟩ (by simp) lit (by simp)
      have hAOK := cdclAssume_assumeOK neg hinv hne fuel
      have hU : ∀ st2 m2, CdclInv neg st2 →
          (fun st3 => cdclUnsat neg fuel st3) st2 = .out (.sat m2) →
          consistent neg m2 ∧ alistKeys st2.γ ⊆ m2 ∧
            ∀ lc ∈ st2.δ, satClause m2 lc.clause :=
        fun st2 m2 hI2 h2 => IH st2 m2 hI2 h2
      simp only [cdclUnsat, if_neg hnb] at h
      rcases hs1 : cdclUnsatStep (cdclAssume neg fuel) (fun st3 => cdclUnsat neg fuel st3)
          ⟨γ, ⟨lit :: ds, labs⟩ :: rest⟩ lit (setInsert [] lit)
        with e | o1 | _ | _ <;> simp only [hs1] at h
      · exact e.elim
      · match o1, hs1, h with
        | .sat m2, hs1, h =>
          cases h
          rcases ha : cdclAssume neg fuel ⟨γ, ⟨lit :: ds, labs⟩ :: rest⟩ lit (setInsert [] lit)
            with new | o | _ | _
          · rw [cdclUnsatStep_ok ha] at hs1
            obtain ⟨hI2, hsub2, hmem2, hcov2⟩ := hAOK _ lit _ new hI.1 hunk.1 hunk.2 ha
            obtain ⟨hcm, hsubm, hmodm⟩ := IH new m hI2 hs1
            exact ⟨hcm, hsub2.trans hsubm,
              fun lc hlc => satClause_of_coversC (hcov2 lc hlc) hsubm hmodm⟩
          · rw [cdclUnsatStep_out ha] at hs1
            cases hs1
            exact absurd ha (cdclAssume_no_sat neg fuel _ _ _ m)
          · rw [cdclUnsatStep_panic ha] at hs1
            cases hs1
          · rw [cdclUnsatStep_fuel ha] at hs1
            cases hs1
        | .unsat deps conf0, hs1, h =>
          exact cdclSecond_sat_sound neg hinv hAOK (cdclAssume_no_sat neg fuel)
            hU hI hunk.1 hunk.2 h
      · cases h
      · cases h

/-- Sat-soundness of `Cdcl::solve`. -/
theorem cdclSolve_sat_sound (hinv : ∀ l, neg (neg l) = l) (hne : ∀ l, neg l ≠ l)
    (fuel : Nat) (f : List (List L)) (m : List L)
    (h : cdclSolve neg fuel (CdclS.mk0 f) = .out (.sat m)) :
    consistent neg m ∧ ∀ C ∈ f, satClause m C := by
  have hI : CdclInv neg (CdclS.mk0 f) := by
    constructor
    · intro l hl
      cases hl
    · intro lc hlc l hl
      exact ⟨List.not_mem_nil l, List.not_mem_nil (neg l)⟩
  rcases hu : cdclUnsat neg fuel (CdclS.mk0 f) with e | o | _ | _ <;>
    simp only [cdclSolve, hu] at h
  · exact e.elim
  · match o, h with
    | .sat m2, h =>
      cases h
      obtain ⟨h1, _, h3⟩ := cdclUnsat_sat_sound neg hinv hne fuel _ m hI hu
      refine ⟨h1, fun C hC => ?_⟩
      exact h3 ⟨C, []⟩ (List.mem_map.2 ⟨C, hC, rfl⟩)
  · cases h
  · cases h

end CdclUnsatSoundness

/-- Negation on `front::Lit` is involutive. -/
theorem RLit.negate_invol : ∀ l : RLit, RLit.negate (RLit.negate l) = l := by
  rintro ⟨i, b⟩
  cases b <;> rfl

/-- No `front::Lit` literal equals its own negation. -/
theorem RLit.negate_ne : ∀ l : RLit, RLit.negate l ≠ l := by
  rintro ⟨i, b⟩ h
  cases b <;> simp [RLit.negate] at h

/-- C1: whenever `Plain::solve` or `Cdcl::solve` returns `Sat(M)`, every
clause of the input formula contains a literal of `M`, and `M` contains no
literal together with its negation. -/
theorem solvers_sat_sound {L : Type} [LinearOrder L] (neg : L → L)
    (hinv : ∀ l, neg (neg l) = l) (hne : ∀ l, neg l ≠ l)
    (fuel : Nat) (f : List (List L)) (m : List L) :
    (plainSolve neg fuel (PlainS.mk0 f) = .out (.sat m) →
      (∀ C ∈ f, ∃ l ∈ C, l ∈ m) ∧ ∀ l ∈ m, neg l ∉ m) ∧
    (cdclSolve neg fuel (CdclS.mk0 f) = .out (.sat m) →
      (∀ C ∈ f, ∃ l ∈ C, l ∈ m) ∧ ∀ l ∈ m, neg l ∉ m) := by
  constructor
  · intro h
    obtain ⟨h1, h2⟩ := plainSolve_sat_sound neg hinv hne fuel f m h
    exact ⟨h2, h1⟩
  · intro h
    obtain ⟨h1, h2⟩ := cdclSolve_sat_sound neg hinv hne fuel f m h
    exact ⟨h2, h1⟩

/-- C1, witness instantiation on the satisfiable scenario formula from
section 8 of the spec. -/
theorem solvers_sat_sound_witness :
    (∀ C ∈ exF1, ∃ l ∈ C, l ∈ [(⟨2, true⟩ : RLit), ⟨1, false⟩]) ∧
    ∀ l ∈ [(⟨2, true⟩ : RLit), ⟨1, false⟩], RLit.negate l ∉ [(⟨2, true⟩ : RLit), ⟨1, false⟩] :=
  (solvers_sat_sound RLit.negate RLit.negate_invol RLit.negate_ne 30 exF1
    [⟨2, true⟩, ⟨1, false⟩]).1 (by decide)

section PlainBcpSpec

variable {L : Type} [LinearOrder L] (neg : L → L)

/-- The reduction loop keeps the accumulator sorted. -/
theorem reduceGo_sorted {γ : List L} {lits acc res : List L}
    (hs : List.Sorted (· < ·) acc) (h : reduceGo neg γ lits acc = some res) :
    List.Sorted (· < ·) res := by
  induction lits generalizing acc with
  | nil =>
    rw [reduceGo] at h
    cases h
    exact hs
  | cons lit rest ih =>
    by_cases h1 : lit ∈ γ
    · rw [reduceGo, if_pos h1] at h
      cases h
    · by_cases h2 : neg lit ∈ γ
      · rw [reduceGo, if_neg h1, if_pos h2] at h
        exact ih hs h
      · rw [reduceGo, if_neg h1, if_neg h2] at h
        exact ih (clausePush_sorted hs lit) h

/-- A clause whose literals are all false reduces to the accumulator. -/
theorem reduceGo_allfalse {γ : List L} {lits : List L} (acc : List L)
    (hf : ∀ l ∈ lits, neg l ∈ γ) (hn : ∀ l ∈ lits, l ∉ γ) :
    reduceGo neg γ lits acc = some acc := by
  induction lits with
  | nil => rw [reduceGo]
  | cons lit rest ih =>
    rw [reduceGo, if_neg (hn lit (by simp)), if_pos (hf lit (by simp))]
    exact ih (fun l hl => hf l (by simp [hl])) (fun l hl => hn l (by simp [hl]))

/-- If some clause still to be processed is entirely false under the current
environment, the `bcp` loop never returns normally. -/
theorem plainBcpGo_allfalse {assumeF : PlainS L → L → PRes L (PlainS L)}
    (hA : AssumeOK neg assumeF) :
    ∀ (todo : List (List L)) (new st2 : PlainS L), PlainInv neg new →
      (∃ C ∈ todo, ∀ l ∈ C, neg l ∈ new.γ) →
      plainBcpGo neg assumeF new todo ≠ .ok st2 := by
  intro todo
  induction todo with
  | nil =>
    rintro new st2 _ ⟨C, hC, _⟩ _
    cases hC
  | cons disj rest ih =>
    rintro new st2 hI ⟨C, hC, hCfalse⟩ h
    have hCnot : ∀ l ∈ C, l ∉ new.γ := fun l hl hmem =>
      hI.1 l hmem (hCfalse l hl)
    rcases List.mem_cons.1 hC with rfl | hC
    · have : reduceClause neg new.γ C = some [] :=
        reduceGo_allfalse neg [] hCfalse hCnot
      rw [plainBcpGo_cons_empty neg this] at h
      cases h
    · rcases hr : reduceClause neg new.γ disj with _ | (_ | ⟨l, _ | ⟨b, res2⟩⟩)
      · rw [plainBcpGo_cons_drop neg hr] at h
        exact ih new st2 hI ⟨C, hC, hCfalse⟩ h
      · rw [plainBcpGo_cons_empty neg hr] at h
        cases h
      · rcases ha : assumeF new l with new2 | o | _ | _
        · rw [plainBcpGo_cons_unit_ok neg hr ha] at h
          have hres := reduceGo_some neg hr
          have hl : l ∉ new.γ ∧ neg l ∉ new.γ := by
            have := (hres l).1 (by simp)
            simp at this
            exact this.2
          obtain ⟨hI2, hsub2, _, _⟩ := hA new l new2 hI.1 hl.1 hl.2 ha
          exact ih new2 st2 hI2 ⟨C, hC, fun x hx => hsub2 (hCfalse x hx)⟩ h
        · rw [plainBcpGo_cons_unit_out neg hr ha] at h
          cases h
        · rw [plainBcpGo_cons_unit_panic neg hr ha] at h
          cases h
        · rw [plainBcpGo_cons_unit_fuel neg hr ha] at h
          cases h
      · rw [plainBcpGo_cons_keep neg hr] at h
        have hres := reduceGo_some neg hr
        have hI2 : PlainInv neg (⟨new.γ, new.δ ++ [l :: b :: res2]⟩ : PlainS L) := by
          refine ⟨hI.1, fun D hD y hy => ?_⟩
          rcases List.mem_append.1 hD with hD | hD
          · exact hI.2 D hD y hy
          · rcases List.mem_singleton.1 hD with rfl
            have := (hres y).1 hy
            exact (this.resolve_left (by simp)).2
        exact ih _ st2 hI2 ⟨C, hC, hCfalse⟩ h

/-- If a clause still to be processed has a single non-false literal, a
normal return of the `bcp` loop has assumed that literal (unit
propagation reaches a fixpoint). -/
theorem plainBcpGo_unit {assumeF : PlainS L → L → PRes L (PlainS L)}
    (hA : AssumeOK neg assumeF) :
    ∀ (todo : List (List L)) (new st2 : PlainS L), PlainInv neg new →
      plainBcpGo neg assumeF new todo = .ok st2 →
      ∀ C ∈ todo, ∀ l ∈ C, (∀ x ∈ C, x ≠ l → neg x ∈ new.γ) →
        l ∈ st2.γ := by
  intro todo
  induction todo with
  | nil =>
    intro new st2 _ _ C hC
    cases hC
  | cons disj rest ih =>
    intro new st2 hI h C hC l hl hCfalse
    have hmono : new.γ ⊆ st2.γ := by
      {
        rcases hr : reduceClause neg new.γ disj with _ | (_ | ⟨x, _ | ⟨b, res2⟩⟩)
        · rw [plainBcpGo_cons_drop neg hr] at h
          exact (plainBcpGo_sound neg hA rest new st2 hI h).2.1
        · rw [plainBcpGo_cons_empty neg hr] at h
          cases h
        · rcases ha : assumeF new x with new2 | o | _ | _
          · rw [plainBcpGo_cons_unit_ok neg hr ha] at h
            have hres := reduceGo_some neg hr
            have hx : x ∉ new.γ ∧ neg x ∉ new.γ := by
              have := (hres x).1 (by simp)
              simp at this
              exact this.2
            obtain ⟨hI2, hsub2, _, _⟩ := hA new x new2 hI.1 hx.1 hx.2 ha
            exact hsub2.trans (plainBcpGo_sound neg hA rest new2 st2 hI2 h).2.1
          · rw [plainBcpGo_cons_unit_out neg hr ha] at h
            cases h
          · rw [plainBcpGo_cons_unit_panic neg hr ha] at h
            cases h
          · rw [plainBcpGo_cons_unit_fuel neg hr ha] at h
            cases h
        · rw [plainBcpGo_cons_keep neg hr] at h
          have hres := reduceGo_some neg hr
          have hI2 : PlainInv neg (⟨new.γ, new.δ ++ [x :: b :: res2]⟩ : PlainS L) := by
            refine ⟨hI.1, fun D hD y hy => ?_⟩
            rcases List.mem_append.1 hD with hD | hD
            · exact hI.2 D hD y hy
            · rcases List.mem_singleton.1 hD with rfl
              have := (hres y).1 hy
              exact (this.resolve_left (by simp)).2
          exact (plainBcpGo_sound neg hA rest _ st2 hI2 h).2.1
      }
    rcases List.mem_cons.1 hC with rfl | hC2
    · by_cases hlγ : l ∈ new.γ
      · exact hmono hlγ
      · by_cases hlnγ : neg l ∈ new.γ
        · exfalso
          have hfalse : ∀ x ∈ C, neg x ∈ new.γ := by
            intro x hx
            by_cases hxl : x = l
            · rw [hxl]
              exact hlnγ
            · exact hCfalse x hx hxl
          have hnot : ∀ x ∈ C, x ∉ new.γ := fun x hx hmem =>
            hI.1 x hmem (hfalse x hx)
          have : reduceClause neg new.γ C = some [] :=
            reduceGo_allfalse neg [] hfalse hnot
          rw [plainBcpGo_cons_empty neg this] at h
          cases h
        · -- the clause reduces exactly to the unit [l]
          have hred : reduceClause neg new.γ C = some [l] := by
            unfold reduceClause
            rcases hr : reduceGo neg new.γ C [] with _ | res
            · exfalso
              obtain ⟨x, hx, hxmem⟩ := (reduceGo_none neg C []).1 hr
              by_cases hxl : x = l
              · rw [hxl] at hxmem
                exact hlγ hxmem
              · exact hI.1 x hxmem (hCfalse x hx hxl)
            · have hchar := reduceGo_some neg hr
              have hsorted : List.Sorted (· < ·) res :=
                reduceGo_sorted neg (by simp) hr
              have hsub : ∀ a ∈ res, a = l := by
                intro a ha
                have := (hchar a).1 ha
                simp at this
                by_contra hne2
                exact this.2.2 (hCfalse a this.1 hne2)
              have hlin : l ∈ res := (hchar l).2 (Or.inr ⟨hl, hlγ, hlnγ⟩)
              match res, hsub, hlin, hsorted with
              | [], hsub, hlin, _ => cases hlin
              | [a], hsub, hlin, _ => rw [hsub a (by simp)]
              | a :: b :: r, hsub, hlin, hsorted =>
                exfalso
                have ha : a = l := hsub a (by simp)
                have hb : b = l := hsub b (by simp)
                have : a < b := (List.sorted_cons.1 hsorted).1 b (by simp)
                rw [ha, hb] at this
                exact lt_irrefl l this
          rcases ha : assumeF new l with new2 | o | _ | _
          · rw [plainBcpGo_cons_unit_ok neg hred ha] at h
            obtain ⟨hI2, hsub2, hmem2, _⟩ := hA new l new2 hI.1 hlγ hlnγ ha
            exact (plainBcpGo_sound neg hA rest new2 st2 hI2 h).2.1 hmem2
          · rw [plainBcpGo_cons_unit_out neg hred ha] at h
            cases h
          · rw [plainBcpGo_cons_unit_panic neg hred ha] at h
            cases h
          · rw [plainBcpGo_cons_unit_fuel neg hred ha] at h
            cases h
    · -- the clause is further down the list
      rcases hr : reduceClause neg new.γ disj with _ | (_ | ⟨x, _ | ⟨b, res2⟩⟩)
      · rw [plainBcpGo_cons_drop neg hr] at h
        exact ih new st2 hI h C hC2 l hl hCfalse
      · rw [plainBcpGo_cons_empty neg hr] at h
        cases h
      · rcases ha : assumeF new x with new2 | o | _ | _
        · rw [plainBcpGo_cons_unit_ok neg hr ha] at h
          have hres := reduceGo_some neg hr
          have hx : x ∉ new.γ ∧ neg x ∉ new.γ := by
            have := (hres x).1 (by simp)
            simp at this
            exact this.2
          obtain ⟨hI2, hsub2, _, _⟩ := hA new x new2 hI.1 hx.1 hx.2 ha
          exact ih new2 st2 hI2 h C hC2 l hl
            (fun y hy hyl => hsub2 (hCfalse y hy hyl))
        · rw [plainBcpGo_cons_unit_out neg hr ha] at h
          cases h
        · rw [plainBcpGo_cons_unit_panic neg hr ha] at h
          cases h
        · rw [plainBcpGo_cons_unit_fuel neg hr ha] at h
          cases h
      · rw [plainBcpGo_cons_keep neg hr] at h
        have hres := reduceGo_some neg hr
        have hI2 : PlainInv neg (⟨new.γ, new.δ ++ [x :: b :: res2]⟩ : PlainS L) := by
          refine ⟨hI.1, fun D hD y hy => ?_⟩
          rcases List.mem_append.1 hD with hD | hD
          · exact hI.2 D hD y hy
          · rcases List.mem_singleton.1 hD with rfl
            have := (hres y).1 hy
            exact (this.resolve_left (by simp)).2
        exact ih _ st2 hI2 h C hC2 l hl hCfalse

end PlainBcpSpec

section PlainNoPanic

variable {L : Type} [LinearOrder L] (neg : L → L)

/-- Panic-freedom contract of an `assume`-shaped function on an unassumed
literal. -/
def NPAssumeOK (assumeF : PlainS L → L → PRes L (PlainS L)) : Prop :=
  ∀ st lit, lit ∉ st.γ → assumeF st lit ≠ .panic

/-- The `bcp` loop never panics when its `assume` does not. -/
theorem plainBcpGo_np {assumeF : PlainS L → L → PRes L (PlainS L)}
    (hA : NPAssumeOK assumeF) :
    ∀ (todo : List (List L)) (new : PlainS L),
      plainBcpGo neg assumeF new todo ≠ .panic := by
  intro todo
  induction todo with
  | nil =>
    intro new h
    rw [plainBcpGo] at h
    cases h
  | cons disj rest ih =>
    intro new h
    rcases hr : reduceClause neg new.γ disj with _ | ⟨_ | ⟨l, _ | ⟨b, res2⟩⟩⟩
    · rw [plainBcpGo_cons_drop neg hr] at h
      exact ih new h
    · rw [plainBcpGo_cons_empty neg hr] at h
      cases h
    · have hlγ : l ∉ new.γ := by
        have hchar := reduceGo_some neg (show reduceGo neg new.γ disj [] = some [l] from hr)
        rcases (hchar l).1 (by simp) with hc | hc
        · cases hc
        · exact hc.2.1
      rcases ha : assumeF new l with new2 | o | _ | _
      · rw [plainBcpGo_cons_unit_ok neg hr ha] at h
        exact ih new2 h
      · rw [plainBcpGo_cons_unit_out neg hr ha] at h
        cases h
      · exact absurd ha (hA new l hlγ)
      · rw [plainBcpGo_cons_unit_fuel neg hr ha] at h
        cases h
    · rw [plainBcpGo_cons_keep neg hr] at h
      exact ih _ h

/-- `Plain::assume` never panics on an unassumed literal. -/
theorem plainAssume_np : ∀ fuel, NPAssumeOK (plainAssume neg fuel) := by
  intro fuel
  induction fuel using Nat.strong_induction_on with
  | _ fuel IH =>
    match fuel with
    | 0 =>
      intro st lit _ h
      cases h
    | 1 =>
      intro st lit hlγ h
      rw [plainAssume, if_neg hlγ] at h
      cases h
    | f + 2 =>
      intro st lit hlγ h
      rw [plainAssume, if_neg hlγ, plainBcpFn_succ] at h
      exact plainBcpGo_np neg (IH f (by omega)) _ _ h

end PlainNoPanic

section ClaimC5

variable {L : Type} [LinearOrder L] (neg : L → L)

/-- C5: behaviour of `Plain::bcp` on a state with consistent environment.
Part one characterises the clause reduction: a clause is dropped exactly
when it contains a literal true in the environment, and otherwise its
reduction keeps exactly the literals whose truth is unknown (those whose
negation is true are removed). Part two: if some clause reduces to the
empty clause, the whole computation short-circuits — `bcp` never returns a
state, and unless the fuel runs out it raises the `Unsat` outcome.
Part three: on a normal return, the environment has only grown and
stayed consistent, the literal of every clause that reduced to exactly one
literal has been recursively assumed (unit propagation to fixpoint, so it
is in the final environment), and every clause is either satisfied by the
final environment or represented by a kept reduced clause, made of
still-unknown literals only. -/
theorem plainBcp_spec (hinv : ∀ l, neg (neg l) = l) (hne : ∀ l, neg l ≠ l)
    (fuel : Nat) (st : PlainS L) (hc : consistent neg st.γ) :
    (∀ C ∈ st.δ,
      (reduceClause neg st.γ C = none ↔ ∃ l ∈ C, l ∈ st.γ) ∧
      (∀ D, reduceClause neg st.γ C = some D →
        ∀ a, a ∈ D ↔ a ∈ C ∧ a ∉ st.γ ∧ neg a ∉ st.γ)) ∧
    ((∃ C ∈ st.δ, reduceClause neg st.γ C = some []) →
      (∀ st2, plainBcp neg fuel st ≠ .ok st2) ∧
      (plainBcp neg fuel st ≠ .fuelOut → plainBcp neg fuel st = .out .unsat)) ∧
    (∀ st2, plainBcp neg fuel st = .ok st2 →
      st.γ ⊆ st2.γ ∧ consistent neg st2.γ ∧
      (∀ C ∈ st.δ, ∀ l, reduceClause neg st.γ C = some [l] → l ∈ st2.γ) ∧
      (∀ C ∈ st.δ, satClause st2.γ C ∨
        ∃ D ∈ st2.δ, D ⊆ C ∧ ∀ a ∈ D, a ∉ st2.γ ∧ neg a ∉ st2.γ)) := by
  have hfalse_of_empty : ∀ C, reduceClause neg st.γ C = some [] →
      ∀ x ∈ C, neg x ∈ st.γ := by
    intro C hred x hx
    have hred2 : reduceGo neg st.γ C [] = some [] := hred
    have hnone : ¬ ∃ l ∈ C, l ∈ st.γ := fun hex => by
      rw [(reduceGo_none neg C []).2 hex] at hred2
      cases hred2
    have hchar := reduceGo_some neg hred2 x
    have hnotun : ¬(x ∈ C ∧ x ∉ st.γ ∧ neg x ∉ st.γ) := fun hcontra => by
      have hmem := hchar.2 (Or.inr hcontra)
      cases hmem
    by_cases hxg : x ∈ st.γ
    · exact absurd ⟨x, hx, hxg⟩ hnone
    · by_contra hneg
      exact hnotun ⟨hx, hxg, hneg⟩
  refine ⟨?_, ?_, ?_⟩
  · intro C hC
    constructor
    · exact reduceGo_none neg C []
    · intro D hred a
      have := reduceGo_some neg hred a
      simpa using this
  · intro hex
    have hok : ∀ st2, plainBcp neg fuel st ≠ .ok st2 := by
      rintro st2 h
      obtain ⟨C, hC, hred⟩ := hex
      match fuel, h with
      | f + 1, h =>
        rw [show plainBcp neg (f + 1) st = plainBcpFn neg (f + 1) st from rfl,
          plainBcpFn_succ] at h
        exact plainBcpGo_allfalse neg (plainAssume_assumeOK neg hinv hne f) st.δ
          ⟨st.γ, []⟩ st2 ⟨hc, by simp⟩ ⟨C, hC, hfalse_of_empty C hred⟩ h
    refine ⟨hok, ?_⟩
    intro hnf
    rcases hres : plainBcp neg fuel st with st2 | o | _ | _
    · exact absurd hres (hok st2)
    · match o, hres with
      | .sat m, hres =>
        exfalso
        match fuel, hres with
        | f + 1, hres =>
          rw [show plainBcp neg (f + 1) st = plainBcpFn neg (f + 1) st from rfl,
            plainBcpFn_succ] at hres
          exact plainBcpGo_no_sat neg
            (fun st3 l m2 => plainAssume_no_sat neg f st3 l m2)
            st.δ ⟨st.γ, []⟩ m hres
      | .unsat, hres => rfl
    · exfalso
      match fuel, hres with
      | f + 1, hres =>
        rw [show plainBcp neg (f + 1) st = plainBcpFn neg (f + 1) st from rfl,
          plainBcpFn_succ] at hres
        exact plainBcpGo_np neg (plainAssume_np neg f) st.δ ⟨st.γ, []⟩ hres
    · exact absurd hres hnf
  · intro st2 h
    match fuel, h with
    | f + 1, h =>
      rw [show plainBcp neg (f + 1) st = plainBcpFn neg (f + 1) st from rfl,
        plainBcpFn_succ] at h
      have hA := plainAssume_assumeOK neg hinv hne f
      have hI : PlainInv neg (⟨st.γ, []⟩ : PlainS L) := ⟨hc, by simp⟩
      obtain ⟨hI2, hsub, hcov⟩ := plainBcpGo_sound neg hA st.δ _ st2 hI h
      refine ⟨hsub, hI2.1, ?_, ?_⟩
      · intro C hC l hred
        have hchar := reduceGo_some neg hred
        have hlC : l ∈ C := by
          rcases (hchar l).1 (by simp) with h0 | h1
          · cases h0
          · exact h1.1
        refine plainBcpGo_unit neg hA st.δ ⟨st.γ, []⟩ st2 hI h C hC l hlC ?_
        intro x hx hxl
        have hx2 := (hchar x).2
        by_contra hnx
        by_cases hxg : x ∈ st.γ
        · have hnone : reduceClause neg st.γ C = none :=
            (reduceGo_none neg C []).2 ⟨x, hx, hxg⟩
          rw [hnone] at hred
          cases hred
        · have : x ∈ [l] := hx2 (Or.inr ⟨hx, hxg, hnx⟩)
          simp at this
          exact hxl this
      · intro C hC
        rcases hcov C (Or.inr hC) with hs | ⟨D, hD, hDC⟩
        · exact Or.inl hs
        · exact Or.inr ⟨D, hD, hDC, fun a ha => hI2.2 D hD a ha⟩

/-- C5, witness instantiation: environment `{-1}`, working CNF `[[1, 2]]`;
the clause reduces to the unit `[2]`, which `bcp` assumes. -/
theorem plainBcp_spec_witness :
    (reduceClause RLit.negate [(⟨1, true⟩ : RLit)] [⟨1, false⟩, ⟨2, false⟩] =
        some [⟨2, false⟩] →
      (⟨2, false⟩ : RLit) ∈
        (PlainS.mk [(⟨2, false⟩ : RLit), ⟨1, true⟩] ([] : List (List RLit))).γ) ∧
    consistent RLit.negate [(⟨1, true⟩ : RLit)] := by
  have hc : consistent RLit.negate [(⟨1, true⟩ : RLit)] := by
    intro l hl
    rcases List.mem_cons.1 hl with rfl | hl2
    · decide
    · cases hl2
  have hspec := plainBcp_spec RLit.negate RLit.negate_invol RLit.negate_ne 10
    ⟨[⟨1, true⟩], [[⟨1, false⟩, ⟨2, false⟩]]⟩ hc
  refine ⟨?_, hc⟩
  intro hred
  exact (hspec.2.2 ⟨[⟨2, false⟩, ⟨1, true⟩], []⟩ (by decide)).2.2.1
    [⟨1, false⟩, ⟨2, false⟩] (by simp) ⟨2, false⟩ hred

section PlainMonotone

variable {L : Type} [LinearOrder L] (neg : L → L)

/-- The `bcp` loop is stable under replacing `assume` by an extension that
agrees on every call that did not run out of fuel. -/
theorem plainBcpGo_mono {assumeF assumeF2 : PlainS L → L → PRes L (PlainS L)}
    (hstep : ∀ st l, assumeF st l ≠ .fuelOut → assumeF2 st l = assumeF st l) :
    ∀ (todo : List (List L)) (new : PlainS L),
      plainBcpGo neg assumeF new todo ≠ .fuelOut →
      plainBcpGo neg assumeF2 new todo = plainBcpGo neg assumeF new todo := by
  intro todo
  induction todo with
  | nil =>
    intro new _
    rw [plainBcpGo, plainBcpGo]
  | cons disj rest ih =>
    intro new hne2
    rcases hr : reduceClause neg new.γ disj with _ | (_ | ⟨l, _ | ⟨b, res2⟩⟩)
    · rw [plainBcpGo_cons_drop neg hr, plainBcpGo_cons_drop neg hr]
      exact ih new (by rw [plainBcpGo_cons_drop neg hr] at hne2; exact hne2)
    · rw [plainBcpGo_cons_empty neg hr, plainBcpGo_cons_empty neg hr]
    · rcases ha : assumeF new l with new2 | o | _ | _
      · have ha2 : assumeF2 new l = .ok new2 := by
          rw [hstep new l (by rw [ha]; exact fun hcon => by cases hcon), ha]
        rw [plainBcpGo_cons_unit_ok neg hr ha] at hne2 ⊢
        rw [plainBcpGo_cons_unit_ok neg hr ha2]
        exact ih new2 hne2
      · have ha2 : assumeF2 new l = .out o := by
          rw [hstep new l (by rw [ha]; exact fun hcon => by cases hcon), ha]
        rw [plainBcpGo_cons_unit_out neg hr ha, plainBcpGo_cons_unit_out neg hr ha2]
      · have ha2 : assumeF2 new l = .panic := by
          rw [hstep new l (by rw [ha]; exact fun hcon => by cases hcon), ha]
        rw [plainBcpGo_cons_unit_panic neg hr ha, plainBcpGo_cons_unit_panic neg hr ha2]
      · rw [plainBcpGo_cons_unit_fuel neg hr ha] at hne2
        exact absurd rfl hne2
    · rw [plainBcpGo_cons_keep neg hr, plainBcpGo_cons_keep neg hr]
      exact ih _ (by rw [plainBcpGo_cons_keep neg hr] at hne2; exact hne2)

/-- More fuel never changes a `bcp` run that already finished. -/
theorem plainBcpFn_mono : ∀ fuel,
    (∀ fuel2, fuel ≤ fuel2 → ∀ st : PlainS L, plainBcpFn neg fuel st ≠ .fuelOut →
      plainBcpFn neg fuel2 st = plainBcpFn neg fuel st) ∧
    (∀ fuel2, fuel ≤ fuel2 → ∀ (st : PlainS L) lit,
      plainAssume neg fuel st lit ≠ .fuelOut →
      plainAssume neg fuel2 st lit = plainAssume neg fuel st lit) := by
  intro fuel
  induction fuel using Nat.strong_induction_on with
  | _ fuel IH =>
    constructor
    · intro fuel2 hle st hne2
      match fuel, fuel2, hle with
      | 0, _, _ => exact absurd rfl hne2
      | f + 1, f2 + 1, hle =>
        rw [plainBcpFn_succ] at hne2
        rw [plainBcpFn_succ, plainBcpFn_succ]
        exact plainBcpGo_mono neg
          (fun st2 l hn => (IH f (by omega)).2 f2 (by omega) st2 l hn) st.δ _ hne2
    · intro fuel2 hle st lit hne2
      match fuel, fuel2, hle with
      | 0, _, _ => exact absurd rfl hne2
      | f + 1, f2 + 1, hle =>
        rw [plainAssume] at hne2 ⊢
        rw [plainAssume]
        by_cases h1 : lit ∈ st.γ
        · rw [if_pos h1]
          rw [if_pos h1]
        · rw [if_neg h1] at hne2 ⊢
          rw [if_neg h1]
          exact (IH f (by omega)).1 f2 (by omega) _ hne2

/-- More fuel never changes an `unsat` search that already finished. -/
theorem plainUnsat_mono : ∀ fuel fuel2, fuel ≤ fuel2 → ∀ st : PlainS L,
    plainUnsat neg fuel st ≠ .fuelOut →
    plainUnsat neg fuel2 st = plainUnsat neg fuel st := by
  intro fuel
  induction fuel with
  | zero => intro fuel2 _ st hne2; exact absurd rfl hne2
  | succ fuel IH =>
    intro fuel2 hle st hne2
    match fuel2, hle with
    | f2 + 1, hle =>
      have hsm : ∀ (st2 : PlainS L) lit,
          plainUnsatStep (plainAssume neg fuel) (fun s => plainUnsat neg fuel s)
            st2 lit ≠ .fuelOut →
          plainUnsatStep (plainAssume neg f2) (fun s => plainUnsat neg f2 s) st2 lit =
            plainUnsatStep (plainAssume neg fuel) (fun s => plainUnsat neg fuel s)
              st2 lit := by
        intro st2 lit hn
        rcases ha : plainAssume neg fuel st2 lit with new | o | _ | _
        · have ha2 : plainAssume neg f2 st2 lit = .ok new := by
            rw [(plainBcpFn_mono neg fuel).2 f2 (by omega) st2 lit
              (by rw [ha]; intro hc; cases hc), ha]
          rw [plainUnsatStep_ok ha, plainUnsatStep_ok ha2]
          rw [plainUnsatStep_ok ha] at hn
          exact IH f2 (by omega) new hn
        · have ha2 : plainAssume neg f2 st2 lit = .out o := by
            rw [(plainBcpFn_mono neg fuel).2 f2 (by omega) st2 lit
              (by rw [ha]; intro hc; cases hc), ha]
          rw [plainUnsatStep_out ha, plainUnsatStep_out ha2]
        · have ha2 : plainAssume neg f2 st2 lit = .panic := by
            rw [(plainBcpFn_mono neg fuel).2 f2 (by omega) st2 lit
              (by rw [ha]; intro hc; cases hc), ha]
          rw [plainUnsatStep_panic ha, plainUnsatStep_panic ha2]
        · rw [plainUnsatStep_fuel ha] at hn
          exact absurd rfl hn
      rcases st with ⟨γ, δ⟩
      match δ with
      | [] => rfl
      | [] :: rest => rfl
      | (lit :: ds) :: rest =>
        simp only [plainUnsat] at hne2 ⊢
        rcases hs1 : plainUnsatStep (plainAssume neg fuel)
            (fun s => plainUnsat neg fuel s) ⟨γ, (lit :: ds) :: rest⟩ lit
          with o1 | _ | _
        · rw [hsm _ lit (by rw [hs1]; intro hc; cases hc), hs1]
          simp only [hs1] at hne2
          match o1, hne2 with
          | .sat m, hne2 => rfl
          | .unsat, hne2 => exact hsm _ (neg lit) hne2
        · rw [hsm _ lit (by rw [hs1]; intro hc; cases hc), hs1]
        · simp only [hs1] at hne2
          exact absurd rfl hne2

end PlainMonotone

section CdclMonotone

variable {L : Type} [LinearOrder L] (neg : L → L)

/-- The CDCL `bcp` loop is stable under replacing `assume` by an extension
agreeing on finished calls. -/
theorem cdclBcpGo_mono {assumeF assumeF2 : CdclS L → L → List L → CRes L (CdclS L)}
    (hstep : ∀ st l c, assumeF st l c ≠ .fuelOut → assumeF2 st l c = assumeF st l c) :
    ∀ (todo : List (LClause L)) (new : CdclS L),
      cdclBcpGo neg assumeF new todo ≠ .fuelOut →
      cdclBcpGo neg assumeF2 new todo = cdclBcpGo neg assumeF new todo := by
  intro todo
  induction todo with
  | nil =>
    intro new _
    rw [cdclBcpGo, cdclBcpGo]
  | cons lc rest ih =>
    intro new hne2
    rcases hr : creduceClause neg new.γ lc with _ | ⟨_ | ⟨l, _ | ⟨b, res2⟩⟩, deps⟩
    · rw [cdclBcpGo_cons_drop neg hr, cdclBcpGo_cons_drop neg hr]
      exact ih new (by rw [cdclBcpGo_cons_drop neg hr] at hne2; exact hne2)
    · rw [cdclBcpGo_cons_empty neg hr, cdclBcpGo_cons_empty neg hr]
    · rcases ha : assumeF new l deps with new2 | o | _ | _
      · have ha2 : assumeF2 new l deps = .ok new2 := by
          rw [hstep new l deps (by rw [ha]; intro hc; cases hc), ha]
        rw [cdclBcpGo_cons_unit_ok neg hr ha] at hne2 ⊢
        rw [cdclBcpGo_cons_unit_ok neg hr ha2]
        exact ih new2 hne2
      · have ha2 : assumeF2 new l deps = .out o := by
          rw [hstep new l deps (by rw [ha]; intro hc; cases hc), ha]
        rw [cdclBcpGo_cons_unit_out neg hr ha, cdclBcpGo_cons_unit_out neg hr ha2]
      · have ha2 : assumeF2 new l deps = .panic := by
          rw [hstep new l deps (by rw [ha]; intro hc; cases hc), ha]
        rw [cdclBcpGo_cons_unit_panic neg hr ha, cdclBcpGo_cons_unit_panic neg hr ha2]
      · rw [cdclBcpGo_cons_unit_fuel neg hr ha] at hne2
        exact absurd rfl hne2
    · rw [cdclBcpGo_cons_keep neg hr, cdclBcpGo_cons_keep neg hr]
      exact ih _ (by rw [cdclBcpGo_cons_keep neg hr] at hne2; exact hne2)

/-- More fuel never changes a CDCL `bcp` or `assume` that already
finished. -/
theorem cdclBcpFn_mono : ∀ fuel,
    (∀ fuel2, fuel ≤ fuel2 → ∀ st : CdclS L, cdclBcpFn neg fuel st ≠ .fuelOut →
      cdclBcpFn neg fuel2 st = cdclBcpFn neg fuel st) ∧
    (∀ fuel2, fuel ≤ fuel2 → ∀ (st : CdclS L) lit cause,
      cdclAssume neg fuel st lit cause ≠ .fuelOut →
      cdclAssume neg fuel2 st lit cause = cdclAssume neg fuel st lit cause) := by
  intro fuel
  induction fuel using Nat.strong_induction_on with
  | _ fuel IH =>
    constructor
    · intro fuel2 hle st hne2
      match fuel, fuel2, hle with
      | 0, _, _ => exact absurd rfl hne2
      | f + 1, f2 + 1, hle =>
        rw [cdclBcpFn_succ] at hne2
        rw [cdclBcpFn_succ, cdclBcpFn_succ]
        by_cases hb : cdclBadEnv neg st.γ
        · rw [if_pos hb, if_pos hb]
        · rw [if_neg hb] at hne2
          rw [if_neg hb, if_neg hb]
          exact cdclBcpGo_mono neg
            (fun st2 l c hn => (IH f (by omega)).2 f2 (by omega) st2 l c hn) st.δ _ hne2
    · intro fuel2 hle st lit cause hne2
      match fuel, fuel2, hle with
      | 0, _, _ => exact absurd rfl hne2
      | f + 1, f2 + 1, hle =>
        rw [cdclAssume] at hne2 ⊢
        rw [cdclAssume]
        by_cases hb : cdclBadEnv neg st.γ
        · rw [if_pos hb]
          rw [if_pos hb]
        · rw [if_neg hb] at hne2 ⊢
          rw [if_neg hb]
          by_cases h1 : lit ∈ alistKeys st.γ
          · rw [if_pos h1]
            rw [if_pos h1]
          · rw [if_neg h1] at hne2 ⊢
            rw [if_neg h1]
            exact (IH f (by omega)).1 f2 (by omega) _ hne2

/-- `cdclUnsatStep` is stable under extensions agreeing on finished calls. -/
theorem cdclUnsatStep_mono {assumeF assumeF2 : CdclS L → L → List L → CRes L (CdclS L)}
    {unsatF unsatF2 : CdclS L → CRes L Empty}
    (hA : ∀ st l c, assumeF st l c ≠ .fuelOut → assumeF2 st l c = assumeF st l c)
    (hUm : ∀ st, unsatF st ≠ .fuelOut → unsatF2 st = unsatF st) :
    ∀ (st : CdclS L) lit cause,
      cdclUnsatStep assumeF unsatF st lit cause ≠ .fuelOut →
      cdclUnsatStep assumeF2 unsatF2 st lit cause =
        cdclUnsatStep assumeF unsatF st lit cause := by
  intro st lit cause hn
  rcases ha : assumeF st lit cause with new | o | _ | _
  · have ha2 : assumeF2 st lit cause = .ok new := by
      rw [hA st lit cause (by rw [ha]; intro hc; cases hc), ha]
    rw [cdclUnsatStep_ok ha, cdclUnsatStep_ok ha2]
    rw [cdclUnsatStep_ok ha] at hn
    exact hUm new hn
  · have ha2 : assumeF2 st lit cause = .out o := by
      rw [hA st lit cause (by rw [ha]; intro hc; cases hc), ha]
    rw [cdclUnsatStep_out ha, cdclUnsatStep_out ha2]
  · have ha2 : assumeF2 st lit cause = .panic := by
      rw [hA st lit cause (by rw [ha]; intro hc; cases hc), ha]
    rw [cdclUnsatStep_panic ha, cdclUnsatStep_panic ha2]
  · rw [cdclUnsatStep_fuel ha] at hn
    exact absurd rfl hn

/-- `cdclSecond` is stable under extensions agreeing on finished calls. -/
theorem cdclSecond_mono {assumeF assumeF2 : CdclS L → L → List L → CRes L (CdclS L)}
    {unsatF unsatF2 : CdclS L → CRes L Empty}
    (hA : ∀ st l c, assumeF st l c ≠ .fuelOut → assumeF2 st l c = assumeF st l c)
    (hUm : ∀ st, unsatF st ≠ .fuelOut → unsatF2 st = unsatF st) :
    ∀ (st : CdclS L) lit deps conf0,
      cdclSecond neg assumeF unsatF st lit deps conf0 ≠ .fuelOut →
      cdclSecond neg assumeF2 unsatF2 st lit deps conf0 =
        cdclSecond neg assumeF unsatF st lit deps conf0 := by
  intro st lit deps conf0 hn
  simp only [cdclSecond] at hn ⊢
  by_cases hmem : lit ∈ deps
  · rw [if_pos hmem] at hn
    rw [if_pos hmem, if_pos hmem]
    rcases ha : assumeF
        (if cdclShift neg lit conf0 = [] then st else ⟨st.γ, st.δ ++ cdclShift neg lit conf0⟩)
        (neg lit) (deps.erase lit) with new2 | o | _ | _
    · have ha2 := hA _ (neg lit) (deps.erase lit) (by rw [ha]; intro hc; cases hc)
      rw [ha] at ha2
      simp only [ha] at hn
      simp only [ha, ha2]
      have hne : unsatF new2 ≠ .fuelOut := by
        intro hf
        simp only [hf] at hn
        exact hn rfl
      rw [hUm new2 hne]
    · have ha2 := hA _ (neg lit) (deps.erase lit) (by rw [ha]; intro hc; cases hc)
      rw [ha] at ha2
      simp only [ha, ha2]
    · have ha2 := hA _ (neg lit) (deps.erase lit) (by rw [ha]; intro hc; cases hc)
      rw [ha] at ha2
      simp only [ha, ha2]
    · rw [ha] at hn
      exact absurd rfl hn
  · rw [if_neg hmem, if_neg hmem]

/-- More fuel never changes a CDCL `unsat` search that already finished. -/
theorem cdclUnsat_mono : ∀ fuel fuel2, fuel ≤ fuel2 → ∀ st : CdclS L,
    cdclUnsat neg fuel st ≠ .fuelOut →
    cdclUnsat neg fuel2 st = cdclUnsat neg fuel st := by
  intro fuel
  induction fuel with
  | zero => intro fuel2 _ st hne2; exact absurd rfl hne2
  | succ fuel IH =>
    intro fuel2 hle st hne2
    match fuel2, hle with
    | f2 + 1, hle =>
      have hAm : ∀ (st2 : CdclS L) l c, cdclAssume neg fuel st2 l c ≠ .fuelOut →
          cdclAssume neg f2 st2 l c = cdclAssume neg fuel st2 l c :=
        fun st2 l c hn => (cdclBcpFn_mono neg fuel).2 f2 (by omega) st2 l c hn
      have hUm : ∀ st2 : CdclS L, cdclUnsat neg fuel st2 ≠ .fuelOut →
          cdclUnsat neg f2 st2 = cdclUnsat neg fuel st2 :=
        fun st2 hn => IH f2 (by omega) st2 hn
      rcases st with ⟨γ, δ⟩
      by_cases hb : cdclBadEnv neg γ
      · simp only [cdclUnsat, if_pos hb]
      · match δ with
        | [] => simp only [cdclUnsat, if_neg hb]
        | ⟨[], labs⟩ :: rest => simp only [cdclUnsat, if_neg hb]
        | ⟨lit :: ds, labs⟩ :: rest =>
          simp only [cdclUnsat, if_neg hb] at hne2 ⊢
          rcases hs1 : cdclUnsatStep (cdclAssume neg fuel)
              (fun s => cdclUnsat neg fuel s) ⟨γ, ⟨lit :: ds, labs⟩ :: rest⟩ lit
              (setInsert [] lit)
            with e | o1 | _ | _
          · rw [cdclUnsatStep_mono hAm hUm _ lit _ (by rw [hs1]; intro hc; cases hc), hs1]
          · rw [cdclUnsatStep_mono hAm hUm _ lit _ (by rw [hs1]; intro hc; cases hc), hs1]
            simp only [hs1] at hne2
            match o1, hne2 with
            | .sat m, hne2 => rfl
            | .unsat deps conf0, hne2 =>
              exact cdclSecond_mono neg hAm hUm _ lit deps conf0 hne2
          · rw [cdclUnsatStep_mono hAm hUm _ lit _ (by rw [hs1]; intro hc; cases hc), hs1]
          · simp only [hs1] at hne2
            exact absurd rfl hne2

/-- More fuel never changes a Backjump `unsat` search that already
finished. -/
theorem bjUnsat_mono : ∀ fuel fuel2, fuel ≤ fuel2 → ∀ st : CdclS L,
    bjUnsat neg fuel st ≠ .fuelOut →
    bjUnsat neg fuel2 st = bjUnsat neg fuel st := by
  intro fuel
  induction fuel with
  | zero => intro fuel2 _ st hne2; exact absurd rfl hne2
  | succ fuel IH =>
    intro fuel2 hle st hne2
    match fuel2, hle with
    | f2 + 1, hle =>
      have hAm : ∀ (st2 : CdclS L) l c, cdclAssume neg fuel st2 l c ≠ .fuelOut →
          cdclAssume neg f2 st2 l c = cdclAssume neg fuel st2 l c :=
        fun st2 l c hn => (cdclBcpFn_mono neg fuel).2 f2 (by omega) st2 l c hn
      have hUm : ∀ st2 : CdclS L, bjUnsat neg fuel st2 ≠ .fuelOut →
          bjUnsat neg f2 st2 = bjUnsat neg fuel st2 :=
        fun st2 hn => IH f2 (by omega) st2 hn
      rcases st with ⟨γ, δ⟩
      match δ with
      | [] => simp only [bjUnsat]
      | ⟨[], labs⟩ :: rest => simp only [bjUnsat]
      | ⟨lit :: ds, labs⟩ :: rest =>
        simp only [bjUnsat] at hne2 ⊢
        rcases hs1 : cdclUnsatStep (cdclAssume neg fuel)
            (fun s => bjUnsat neg fuel s) ⟨γ, ⟨lit :: ds, labs⟩ :: rest⟩ lit
            (setInsert [] lit)
          with e | o1 | _ | _
        · rw [cdclUnsatStep_mono hAm hUm _ lit _ (by rw [hs1]; intro hc; cases hc), hs1]
        · rw [cdclUnsatStep_mono hAm hUm _ lit _ (by rw [hs1]; intro hc; cases hc), hs1]
          simp only [hs1] at hne2
          match o1, hne2 with
          | .sat m, hne2 => rfl
          | .unsat deps conf0, hne2 =>
            have hne3 : (if lit ∈ deps then
                cdclUnsatStep (cdclAssume neg fuel) (fun s => bjUnsat neg fuel s)
                  ⟨γ, ⟨lit :: ds, labs⟩ :: rest⟩ (neg lit) (deps.erase lit)
              else .out (.unsat deps [])) ≠ (.fuelOut : CRes L Empty) := hne2
            show (if lit ∈ deps then
                cdclUnsatStep (cdclAssume neg f2) (fun s => bjUnsat neg f2 s)
                  ⟨γ, ⟨lit :: ds, labs⟩ :: rest⟩ (neg lit) (deps.erase lit)
              else .out (.unsat deps [])) =
              (if lit ∈ deps then
                cdclUnsatStep (cdclAssume neg fuel) (fun s => bjUnsat neg fuel s)
                  ⟨γ, ⟨lit :: ds, labs⟩ :: rest⟩ (neg lit) (deps.erase lit)
              else .out (.unsat deps []))
            by_cases hmem : lit ∈ deps
            · rw [if_pos hmem] at hne3
              rw [if_pos hmem, if_pos hmem]
              exact cdclUnsatStep_mono hAm hUm _ (neg lit) _ hne3
            · rw [if_neg hmem, if_neg hmem]
        · rw [cdclUnsatStep_mono hAm hUm _ lit _ (by rw [hs1]; intro hc; cases hc), hs1]
        · simp only [hs1] at hne2
          exact absurd rfl hne2

end CdclMonotone

section PlainTermination

variable {L : Type} [LinearOrder L] (neg : L → L)

/-- Universe condition on a `Plain` state: assumed literals come from the
finite set `U`, and the working CNF's literals and their negations do. -/
def UOKp (U : Finset L) (st : PlainS L) : Prop :=
  (∀ l ∈ st.γ, l ∈ U) ∧ ∀ C ∈ st.δ, ∀ l ∈ C, l ∈ U ∧ neg l ∈ U

/-- Universe contract for an `assume`-shaped function: a normal return
keeps the state inside the universe, only grows the environment, records
the literal, and the literal was new. -/
def UAssumeOK (U : Finset L) (assumeF : PlainS L → L → PRes L (PlainS L)) : Prop :=
  ∀ st lit st2, UOKp neg U st → lit ∈ U → assumeF st lit = .ok st2 →
    UOKp neg U st2 ∧ st.γ ⊆ st2.γ ∧ lit ∈ st2.γ ∧ lit ∉ st.γ

/-- Assuming a new universe literal strictly decreases the number of
unassumed universe literals. -/
theorem measure_decrease {U : Finset L} {γ γ2 : List L} {lit : L}
    (hU : lit ∈ U) (hnew : lit ∉ γ) (hsub : γ ⊆ γ2) (hmem : lit ∈ γ2) :
    (U.filter (fun x => x ∉ γ2)).card < (U.filter (fun x => x ∉ γ)).card := by
  apply Finset.card_lt_card
  rw [Finset.ssubset_def]
  constructor
  · intro x hx
    rw [Finset.mem_filter] at hx ⊢
    exact ⟨hx.1, fun hxγ => hx.2 (hsub hxγ)⟩
  · intro hcon
    have h1 : lit ∈ U.filter (fun x => x ∉ γ) := Finset.mem_filter.2 ⟨hU, hnew⟩
    have h2 := hcon h1
    rw [Finset.mem_filter] at h2
    exact h2.2 hmem

/-- The `bcp` loop stays inside the universe. -/
theorem plainBcpGo_uok {U : Finset L} {assumeF : PlainS L → L → PRes L (PlainS L)}
    (hA : UAssumeOK neg U assumeF) :
    ∀ (todo : List (List L)) (new st2 : PlainS L),
      (∀ l ∈ new.γ, l ∈ U) →
      (∀ C, C ∈ new.δ ∨ C ∈ todo → ∀ l ∈ C, l ∈ U ∧ neg l ∈ U) →
      plainBcpGo neg assumeF new todo = .ok st2 →
      UOKp neg U st2 ∧ new.γ ⊆ st2.γ := by
  intro todo
  induction todo with
  | nil =>
    intro new st2 hγ hδ h
    rw [plainBcpGo] at h
    cases h
    exact ⟨⟨hγ, fun C hC => hδ C (Or.inl hC)⟩, fun a ha => ha⟩
  | cons disj rest ih =>
    intro new st2 hγ hδ h
    rcases hr : reduceClause neg new.γ disj with _ | (_ | ⟨l, _ | ⟨b, res2⟩⟩)
    · rw [plainBcpGo_cons_drop neg hr] at h
      exact ih new st2 hγ (fun C hC => hδ C (by tauto)) h
    · rw [plainBcpGo_cons_empty neg hr] at h
      cases h
    · rcases ha : assumeF new l with new2 | o | _ | _
      · rw [plainBcpGo_cons_unit_ok neg hr ha] at h
        have hres := reduceGo_some neg hr
        have hlin : l ∈ disj := by
          rcases (hres l).1 (by simp) with h0 | h1
          · cases h0
          · exact h1.1
        have hlU : l ∈ U := (hδ disj (Or.inr (by simp)) l hlin).1
        obtain ⟨hU2, hsub2, _, _⟩ := hA new l new2 ⟨hγ, fun C hC => hδ C (Or.inl hC)⟩ hlU ha
        obtain ⟨hU3, hsub3⟩ := ih new2 st2 hU2.1
          (fun C hC => by
            rcases hC with hC | hC
            · exact hU2.2 C hC
            · exact hδ C (Or.inr (by simp [hC])))
          h
        exact ⟨hU3, hsub2.trans hsub3⟩
      · rw [plainBcpGo_cons_unit_out neg hr ha] at h
        cases h
      · rw [plainBcpGo_cons_unit_panic neg hr ha] at h
        cases h
      · rw [plainBcpGo_cons_unit_fuel neg hr ha] at h
        cases h
    · rw [plainBcpGo_cons_keep neg hr] at h
      have hres := reduceGo_some neg hr
      have hsubd : ∀ x ∈ l :: b :: res2, x ∈ disj := by
        intro x hx
        rcases (hres x).1 hx with h0 | h1
        · cases h0
        · exact h1.1
      obtain ⟨hU3, hsub3⟩ := ih ⟨new.γ, new.δ ++ [l :: b :: res2]⟩ st2 hγ
        (fun C hC => by
          rcases hC with hC | hC
          · rcases List.mem_append.1 hC with hC | hC
            · exact hδ C (Or.inl hC)
            · rcases List.mem_singleton.1 hC with rfl
              exact fun x hx => hδ disj (Or.inr (by simp)) x (hsubd x hx)
          · exact hδ C (Or.inr (by simp [hC])))
        h
      exact ⟨hU3, hsub3⟩

/-- `Plain::assume` satisfies the universe contract at every fuel. -/
theorem plainAssume_uassumeOK (U : Finset L) :
    ∀ fuel, UAssumeOK neg U (plainAssume neg fuel) := by
  intro fuel
  induction fuel using Nat.strong_induction_on with
  | _ fuel IH =>
    match fuel with
    | 0 => intro st lit st2 _ _ h; cases h
    | 1 =>
      intro st lit st2 _ _ h
      rw [plainAssume] at h
      by_cases h1 : lit ∈ st.γ
      · rw [if_pos h1] at h; cases h
      · rw [if_neg h1] at h; cases h
    | f + 2 =>
      intro st lit st2 hU hlitU h
      rw [plainAssume] at h
      by_cases h1 : lit ∈ st.γ
      · rw [if_pos h1] at h
        cases h
      · rw [if_neg h1, plainBcpFn_succ] at h
        obtain ⟨hU2, hsub2⟩ := plainBcpGo_uok neg (IH f (by omega)) st.δ
          ⟨lit :: st.γ, []⟩ st2
          (fun l hl => by
            rcases List.mem_cons.1 hl with rfl | hl
            · exact hlitU
            · exact hU.1 l hl)
          (fun C hC => by
            rcases hC with hC | hC
            · cases hC
            · exact hU.2 C hC)
          h
        exact ⟨hU2, fun a ha => hsub2 (List.mem_cons.2 (Or.inr ha)),
          hsub2 (List.mem_cons.2 (Or.inl rfl)), h1⟩

/-- Termination of `Plain::bcp` and `Plain::assume`: enough fuel exists
whenever the state lives in a finite universe. -/
theorem plain_bcp_assume_fuel (U : Finset L) : ∀ n : Nat,
    (∀ st : PlainS L, UOKp neg U st →
      (U.filter (fun x => x ∉ st.γ)).card ≤ n →
      ∃ f, plainBcpFn neg f st ≠ .fuelOut) ∧
    (∀ (st : PlainS L) lit, UOKp neg U st → lit ∈ U →
      (U.filter (fun x => x ∉ st.γ)).card ≤ n →
      ∃ f, plainAssume neg f st lit ≠ .fuelOut) ∧
    (∀ (todo : List (List L)) (new : PlainS L),
      (∀ l ∈ new.γ, l ∈ U) →
      (∀ C, C ∈ new.δ ∨ C ∈ todo → ∀ l ∈ C, l ∈ U ∧ neg l ∈ U) →
      (U.filter (fun x => x ∉ new.γ)).card ≤ n →
      ∃ f, plainBcpGo neg (plainAssume neg f) new todo ≠ .fuelOut) := by
  intro n
  induction n using Nat.strong_induction_on with
  | _ n IH =>
    have hTA : ∀ (st : PlainS L) lit, UOKp neg U st → lit ∈ U →
        (U.filter (fun x => x ∉ st.γ)).card ≤ n →
        ∃ f, plainAssume neg f st lit ≠ .fuelOut := by
      intro st lit hU hlitU hμ
      by_cases h1 : lit ∈ st.γ
      · refine ⟨1, ?_⟩
        rw [plainAssume, if_pos h1]
        intro hc
        cases hc
      · have hdec : (U.filter (fun x => x ∉ (lit :: st.γ))).card <
            (U.filter (fun x => x ∉ st.γ)).card :=
          measure_decrease hlitU h1
            (fun a ha => List.mem_cons.2 (Or.inr ha)) (List.mem_cons.2 (Or.inl rfl))
        have hμ2 : (U.filter (fun x => x ∉ (lit :: st.γ))).card < n :=
          lt_of_lt_of_le hdec hμ
        match n, hμ2 with
        | m + 1, hμ2 =>
          obtain ⟨f, hf⟩ := (IH m (by omega)).1 ⟨lit :: st.γ, st.δ⟩
            ⟨fun l hl => by
              rcases List.mem_cons.1 hl with rfl | hl
              · exact hlitU
              · exact hU.1 l hl, hU.2⟩
            (Nat.lt_succ_iff.1 hμ2)
          refine ⟨f + 1, ?_⟩
          rw [plainAssume, if_neg h1]
          exact hf
    have hTG : ∀ (todo : List (List L)) (new : PlainS L),
        (∀ l ∈ new.γ, l ∈ U) →
        (∀ C, C ∈ new.δ ∨ C ∈ todo → ∀ l ∈ C, l ∈ U ∧ neg l ∈ U) →
        (U.filter (fun x => x ∉ new.γ)).card ≤ n →
        ∃ f, plainBcpGo neg (plainAssume neg f) new todo ≠ .fuelOut := by
      intro todo
      induction todo with
      | nil =>
        intro new _ _ _
        refine ⟨0, ?_⟩
        rw [plainBcpGo]
        intro hc
        cases hc
      | cons disj rest ihg =>
        intro new hγ hδ hμ
        rcases hr : reduceClause neg new.γ disj with _ | (_ | ⟨l, _ | ⟨b, res2⟩⟩)
        · obtain ⟨f, hf⟩ := ihg new hγ (fun C hC => hδ C (by tauto)) hμ
          refine ⟨f, ?_⟩
          rw [plainBcpGo_cons_drop neg hr]
          exact hf
        · refine ⟨0, ?_⟩
          rw [plainBcpGo_cons_empty neg hr]
          intro hc
          cases hc
        · have hres := reduceGo_some neg hr
          have hlin : l ∈ disj := by
            rcases (hres l).1 (by simp) with h0 | h1
            · cases h0
            · exact h1.1
          have hlU : l ∈ U := (hδ disj (Or.inr (by simp)) l hlin).1
          have hUnew : UOKp neg U new := ⟨hγ, fun C hC => hδ C (Or.inl hC)⟩
          obtain ⟨f1, hf1⟩ := hTA new l hUnew hlU hμ
          rcases ha : plainAssume neg f1 new l with new2 | o | _ | _
          · obtain ⟨hU2, hsub2, hmem2, hnew2⟩ :=
              plainAssume_uassumeOK neg U f1 new l new2 hUnew hlU ha
            have hμ2 : (U.filter (fun x => x ∉ new2.γ)).card < n :=
              lt_of_lt_of_le (measure_decrease hlU hnew2 hsub2 hmem2) hμ
            match n, hμ2 with
            | m + 1, hμ2 =>
              obtain ⟨f2, hf2⟩ := ((IH m (by omega)).2.2) rest new2 hU2.1
                (fun C hC => by
                  rcases hC with hC | hC
                  · exact hU2.2 C hC
                  · exact hδ C (Or.inr (by simp [hC])))
                (Nat.lt_succ_iff.1 hμ2)
              refine ⟨max f1 f2, ?_⟩
              have haM : plainAssume neg (max f1 f2) new l = .ok new2 := by
                rw [(plainBcpFn_mono neg f1).2 (max f1 f2) (by omega) new l
                  (by rw [ha]; intro hc; cases hc), ha]
              rw [plainBcpGo_cons_unit_ok neg hr haM]
              rw [plainBcpGo_mono neg
                (fun st3 l3 hn3 => (plainBcpFn_mono neg f2).2 (max f1 f2) (by omega) st3 l3 hn3)
                rest new2 hf2]
              exact hf2
          · refine ⟨f1, ?_⟩
            rw [plainBcpGo_cons_unit_out neg hr ha]
            intro hc
            cases hc
          · refine ⟨f1, ?_⟩
            rw [plainBcpGo_cons_unit_panic neg hr ha]
            intro hc
            cases hc
          · exact absurd ha hf1
        · have hres := reduceGo_some neg hr
          have hsubd : ∀ x ∈ l :: b :: res2, x ∈ disj := by
            intro x hx
            rcases (hres x).1 hx with h0 | h1
            · cases h0
            · exact h1.1
          obtain ⟨f, hf⟩ := ihg ⟨new.γ, new.δ ++ [l :: b :: res2]⟩ hγ
            (fun C hC => by
              rcases hC with hC | hC
              · rcases List.mem_append.1 hC with hC | hC
                · exact hδ C (Or.inl hC)
                · rcases List.mem_singleton.1 hC with rfl
                  exact fun x hx => hδ disj (Or.inr (by simp)) x (hsubd x hx)
              · exact hδ C (Or.inr (by simp [hC])))
            hμ
          refine ⟨f, ?_⟩
          rw [plainBcpGo_cons_keep neg hr]
          exact hf
    refine ⟨?_, hTA, hTG⟩
    intro st hU hμ
    obtain ⟨f, hf⟩ := hTG st.δ ⟨st.γ, []⟩ hU.1
      (fun C hC => by
        rcases hC with hC | hC
        · cases hC
        · exact hU.2 C hC)
      hμ
    refine ⟨f + 1, ?_⟩
    rw [plainBcpFn_succ]
    exact hf

end PlainTermination

section PlainUnsatTermination

variable {L : Type} [LinearOrder L] (neg : L → L)

/-- Termination of `Plain::unsat`: enough fuel exists whenever the state
lives in a finite universe. -/
theorem plainUnsat_fuel (U : Finset L) : ∀ n : Nat, ∀ st : PlainS L,
    UOKp neg U st → (U.filter (fun x => x ∉ st.γ)).card ≤ n →
    ∃ f, plainUnsat neg f st ≠ .fuelOut := by
  intro n
  induction n using Nat.strong_induction_on with
  | _ n IH =>
    rintro ⟨γ, δ⟩ hU hμ
    match δ with
    | [] =>
      refine ⟨1, ?_⟩
      intro hc
      cases hc
    | [] :: rest =>
      refine ⟨1, ?_⟩
      intro hc
      cases hc
    | (lit :: ds) :: rest =>
      have hlitU : lit ∈ U ∧ neg lit ∈ U := hU.2 (lit :: ds) (by simp) lit (by simp)
      have hbranch : ∀ l2, l2 ∈ U →
          ∃ f, plainUnsatStep (plainAssume neg f) (fun s => plainUnsat neg f s)
            ⟨γ, (lit :: ds) :: rest⟩ l2 ≠ .fuelOut := by
        intro l2 hl2U
        obtain ⟨f1, hf1⟩ := (plain_bcp_assume_fuel neg U n).2.1
          ⟨γ, (lit :: ds) :: rest⟩ l2 hU hl2U hμ
        rcases ha : plainAssume neg f1 ⟨γ, (lit :: ds) :: rest⟩ l2 with new | o | _ | _
        · obtain ⟨hU2, hsub2, hmem2, hnew2⟩ :=
            plainAssume_uassumeOK neg U f1 _ l2 new hU hl2U ha
          have hμ2 : (U.filter (fun x => x ∉ new.γ)).card < n :=
            lt_of_lt_of_le (measure_decrease hl2U hnew2 hsub2 hmem2) hμ
          match n, hμ2 with
          | m + 1, hμ2 =>
            obtain ⟨f2, hf2⟩ := IH m (by omega) new hU2 (Nat.lt_succ_iff.1 hμ2)
            refine ⟨max f1 f2, ?_⟩
            have haM : plainAssume neg (max f1 f2) ⟨γ, (lit :: ds) :: rest⟩ l2 = .ok new := by
              rw [(plainBcpFn_mono neg f1).2 (max f1 f2) (by omega) _ l2
                (by rw [ha]; intro hc; cases hc), ha]
            rw [plainUnsatStep_ok haM,
              plainUnsat_mono neg f2 (max f1 f2) (by omega) new hf2]
            exact hf2
        · refine ⟨f1, ?_⟩
          rw [plainUnsatStep_out ha]
          intro hc
          cases hc
        · refine ⟨f1, ?_⟩
          rw [plainUnsatStep_panic ha]
          intro hc
          cases hc
        · exact absurd ha hf1
      obtain ⟨fa, hfa⟩ := hbranch lit hlitU.1
      obtain ⟨fb, hfb⟩ := hbranch (neg lit) hlitU.2
      have hstepm : ∀ f f2, f ≤ f2 → ∀ l2,
          plainUnsatStep (plainAssume neg f) (fun s => plainUnsat neg f s)
            ⟨γ, (lit :: ds) :: rest⟩ l2 ≠ .fuelOut →
          plainUnsatStep (plainAssume neg f2) (fun s => plainUnsat neg f2 s)
            ⟨γ, (lit :: ds) :: rest⟩ l2 =
          plainUnsatStep (plainAssume neg f) (fun s => plainUnsat neg f s)
            ⟨γ, (lit :: ds) :: rest⟩ l2 := by
        intro f f2 hle l2 hn
        rcases ha : plainAssume neg f ⟨γ, (lit :: ds) :: rest⟩ l2 with new | o | _ | _
        · have ha2 : plainAssume neg f2 ⟨γ, (lit :: ds) :: rest⟩ l2 = .ok new := by
            rw [(plainBcpFn_mono neg f).2 f2 hle _ l2 (by rw [ha]; intro hc; cases hc), ha]
          rw [plainUnsatStep_ok ha, plainUnsatStep_ok ha2]
          rw [plainUnsatStep_ok ha] at hn
          exact plainUnsat_mono neg f f2 hle new hn
        · have ha2 : plainAssume neg f2 ⟨γ, (lit :: ds) :: rest⟩ l2 = .out o := by
            rw [(plainBcpFn_mono neg f).2 f2 hle _ l2 (by rw [ha]; intro hc; cases hc), ha]
          rw [plainUnsatStep_out ha, plainUnsatStep_out ha2]
        · have ha2 : plainAssume neg f2 ⟨γ, (lit :: ds) :: rest⟩ l2 = .panic := by
            rw [(plainBcpFn_mono neg f).2 f2 hle _ l2 (by rw [ha]; intro hc; cases hc), ha]
          rw [plainUnsatStep_panic ha, plainUnsatStep_panic ha2]
        · rw [plainUnsatStep_fuel ha] at hn
          exact absurd rfl hn
      refine ⟨max fa fb + 1, ?_⟩
      simp only [plainUnsat]
      rw [hstepm fa (max fa fb) (by omega) lit hfa]
      rcases hs1 : plainUnsatStep (plainAssume neg fa) (fun s => plainUnsat neg fa s)
          ⟨γ, (lit :: ds) :: rest⟩ lit with o1 | _ | _
      · match o1 with
        | .sat m =>
          intro hc
          cases hc
        | .unsat =>
          rw [hstepm fb (max fa fb) (by omega) (neg lit) hfb]
          exact hfb
      · intro hc
        cases hc
      · exact absurd hs1 hfa

end PlainUnsatTermination

section CdclTerminationPrep

variable {L : Type} [LinearOrder L] (neg : L → L)

/-- Membership after `Set<LClause>` insertion. -/
theorem lclausesInsert_mem {s : List (LClause L)} {c x : LClause L}
    (h : x ∈ lclausesInsert s c) : x ∈ s ∨ x = c := by
  unfold lclausesInsert at h
  by_cases hc : s.any (lclBeq c)
  · rw [if_pos hc] at h
    exact Or.inl h
  · rw [if_neg hc] at h
    rcases List.mem_append.1 h with h | h
    · exact Or.inl h
    · exact Or.inr (List.mem_singleton.1 h)

/-- Membership after `Set<LClause>` extension. -/
theorem lclausesExtend_mem {s t : List (LClause L)} {x : LClause L}
    (h : x ∈ lclausesExtend s t) : x ∈ s ∨ x ∈ t := by
  induction t generalizing s with
  | nil => exact Or.inl h
  | cons c cs ih =>
    rcases @ih (lclausesInsert s c) h with h2 | h2
    · rcases lclausesInsert_mem h2 with h3 | h3
      · exact Or.inl h3
      · exact Or.inr (by simp [h3])
    · exact Or.inr (by simp [h2])

/-- `Cdcl::shift` keeps clause literals inside a negation-closed
universe. -/
theorem cdclShift_uok (hinv : ∀ l, neg (neg l) = l) {U : Finset L} {lit : L}
    {cs : List (LClause L)} (hlitU : lit ∈ U) (hnlitU : neg lit ∈ U)
    (hcs : ∀ y ∈ cs, ∀ l ∈ y.clause, l ∈ U ∧ neg l ∈ U) :
    ∀ x ∈ cdclShift neg lit cs, ∀ l ∈ x.clause, l ∈ U ∧ neg l ∈ U := by
  have key : ∀ (cs2 : List (LClause L)) (acc : List (LClause L)),
      (∀ y ∈ cs2, ∀ l ∈ y.clause, l ∈ U ∧ neg l ∈ U) →
      (∀ y ∈ acc, ∀ l ∈ y.clause, l ∈ U ∧ neg l ∈ U) →
      ∀ x ∈ cs2.foldl
        (fun res lc =>
          lclausesInsert res
            (if lit ∈ lc.labels then ⟨clausePush lc.clause (neg lit), lc.labels.erase lit⟩
             else lc)) acc, ∀ l ∈ x.clause, l ∈ U ∧ neg l ∈ U := by
    intro cs2
    induction cs2 with
    | nil =>
      intro acc _ hacc x hx
      exact hacc x hx
    | cons y ys ih =>
      intro acc hcs2 hacc x hx
      refine ih _ (fun z hz => hcs2 z (by simp [hz])) ?_ x hx
      intro z hz
      rcases lclausesInsert_mem hz with hz2 | hz2
      · exact hacc z hz2
      · subst hz2
        by_cases hy : lit ∈ y.labels
        · rw [if_pos hy]
          intro l hl
          rcases (clausePush_mem y.clause (neg lit) l).1 hl with hl2 | hl2
          · exact hcs2 y (by simp) l hl2
          · subst hl2
            refine ⟨hnlitU, ?_⟩
            rw [hinv]
            exact hlitU
        · rw [if_neg hy]
          exact hcs2 y (by simp)
  intro x hx
  exact key cs [] hcs (by intro y hy; cases hy) x hx

end CdclTerminationPrep

section CdclUniverse

variable {L : Type} [LinearOrder L] (neg : L → L)

/-- A refutation raised inside the `bcp` loop carries no conflict
clauses. -/
theorem cdclBcpGo_conf_nil {assumeF : CdclS L → L → List L → CRes L (CdclS L)}
    (hA : ∀ st l c deps conf, assumeF st l c = .out (.unsat deps conf) → conf = []) :
    ∀ (todo : List (LClause L)) (new : CdclS L) (deps : List L)
      (conf : List (LClause L)),
      cdclBcpGo neg assumeF new todo = .out (.unsat deps conf) → conf = [] := by
  intro todo
  induction todo with
  | nil =>
    intro new deps conf h
    rw [cdclBcpGo] at h
    cases h
  | cons lc rest ih =>
    intro new deps conf h
    rcases hr : creduceClause neg new.γ lc with _ | ⟨_ | ⟨l, _ | ⟨b, res2⟩⟩, deps2⟩
    · rw [cdclBcpGo_cons_drop neg hr] at h
      exact ih new deps conf h
    · rw [cdclBcpGo_cons_empty neg hr] at h
      cases h
      rfl
    · rcases ha : assumeF new l deps2 with new2 | o | _ | _
      · rw [cdclBcpGo_cons_unit_ok neg hr ha] at h
        exact ih new2 deps conf h
      · rw [cdclBcpGo_cons_unit_out neg hr ha] at h
        cases h
        exact hA new l deps2 deps conf ha
      · rw [cdclBcpGo_cons_unit_panic neg hr ha] at h
        cases h
      · rw [cdclBcpGo_cons_unit_fuel neg hr ha] at h
        cases h
    · rw [cdclBcpGo_cons_keep neg hr] at h
      exact ih _ deps conf h

/-- A refutation raised by `Cdcl::assume` carries no conflict clauses. -/
theorem cdclAssume_conf_nil : ∀ fuel (st : CdclS L) lit cause deps conf,
    cdclAssume neg fuel st lit cause = .out (.unsat deps conf) → conf = [] := by
  intro fuel
  induction fuel using Nat.strong_induction_on with
  | _ fuel IH =>
    match fuel with
    | 0 => intro st lit cause deps conf h; cases h
    | 1 =>
      intro st lit cause deps conf h
      rw [cdclAssume] at h
      by_cases hb : cdclBadEnv neg st.γ
      · rw [if_pos hb] at h; cases h
      · rw [if_neg hb] at h
        by_cases h1 : lit ∈ alistKeys st.γ
        · rw [if_pos h1] at h; cases h
        · rw [if_neg h1] at h; cases h
    | f + 2 =>
      intro st lit cause deps conf h
      rw [cdclAssume] at h
      by_cases hb : cdclBadEnv neg st.γ
      · rw [if_pos hb] at h; cases h
      · rw [if_neg hb] at h
        by_cases h1 : lit ∈ alistKeys st.γ
        · rw [if_pos h1] at h; cases h
        · rw [if_neg h1, cdclBcpFn_succ] at h
          by_cases hb2 : cdclBadEnv neg ((lit, cause) :: st.γ)
          · rw [if_pos hb2] at h; cases h
          · rw [if_neg hb2] at h
            exact cdclBcpGo_conf_nil neg
              (fun st2 l c d cf ha => IH f (by omega) st2 l c d cf ha) _ _ deps conf h

/-- Universe condition on a `Cdcl` state. -/
def UOKc (U : Finset L) (st : CdclS L) : Prop :=
  (∀ l ∈ alistKeys st.γ, l ∈ U) ∧
  ∀ lc ∈ st.δ, ∀ l ∈ lc.clause, l ∈ U ∧ neg l ∈ U

/-- Universe contract for a CDCL `assume`-shaped function. -/
def CUAssumeOK (U : Finset L) (assumeF : CdclS L → L → List L → CRes L (CdclS L)) : Prop :=
  ∀ st lit cause st2, UOKc neg U st → lit ∈ U → assumeF st lit cause = .ok st2 →
    UOKc neg U st2 ∧ alistKeys st.γ ⊆ alistKeys st2.γ ∧ lit ∈ alistKeys st2.γ

/-- The CDCL `bcp` loop stays inside the universe. -/
theorem cdclBcpGo_uok {U : Finset L} {assumeF : CdclS L → L → List L → CRes L (CdclS L)}
    (hA : CUAssumeOK neg U assumeF) :
    ∀ (todo : List (LClause L)) (new st2 : CdclS L),
      (∀ l ∈ alistKeys new.γ, l ∈ U) →
      (∀ lc, lc ∈ new.δ ∨ lc ∈ todo → ∀ l ∈ lc.clause, l ∈ U ∧ neg l ∈ U) →
      cdclBcpGo neg assumeF new todo = .ok st2 →
      UOKc neg U st2 ∧ alistKeys new.γ ⊆ alistKeys st2.γ := by
  intro todo
  induction todo with
  | nil =>
    intro new st2 hγ hδ h
    rw [cdclBcpGo] at h
    cases h
    exact ⟨⟨hγ, fun lc hlc => hδ lc (Or.inl hlc)⟩, fun a ha => ha⟩
  | cons lc rest ih =>
    intro new st2 hγ hδ h
    rcases hr : creduceClause neg new.γ lc with _ | ⟨_ | ⟨l, _ | ⟨b, res2⟩⟩, deps⟩
    · rw [cdclBcpGo_cons_drop neg hr] at h
      exact ih new st2 hγ (fun D hD => hδ D (by tauto)) h
    · rw [cdclBcpGo_cons_empty neg hr] at h
      cases h
    · rcases ha : assumeF new l deps with new2 | o | _ | _
      · rw [cdclBcpGo_cons_unit_ok neg hr ha] at h
        have hres := creduceClause_some neg hr
        have hlin : l ∈ lc.clause := ((hres l).1 (by simp)).1
        have hlU : l ∈ U := (hδ lc (Or.inr (by simp)) l hlin).1
        obtain ⟨hU2, hsub2, _⟩ :=
          hA new l deps new2 ⟨hγ, fun D hD => hδ D (Or.inl hD)⟩ hlU ha
        obtain ⟨hU3, hsub3⟩ := ih new2 st2 hU2.1
          (fun D hD => by
            rcases hD with hD | hD
            · exact hU2.2 D hD
            · exact hδ D (Or.inr (by simp [hD])))
          h
        exact ⟨hU3, hsub2.trans hsub3⟩
      · rw [cdclBcpGo_cons_unit_out neg hr ha] at h
        cases h
      · rw [cdclBcpGo_cons_unit_panic neg hr ha] at h
        cases h
      · rw [cdclBcpGo_cons_unit_fuel neg hr ha] at h
        cases h
    · rw [cdclBcpGo_cons_keep neg hr] at h
      have hres := creduceClause_some neg hr
      have hsubd : ∀ x ∈ l :: b :: res2, x ∈ lc.clause :=
        fun x hx => ((hres x).1 hx).1
      obtain ⟨hU3, hsub3⟩ := ih ⟨new.γ, new.δ ++ [⟨l :: b :: res2, deps⟩]⟩ st2 hγ
        (fun D hD => by
          rcases hD with hD | hD
          · rcases List.mem_append.1 hD with hD | hD
            · exact hδ D (Or.inl hD)
            · rcases List.mem_singleton.1 hD with rfl
              exact fun x hx => hδ lc (Or.inr (by simp)) x (hsubd x hx)
          · exact hδ D (Or.inr (by simp [hD])))
        h
      exact ⟨hU3, hsub3⟩

/-- `Cdcl::assume` satisfies the universe contract at every fuel. -/
theorem cdclAssume_cuassumeOK (U : Finset L) :
    ∀ fuel, CUAssumeOK neg U (cdclAssume neg fuel) := by
  intro fuel
  induction fuel using Nat.strong_induction_on with
  | _ fuel IH =>
    match fuel with
    | 0 => intro st lit cause st2 _ _ h; cases h
    | 1 =>
      intro st lit cause st2 hU hlitU h
      rw [cdclAssume] at h
      by_cases hb : cdclBadEnv neg st.γ
      · rw [if_pos hb] at h; cases h
      · rw [if_neg hb] at h
        by_cases h1 : lit ∈ alistKeys st.γ
        · rw [if_pos h1] at h
          cases h
          refine ⟨⟨?_, hU.2⟩, ?_, ?_⟩
          · rw [alistMerge_keys]
            exact hU.1
          · rw [alistMerge_keys]
            exact fun a ha => ha
          · rw [alistMerge_keys]
            exact h1
        · rw [if_neg h1] at h
          cases h
    | f + 2 =>
      intro st lit cause st2 hU hlitU h
      rw [cdclAssume] at h
      by_cases hb : cdclBadEnv neg st.γ
      · rw [if_pos hb] at h; cases h
      · rw [if_neg hb] at h
        by_cases h1 : lit ∈ alistKeys st.γ
        · rw [if_pos h1] at h
          cases h
          refine ⟨⟨?_, hU.2⟩, ?_, ?_⟩
          · rw [alistMerge_keys]
            exact hU.1
          · rw [alistMerge_keys]
            exact fun a ha => ha
          · rw [alistMerge_keys]
            exact h1
        · rw [if_neg h1, cdclBcpFn_succ] at h
          by_cases hb2 : cdclBadEnv neg ((lit, cause) :: st.γ)
          · rw [if_pos hb2] at h; cases h
          · rw [if_neg hb2] at h
            obtain ⟨hU2, hsub2⟩ := cdclBcpGo_uok neg (IH f (by omega)) st.δ
              ⟨(lit, cause) :: st.γ, []⟩ st2
              (fun l hl => by
                rcases List.mem_cons.1 hl with rfl | hl
                · exact hlitU
                · exact hU.1 l hl)
              (fun lc hlc => by
                rcases hlc with hlc | hlc
                · cases hlc
                · exact hU.2 lc hlc)
              h
            exact ⟨hU2, fun a ha => hsub2 (List.mem_cons.2 (Or.inr ha)),
              hsub2 (List.mem_cons.2 (Or.inl rfl))⟩

end CdclUniverse

section CdclConflictUniverse

variable {L : Type} [LinearOrder L] (neg : L → L)

/-- Conflict clauses returned by a `Cdcl::unsat` refutation stay inside a
negation-closed universe. -/
theorem cdclUnsat_conf_uok (hinv : ∀ l, neg (neg l) = l) {U : Finset L} :
    ∀ fuel (st : CdclS L) deps conf, UOKc neg U st →
      cdclUnsat neg fuel st = .out (.unsat deps conf) →
      ∀ lc ∈ conf, ∀ l ∈ lc.clause, l ∈ U ∧ neg l ∈ U := by
  intro fuel
  induction fuel with
  | zero => intro st deps conf _ h; cases h
  | succ fuel IH =>
    rintro ⟨γ, δ⟩ deps conf hU h
    by_cases hb : cdclBadEnv neg γ
    · simp only [cdclUnsat, if_pos hb] at h
      cases h
    · match δ, h with
      | [], h =>
        simp only [cdclUnsat, if_neg hb] at h
        cases h
      | ⟨[], labs⟩ :: rest, h =>
        simp only [cdclUnsat, if_neg hb] at h
        cases h
      | ⟨lit :: ds, labs⟩ :: rest, h =>
        have hlitU : lit ∈ U ∧ neg lit ∈ U :=
          hU.2 ⟨lit :: ds, labs⟩ (by simp) lit (by simp)
        simp only [cdclUnsat, if_neg hb] at h
        rcases hs1 : cdclUnsatStep (cdclAssume neg fuel)
            (fun s => cdclUnsat neg fuel s) ⟨γ, ⟨lit :: ds, labs⟩ :: rest⟩ lit
            (setInsert [] lit)
          with e | o1 | _ | _ <;> simp only [hs1] at h
        · cases h
        · match o1, hs1, h with
          | .sat m, hs1, h => cases h
          | .unsat deps0 conf0, hs1, h =>
            have hconf0U : ∀ lc ∈ conf0, ∀ l ∈ lc.clause, l ∈ U ∧ neg l ∈ U := by
              rcases ha : cdclAssume neg fuel ⟨γ, ⟨lit :: ds, labs⟩ :: rest⟩ lit
                  (setInsert [] lit) with new | o | _ | _
              · rw [cdclUnsatStep_ok ha] at hs1
                obtain ⟨hU2, _, _⟩ :=
                  cdclAssume_cuassumeOK neg U fuel _ lit _ new hU hlitU.1 ha
                exact IH new deps0 conf0 hU2 hs1
              · rw [cdclUnsatStep_out ha] at hs1
                cases hs1
                rw [cdclAssume_conf_nil neg fuel _ _ _ _ _ ha]
                intro lc hlc
                cases hlc
              · rw [cdclUnsatStep_panic ha] at hs1
                cases hs1
              · rw [cdclUnsatStep_fuel ha] at hs1
                cases hs1
            have hshiftU : ∀ x ∈ cdclShift neg lit conf0, ∀ l ∈ x.clause,
                l ∈ U ∧ neg l ∈ U :=
              cdclShift_uok neg hinv hlitU.1 hlitU.2 hconf0U
            have hcore : ∀ stB : CdclS L, UOKc neg U stB →
                (match cdclAssume neg fuel stB (neg lit) (deps0.erase lit) with
                  | CRes.ok new2 =>
                    match cdclUnsat neg fuel new2 with
                    | CRes.out (COut.unsat newDeps newConflict) =>
                        CRes.out (.unsat newDeps
                          (lclausesInsert
                            (lclausesExtend (cdclShift neg lit conf0) newConflict)
                            ⟨clauseNew [neg lit], deps0.erase lit⟩))
                    | r2 => r2
                  | CRes.out o => CRes.out o
                  | CRes.panic => CRes.panic
                  | CRes.fuelOut => CRes.fuelOut) = .out (.unsat deps conf) →
                ∀ lc ∈ conf, ∀ l ∈ lc.clause, l ∈ U ∧ neg l ∈ U := by
              intro stB hUB hm
              rcases ha2 : cdclAssume neg fuel stB (neg lit) (deps0.erase lit)
                with new2 | o | _ | _ <;> simp only [ha2] at hm
              · obtain ⟨hU3, _, _⟩ :=
                  cdclAssume_cuassumeOK neg U fuel stB (neg lit) _ new2 hUB
                    hlitU.2 ha2
                rcases hs2 : cdclUnsat neg fuel new2
                  with e2 | o2 | _ | _ <;> simp only [hs2] at hm
                · cases hm
                · match o2, hs2, hm with
                  | .sat m, hs2, hm => cases hm
                  | .unsat nd nc, hs2, hm =>
                    have hncU : ∀ lc ∈ nc, ∀ l ∈ lc.clause, l ∈ U ∧ neg l ∈ U :=
                      IH new2 nd nc hU3 hs2
                    cases hm
                    intro lc hlc
                    rcases lclausesInsert_mem hlc with hlc2 | hlc2
                    · rcases lclausesExtend_mem hlc2 with hlc3 | hlc3
                      · exact hshiftU lc hlc3
                      · exact hncU lc hlc3
                    · subst hlc2
                      intro l hl
                      rcases List.mem_singleton.1 hl with rfl
                      refine ⟨hlitU.2, ?_⟩
                      rw [hinv]
                      exact hlitU.1
                · cases hm
                · cases hm
              · cases hm
                rw [cdclAssume_conf_nil neg fuel _ _ _ _ _ ha2]
                intro lc hlc
                cases hlc
              · cases hm
              · cases hm
            simp only [cdclSecond] at h
            by_cases hmem : lit ∈ deps0
            · rw [if_pos hmem] at h
              by_cases hce : cdclShift neg lit conf0 = []
              · rw [if_pos hce] at h
                exact hcore _ hU h
              · rw [if_neg hce] at h
                refine hcore ⟨γ, (⟨lit :: ds, labs⟩ :: rest) ++ cdclShift neg lit conf0⟩
                  ⟨hU.1, ?_⟩ h
                intro lc hlc
                rcases List.mem_append.1 hlc with hlc | hlc
                · exact hU.2 lc hlc
                · exact hshiftU lc hlc
            · rw [if_neg hmem] at h
              cases h
              exact hshiftU
        · cases h
        · cases h

end CdclConflictUniverse

section CdclBcpTermination

variable {L : Type} [LinearOrder L] (neg : L → L)

/-- Termination of `Cdcl::bcp` and `Cdcl::assume`: enough fuel exists
whenever the state lives in a finite universe. -/
theorem cdcl_bcp_assume_fuel (U : Finset L) : ∀ n : Nat,
    (∀ st : CdclS L, UOKc neg U st →
      (U.filter (fun x => x ∉ alistKeys st.γ)).card ≤ n →
      ∃ f, cdclBcpFn neg f st ≠ .fuelOut) ∧
    (∀ (st : CdclS L) lit cause, UOKc neg U st → lit ∈ U →
      (U.filter (fun x => x ∉ alistKeys st.γ)).card ≤ n →
      ∃ f, cdclAssume neg f st lit cause ≠ .fuelOut) ∧
    (∀ (todo : List (LClause L)) (new : CdclS L),
      (∀ l ∈ alistKeys new.γ, l ∈ U) →
      (∀ lc, lc ∈ new.δ ∨ lc ∈ todo → ∀ l ∈ lc.clause, l ∈ U ∧ neg l ∈ U) →
      (U.filter (fun x => x ∉ alistKeys new.γ)).card ≤ n →
      ∃ f, cdclBcpGo neg (cdclAssume neg f) new todo ≠ .fuelOut) := by
  intro n
  induction n using Nat.strong_induction_on with
  | _ n IH =>
    have hTA : ∀ (st : CdclS L) lit cause, UOKc neg U st → lit ∈ U →
        (U.filter (fun x => x ∉ alistKeys st.γ)).card ≤ n →
        ∃ f, cdclAssume neg f st lit cause ≠ .fuelOut := by
      intro st lit cause hU hlitU hμ
      by_cases hb : cdclBadEnv neg st.γ
      · refine ⟨1, ?_⟩
        rw [cdclAssume, if_pos hb]
        intro hc
        cases hc
      · by_cases h1 : lit ∈ alistKeys st.γ
        · refine ⟨1, ?_⟩
          rw [cdclAssume, if_neg hb, if_pos h1]
          intro hc
          cases hc
        · have hdec : (U.filter (fun x => x ∉ alistKeys ((lit, cause) :: st.γ))).card <
              (U.filter (fun x => x ∉ alistKeys st.γ)).card :=
            measure_decrease hlitU h1
              (fun a ha => List.mem_cons.2 (Or.inr ha)) (List.mem_cons.2 (Or.inl rfl))
          have hμ2 : (U.filter (fun x => x ∉ alistKeys ((lit, cause) :: st.γ))).card < n :=
            lt_of_lt_of_le hdec hμ
          match n, hμ2 with
          | m + 1, hμ2 =>
            obtain ⟨f, hf⟩ := (IH m (by omega)).1 ⟨(lit, cause) :: st.γ, st.δ⟩
              ⟨fun l hl => by
                rcases List.mem_cons.1 hl with rfl | hl
                · exact hlitU
                · exact hU.1 l hl, hU.2⟩
              (Nat.lt_succ_iff.1 hμ2)
            refine ⟨f + 1, ?_⟩
            rw [cdclAssume, if_neg hb, if_neg h1]
            exact hf
    have hTG : ∀ (todo : List (LClause L)) (new : CdclS L),
        (∀ l ∈ alistKeys new.γ, l ∈ U) →
        (∀ lc, lc ∈ new.δ ∨ lc ∈ todo → ∀ l ∈ lc.clause, l ∈ U ∧ neg l ∈ U) →
        (U.filter (fun x => x ∉ alistKeys new.γ)).card ≤ n →
        ∃ f, cdclBcpGo neg (cdclAssume neg f) new todo ≠ .fuelOut := by
      intro todo
      induction todo with
      | nil =>
        intro new _ _ _
        refine ⟨0, ?_⟩
        rw [cdclBcpGo]
        intro hc
        cases hc
      | cons lc rest ihg =>
        intro new hγ hδ hμ
        rcases hr : creduceClause neg new.γ lc with _ | ⟨_ | ⟨l, _ | ⟨b, res2⟩⟩, deps⟩
        · obtain ⟨f, hf⟩ := ihg new hγ (fun D hD => hδ D (by tauto)) hμ
          refine ⟨f, ?_⟩
          rw [cdclBcpGo_cons_drop neg hr]
          exact hf
        · refine ⟨0, ?_⟩
          rw [cdclBcpGo_cons_empty neg hr]
          intro hc
          cases hc
        · have hres := creduceClause_some neg hr
          have hlin : l ∈ lc.clause := ((hres l).1 (by simp)).1
          have hlU : l ∈ U := (hδ lc (Or.inr (by simp)) l hlin).1
          have hUnew : UOKc neg U new := ⟨hγ, fun D hD => hδ D (Or.inl hD)⟩
          by_cases hb : cdclBadEnv neg new.γ
          · refine ⟨1, ?_⟩
            rw [cdclBcpGo_cons_unit_panic neg hr (by rw [cdclAssume, if_pos hb])]
            intro hc
            cases hc
          · by_cases hocc : l ∈ alistKeys new.γ
            · obtain ⟨f2, hf2⟩ := ihg ⟨alistMerge new.γ l deps, new.δ⟩
                (fun l2 hl2 => hγ l2 (by rw [alistMerge_keys] at hl2; exact hl2))
                (fun D hD => hδ D (by tauto))
                (by
                  have : alistKeys (alistMerge new.γ l deps) = alistKeys new.γ :=
                    alistMerge_keys new.γ l deps
                  rw [show (⟨alistMerge new.γ l deps, new.δ⟩ : CdclS L).γ =
                    alistMerge new.γ l deps from rfl, this]
                  exact hμ)
              refine ⟨f2 + 1, ?_⟩
              have haM : cdclAssume neg (f2 + 1) new l deps =
                  .ok ⟨alistMerge new.γ l deps, new.δ⟩ := by
                rw [cdclAssume, if_neg hb, if_pos hocc]
              rw [cdclBcpGo_cons_unit_ok neg hr haM]
              rw [cdclBcpGo_mono neg
                (fun st3 l3 c3 hn3 =>
                  (cdclBcpFn_mono neg f2).2 (f2 + 1) (by omega) st3 l3 c3 hn3)
                rest _ hf2]
              exact hf2
            · obtain ⟨f1, hf1⟩ := hTA new l deps hUnew hlU hμ
              rcases ha : cdclAssume neg f1 new l deps with new2 | o | _ | _
              · obtain ⟨hU2, hsub2, hmem2⟩ :=
                  cdclAssume_cuassumeOK neg U f1 new l deps new2 hUnew hlU ha
                have hμ2 : (U.filter (fun x => x ∉ alistKeys new2.γ)).card < n :=
                  lt_of_lt_of_le (measure_decrease hlU hocc hsub2 hmem2) hμ
                match n, hμ2 with
                | m + 1, hμ2 =>
                  obtain ⟨f2, hf2⟩ := ((IH m (by omega)).2.2) rest new2 hU2.1
                    (fun D hD => by
                      rcases hD with hD | hD
                      · exact hU2.2 D hD
                      · exact hδ D (Or.inr (by simp [hD])))
                    (Nat.lt_succ_iff.1 hμ2)
                  refine ⟨max f1 f2, ?_⟩
                  have haM : cdclAssume neg (max f1 f2) new l deps = .ok new2 := by
                    rw [(cdclBcpFn_mono neg f1).2 (max f1 f2) (by omega) new l deps
                      (by rw [ha]; intro hc; cases hc), ha]
                  rw [cdclBcpGo_cons_unit_ok neg hr haM]
                  rw [cdclBcpGo_mono neg
                    (fun st3 l3 c3 hn3 =>
                      (cdclBcpFn_mono neg f2).2 (max f1 f2) (by omega) st3 l3 c3 hn3)
                    rest new2 hf2]
                  exact hf2
              · refine ⟨f1, ?_⟩
                rw [cdclBcpGo_cons_unit_out neg hr ha]
                intro hc
                cases hc
              · refine ⟨f1, ?_⟩
                rw [cdclBcpGo_cons_unit_panic neg hr ha]
                intro hc
                cases hc
              · exact absurd ha hf1
        · have hres := creduceClause_some neg hr
          have hsubd : ∀ x ∈ l :: b :: res2, x ∈ lc.clause :=
            fun x hx => ((hres x).1 hx).1
          obtain ⟨f, hf⟩ := ihg ⟨new.γ, new.δ ++ [⟨l :: b :: res2, deps⟩]⟩ hγ
            (fun D hD => by
              rcases hD with hD | hD
              · rcases List.mem_append.1 hD with hD | hD
                · exact hδ D (Or.inl hD)
                · rcases List.mem_singleton.1 hD with rfl
                  exact fun x hx => hδ lc (Or.inr (by simp)) x (hsubd x hx)
              · exact hδ D (Or.inr (by simp [hD])))
            hμ
          refine ⟨f, ?_⟩
          rw [cdclBcpGo_cons_keep neg hr]
          exact hf
    refine ⟨?_, hTA, hTG⟩
    intro st hU hμ
    by_cases hb : cdclBadEnv neg st.γ
    · refine ⟨1, ?_⟩
      rw [cdclBcpFn_succ, if_pos hb]
      intro hc
      cases hc
    · obtain ⟨f, hf⟩ := hTG st.δ ⟨st.γ, []⟩ hU.1
        (fun lc hlc => by
          rcases hlc with hlc | hlc
          · cases hlc
          · exact hU.2 lc hlc)
        hμ
      refine ⟨f + 1, ?_⟩
      rw [cdclBcpFn_succ, if_neg hb]
      exact hf

end CdclBcpTermination

section CdclUnsatTermination

variable {L : Type} [LinearOrder L] (neg : L → L)

/-- Termination of `Cdcl::unsat`: under the search invariant, enough fuel
exists whenever the state lives in a finite negation-closed universe. -/
theorem cdclUnsat_fuel (hinv : ∀ l, neg (neg l) = l) (hne : ∀ l, neg l ≠ l)
    (U : Finset L) : ∀ n : Nat, ∀ st : CdclS L,
    CdclInv neg st → UOKc neg U st →
    (U.filter (fun x => x ∉ alistKeys st.γ)).card ≤ n →
    ∃ f, cdclUnsat neg f st ≠ .fuelOut := by
  intro n
  induction n using Nat.strong_induction_on with
  | _ n IH =>
    rintro ⟨γ, δ⟩ hI hU hμ
    by_cases hb : cdclBadEnv neg γ
    · refine ⟨1, ?_⟩
      simp only [cdclUnsat, if_pos hb]
      intro hc
      cases hc
    · match δ, hI, hU with
      | [], hI, hU =>
        refine ⟨1, ?_⟩
        simp only [cdclUnsat, if_neg hb]
        intro hc
        cases hc
      | ⟨[], labs⟩ :: rest, hI, hU =>
        refine ⟨1, ?_⟩
        simp only [cdclUnsat, if_neg hb]
        intro hc
        cases hc
      | ⟨lit :: ds, labs⟩ :: rest, hI, hU =>
        have hunk : lit ∉ alistKeys γ ∧ neg lit ∉ alistKeys γ :=
          hI.2 ⟨lit :: ds, labs⟩ (by simp) lit (by simp)
        have hlitU : lit ∈ U ∧ neg lit ∈ U :=
          hU.2 ⟨lit :: ds, labs⟩ (by simp) lit (by simp)
        have hbranch : ∀ (stB : CdclS L) l2 cause, stB.γ = γ → UOKc neg U stB →
            l2 ∉ alistKeys γ → neg l2 ∉ alistKeys γ → l2 ∈ U →
            ∃ f, cdclUnsatStep (cdclAssume neg f) (fun s => cdclUnsat neg f s)
              stB l2 cause ≠ .fuelOut := by
          intro stB l2 cause hγB hUB hu1 hu2 hl2U
          have hμB : (U.filter (fun x => x ∉ alistKeys stB.γ)).card ≤ n := by
            rw [hγB]
            exact hμ
          obtain ⟨f1, hf1⟩ := (cdcl_bcp_assume_fuel neg U n).2.1 stB l2 cause hUB hl2U hμB
          rcases ha : cdclAssume neg f1 stB l2 cause with new | o | _ | _
          · obtain ⟨hI2, hsub2, hmem2, _⟩ :=
              cdclAssume_assumeOK neg hinv hne f1 stB l2 cause new
                (by rw [hγB]; exact hI.1) (by rw [hγB]; exact hu1)
                (by rw [hγB]; exact hu2) ha
            obtain ⟨hU2, hsubU, hmemU⟩ :=
              cdclAssume_cuassumeOK neg U f1 stB l2 cause new hUB hl2U ha
            have hμ2 : (U.filter (fun x => x ∉ alistKeys new.γ)).card < n :=
              lt_of_lt_of_le
                (measure_decrease hl2U (by rw [hγB]; exact hu1) hsubU hmemU) hμB
            match n, hμ2 with
            | m + 1, hμ2 =>
              obtain ⟨f2, hf2⟩ := IH m (by omega) new hI2 hU2 (Nat.lt_succ_iff.1 hμ2)
              refine ⟨max f1 f2, ?_⟩
              have haM : cdclAssume neg (max f1 f2) stB l2 cause = .ok new := by
                rw [(cdclBcpFn_mono neg f1).2 (max f1 f2) (by omega) stB l2 cause
                  (by rw [ha]; intro hc; cases hc), ha]
              rw [cdclUnsatStep_ok haM,
                cdclUnsat_mono neg f2 (max f1 f2) (by omega) new hf2]
              exact hf2
          · refine ⟨f1, ?_⟩
            rw [cdclUnsatStep_out ha]
            intro hc
            cases hc
          · refine ⟨f1, ?_⟩
            rw [cdclUnsatStep_panic ha]
            intro hc
            cases hc
          · exact absurd ha hf1
        have hstepm : ∀ f f2, f ≤ f2 → ∀ (stB : CdclS L) l2 cause,
            cdclUnsatStep (cdclAssume neg f) (fun s => cdclUnsat neg f s)
              stB l2 cause ≠ .fuelOut →
            cdclUnsatStep (cdclAssume neg f2) (fun s => cdclUnsat neg f2 s)
              stB l2 cause =
            cdclUnsatStep (cdclAssume neg f) (fun s => cdclUnsat neg f s)
              stB l2 cause := by
          intro f f2 hle stB l2 cause hn
          exact cdclUnsatStep_mono
            (fun st3 l3 c3 hn3 => (cdclBcpFn_mono neg f).2 f2 hle st3 l3 c3 hn3)
            (fun st3 hn3 => cdclUnsat_mono neg f f2 hle st3 hn3) stB l2 cause hn
        obtain ⟨fa, hfa⟩ := hbranch ⟨γ, ⟨lit :: ds, labs⟩ :: rest⟩ lit (setInsert [] lit)
          rfl hU hunk.1 hunk.2 hlitU.1
        rcases hs1 : cdclUnsatStep (cdclAssume neg fa) (fun s => cdclUnsat neg fa s)
            ⟨γ, ⟨lit :: ds, labs⟩ :: rest⟩ lit (setInsert [] lit) with e | o1 | _ | _
        · refine ⟨fa + 1, ?_⟩
          simp only [cdclUnsat, if_neg hb]
          rw [hs1]
          intro hc
          cases hc
        · match o1, hs1 with
          | .sat m, hs1 =>
            refine ⟨fa + 1, ?_⟩
            simp only [cdclUnsat, if_neg hb]
            rw [hs1]
            intro hc
            cases hc
          | .unsat deps0 conf0, hs1 =>
            by_cases hmem : lit ∈ deps0
            · have hconf0U : ∀ lc ∈ conf0, ∀ l ∈ lc.clause, l ∈ U ∧ neg l ∈ U := by
                rcases ha : cdclAssume neg fa ⟨γ, ⟨lit :: ds, labs⟩ :: rest⟩ lit
                    (setInsert [] lit) with new | o | _ | _
                · rw [cdclUnsatStep_ok ha] at hs1
                  obtain ⟨hU2, _, _⟩ :=
                    cdclAssume_cuassumeOK neg U fa _ lit _ new hU hlitU.1 ha
                  exact cdclUnsat_conf_uok neg hinv fa new deps0 conf0 hU2 hs1
                · rw [cdclUnsatStep_out ha] at hs1
                  cases hs1
                  rw [cdclAssume_conf_nil neg fa _ _ _ _ _ ha]
                  intro lc hlc
                  cases hlc
                · rw [cdclUnsatStep_panic ha] at hs1
                  cases hs1
                · rw [cdclUnsatStep_fuel ha] at hs1
                  cases hs1
              have hshiftU : ∀ x ∈ cdclShift neg lit conf0, ∀ l ∈ x.clause,
                  l ∈ U ∧ neg l ∈ U :=
                cdclShift_uok neg hinv hlitU.1 hlitU.2 hconf0U
              have hclose : ∀ (F : Nat) (stB : CdclS L),
                  cdclUnsatStep (cdclAssume neg F) (fun s => cdclUnsat neg F s)
                    stB (neg lit) (deps0.erase lit) ≠ .fuelOut →
                  (match cdclAssume neg F stB (neg lit) (deps0.erase lit) with
                    | CRes.ok new2 =>
                      match cdclUnsat neg F new2 with
                      | CRes.out (COut.unsat newDeps newConflict) =>
                          CRes.out (.unsat newDeps
                            (lclausesInsert
                              (lclausesExtend (cdclShift neg lit conf0) newConflict)
                              ⟨clauseNew [neg lit], deps0.erase lit⟩))
                      | r2 => r2
                    | CRes.out o => CRes.out o
                    | CRes.panic => CRes.panic
                    | CRes.fuelOut => CRes.fuelOut) ≠ .fuelOut := by
                intro F stB hn
                rcases ha2 : cdclAssume neg F stB (neg lit) (deps0.erase lit)
                  with new2 | o | _ | _ <;> simp only [ha2]
                · rw [cdclUnsatStep_ok ha2] at hn
                  rcases hs2 : cdclUnsat neg F new2 with e2 | o2 | _ | _
                  · exact fun hc => nomatch hc
                  · cases o2 <;> exact fun hc => nomatch hc
                  · exact fun hc => nomatch hc
                  · exact absurd hs2 hn
                · intro hc
                  cases hc
                · intro hc
                  cases hc
                · rw [cdclUnsatStep_fuel ha2] at hn
                  exact absurd rfl hn
              by_cases hce : cdclShift neg lit conf0 = []
              · obtain ⟨fb, hfb⟩ := hbranch ⟨γ, ⟨lit :: ds, labs⟩ :: rest⟩ (neg lit)
                  (deps0.erase lit) rfl hU hunk.2 (by rw [hinv]; exact hunk.1) hlitU.2
                refine ⟨max fa fb + 1, ?_⟩
                simp only [cdclUnsat, if_neg hb]
                rw [hstepm fa (max fa fb) (by omega) _ lit _ hfa, hs1]
                show cdclSecond neg (cdclAssume neg (max fa fb))
                    (fun s => cdclUnsat neg (max fa fb) s)
                    ⟨γ, ⟨lit :: ds, labs⟩ :: rest⟩ lit deps0 conf0 ≠ .fuelOut
                simp only [cdclSecond]
                rw [if_pos hmem, if_pos hce]
                refine hclose (max fa fb) _ ?_
                rw [hstepm fb (max fa fb) (by omega) _ (neg lit) _ hfb]
                exact hfb
              · obtain ⟨fb, hfb⟩ := hbranch
                  ⟨γ, (⟨lit :: ds, labs⟩ :: rest) ++ cdclShift neg lit conf0⟩ (neg lit)
                  (deps0.erase lit) rfl
                  ⟨hU.1, fun lc hlc => by
                    rcases List.mem_append.1 hlc with hlc | hlc
                    · exact hU.2 lc hlc
                    · exact hshiftU lc hlc⟩
                  hunk.2 (by rw [hinv]; exact hunk.1) hlitU.2
                refine ⟨max fa fb + 1, ?_⟩
                simp only [cdclUnsat, if_neg hb]
                rw [hstepm fa (max fa fb) (by omega) _ lit _ hfa, hs1]
                show cdclSecond neg (cdclAssume neg (max fa fb))
                    (fun s => cdclUnsat neg (max fa fb) s)
                    ⟨γ, ⟨lit :: ds, labs⟩ :: rest⟩ lit deps0 conf0 ≠ .fuelOut
                simp only [cdclSecond]
                rw [if_pos hmem, if_neg hce]
                refine hclose (max fa fb) _ ?_
                rw [hstepm fb (max fa fb) (by omega) _ (neg lit) _ hfb]
                exact hfb
            · refine ⟨fa + 1, ?_⟩
              simp only [cdclUnsat, if_neg hb]
              rw [hstepm fa fa (by omega) _ lit _ hfa, hs1]
              show cdclSecond neg (cdclAssume neg fa)
                  (fun s => cdclUnsat neg fa s)
                  ⟨γ, ⟨lit :: ds, labs⟩ :: rest⟩ lit deps0 conf0 ≠ .fuelOut
              simp only [cdclSecond]
              rw [if_neg hmem]
              intro hc
              cases hc
        · refine ⟨fa + 1, ?_⟩
          simp only [cdclUnsat, if_neg hb]
          rw [hs1]
          intro hc
          cases hc
        · exact absurd hs1 hfa

end CdclUnsatTermination

section BjUnsatTermination

variable {L : Type} [LinearOrder L] (neg : L → L)

/-- Modelled from the spec: termination of the missing `Backjump` engine's
`unsat`, mirroring the CDCL argument without clause learning. -/
theorem bjUnsat_fuel (hinv : ∀ l, neg (neg l) = l) (hne : ∀ l, neg l ≠ l)
    (U : Finset L) : ∀ n : Nat, ∀ st : CdclS L,
    CdclInv neg st → UOKc neg U st →
    (U.filter (fun x => x ∉ alistKeys st.γ)).card ≤ n →
    ∃ f, bjUnsat neg f st ≠ .fuelOut := by
  intro n
  induction n using Nat.strong_induction_on with
  | _ n IH =>
    rintro ⟨γ, δ⟩ hI hU hμ
    match δ, hI, hU with
    | [], hI, hU =>
      refine ⟨1, ?_⟩
      intro hc
      cases hc
    | ⟨[], labs⟩ :: rest, hI, hU =>
      refine ⟨1, ?_⟩
      intro hc
      cases hc
    | ⟨lit :: ds, labs⟩ :: rest, hI, hU =>
      have hunk : lit ∉ alistKeys γ ∧ neg lit ∉ alistKeys γ :=
        hI.2 ⟨lit :: ds, labs⟩ (by simp) lit (by simp)
      have hlitU : lit ∈ U ∧ neg lit ∈ U :=
        hU.2 ⟨lit :: ds, labs⟩ (by simp) lit (by simp)
      have hbranch : ∀ l2 cause, l2 ∉ alistKeys γ → neg l2 ∉ alistKeys γ → l2 ∈ U →
          ∃ f, cdclUnsatStep (cdclAssume neg f) (fun s => bjUnsat neg f s)
            ⟨γ, ⟨lit :: ds, labs⟩ :: rest⟩ l2 cause ≠ .fuelOut := by
        intro l2 cause hu1 hu2 hl2U
        obtain ⟨f1, hf1⟩ := (cdcl_bcp_assume_fuel neg U n).2.1
          ⟨γ, ⟨lit :: ds, labs⟩ :: rest⟩ l2 cause hU hl2U hμ
        rcases ha : cdclAssume neg f1 ⟨γ, ⟨lit :: ds, labs⟩ :: rest⟩ l2 cause
          with new | o | _ | _
        · obtain ⟨hI2, hsub2, hmem2, _⟩ :=
            cdclAssume_assumeOK neg hinv hne f1 _ l2 cause new hI.1 hu1 hu2 ha
          obtain ⟨hU2, hsubU, hmemU⟩ :=
            cdclAssume_cuassumeOK neg U f1 _ l2 cause new hU hl2U ha
          have hμ2 : (U.filter (fun x => x ∉ alistKeys new.γ)).card < n :=
            lt_of_lt_of_le (measure_decrease hl2U hu1 hsubU hmemU) hμ
          match n, hμ2 with
          | m + 1, hμ2 =>
            obtain ⟨f2, hf2⟩ := IH m (by omega) new hI2 hU2 (Nat.lt_succ_iff.1 hμ2)
            refine ⟨max f1 f2, ?_⟩
            have haM : cdclAssume neg (max f1 f2) ⟨γ, ⟨lit :: ds, labs⟩ :: rest⟩
                l2 cause = .ok new := by
              rw [(cdclBcpFn_mono neg f1).2 (max f1 f2) (by omega) _ l2 cause
                (by rw [ha]; intro hc; cases hc), ha]
            rw [cdclUnsatStep_ok haM,
              bjUnsat_mono neg f2 (max f1 f2) (by omega) new hf2]
            exact hf2
        · refine ⟨f1, ?_⟩
          rw [cdclUnsatStep_out ha]
          intro hc
          cases hc
        · refine ⟨f1, ?_⟩
          rw [cdclUnsatStep_panic ha]
          intro hc
          cases hc
        · exact absurd ha hf1
      have hstepm : ∀ f f2, f ≤ f2 → ∀ l2 cause,
          cdclUnsatStep (cdclAssume neg f) (fun s => bjUnsat neg f s)
            ⟨γ, ⟨lit :: ds, labs⟩ :: rest⟩ l2 cause ≠ .fuelOut →
          cdclUnsatStep (cdclAssume neg f2) (fun s => bjUnsat neg f2 s)
            ⟨γ, ⟨lit :: ds, labs⟩ :: rest⟩ l2 cause =
          cdclUnsatStep (cdclAssume neg f) (fun s => bjUnsat neg f s)
            ⟨γ, ⟨lit :: ds, labs⟩ :: rest⟩ l2 cause := by
        intro f f2 hle l2 cause hn
        exact cdclUnsatStep_mono
          (fun st3 l3 c3 hn3 => (cdclBcpFn_mono neg f).2 f2 hle st3 l3 c3 hn3)
          (fun st3 hn3 => bjUnsat_mono neg f f2 hle st3 hn3) _ l2 cause hn
      obtain ⟨fa, hfa⟩ := hbranch lit (setInsert [] lit) hunk.1 hunk.2 hlitU.1
      rcases hs1 : cdclUnsatStep (cdclAssume neg fa) (fun s => bjUnsat neg fa s)
          ⟨γ, ⟨lit :: ds, labs⟩ :: rest⟩ lit (setInsert [] lit) with e | o1 | _ | _
      · refine ⟨fa + 1, ?_⟩
        simp only [bjUnsat]
        rw [hs1]
        intro hc
        cases hc
      · match o1, hs1 with
        | .sat m, hs1 =>
          refine ⟨fa + 1, ?_⟩
          simp only [bjUnsat]
          rw [hs1]
          intro hc
          cases hc
        | .unsat deps0 conf0, hs1 =>
          by_cases hmem : lit ∈ deps0
          · obtain ⟨fb, hfb⟩ := hbranch (neg lit) (deps0.erase lit) hunk.2
              (by rw [hinv]; exact hunk.1) hlitU.2
            refine ⟨max fa fb + 1, ?_⟩
            simp only [bjUnsat]
            rw [hstepm fa (max fa fb) (by omega) lit _ hfa, hs1]
            show (if lit ∈ deps0 then
                cdclUnsatStep (cdclAssume neg (max fa fb))
                  (fun s => bjUnsat neg (max fa fb) s)
                  ⟨γ, ⟨lit :: ds, labs⟩ :: rest⟩ (neg lit) (deps0.erase lit)
              else .out (.unsat deps0 [])) ≠ .fuelOut
            rw [if_pos hmem, hstepm fb (max fa fb) (by omega) (neg lit) _ hfb]
            exact hfb
          · refine ⟨fa + 1, ?_⟩
            simp only [bjUnsat]
            rw [hs1]
            show (if lit ∈ deps0 then
                cdclUnsatStep (cdclAssume neg fa) (fun s => bjUnsat neg fa s)
                  ⟨γ, ⟨lit :: ds, labs⟩ :: rest⟩ (neg lit) (deps0.erase lit)
              else .out (.unsat deps0 [])) ≠ .fuelOut
            rw [if_neg hmem]
            intro hc
            cases hc
      · refine ⟨fa + 1, ?_⟩
        simp only [bjUnsat]
        rw [hs1]
        intro hc
        cases hc
      · exact absurd hs1 hfa

end BjUnsatTermination

section TerminationAssembly

variable {L : Type} [LinearOrder L]

/-- All literal occurrences of a CNF formula, in order. -/
def litList : List (List L) → List L
  | [] => []
  | C :: rest => C ++ litList rest

/-- Membership in the literal-occurrence list. -/
theorem litList_mem (f : List (List L)) (a : L) :
    a ∈ litList f ↔ ∃ C ∈ f, a ∈ C := by
  induction f with
  | nil => simp [litList]
  | cons C rest ih => simp [litList, ih]

/-- The finite literal universe of a formula: every literal occurrence
together with its negation. -/
def litUniverse (neg : L → L) (f : List (List L)) : Finset L :=
  (litList f).toFinset ∪ ((litList f).map neg).toFinset

/-- Clause literals of the formula live in the universe together with their
negations. -/
theorem litUniverse_closed (neg : L → L) (f : List (List L))
    {C : List L} (hC : C ∈ f) {l : L} (hl : l ∈ C) :
    l ∈ litUniverse neg f ∧ neg l ∈ litUniverse neg f := by
  have hml : l ∈ litList f := (litList_mem f l).2 ⟨C, hC, hl⟩
  constructor
  · exact Finset.mem_union.2 (Or.inl (List.mem_toFinset.2 hml))
  · exact Finset.mem_union.2
      (Or.inr (List.mem_toFinset.2 (List.mem_map.2 ⟨l, hml, rfl⟩)))

/-- `Cdcl::solve` finishes whenever the underlying `unsat` search does. -/
theorem cdclSolve_ne_fuelOut (neg : L → L) {fuel : Nat} {st : CdclS L}
    (h : cdclUnsat neg fuel st ≠ .fuelOut) : cdclSolve neg fuel st ≠ .fuelOut := by
  rcases hu : cdclUnsat neg fuel st with e | o | _ | _
  · exact e.elim
  · match o, hu with
    | .sat m, hu =>
      simp only [cdclSolve, hu]
      intro hc
      cases hc
    | .unsat d c, hu =>
      simp only [cdclSolve, hu]
      intro hc
      cases hc
  · simp only [cdclSolve, hu]
    intro hc
    cases hc
  · exact absurd hu h

/-- `Backjump::solve` finishes whenever the underlying `unsat` search
does. -/
theorem bjSolve_ne_fuelOut (neg : L → L) {fuel : Nat} {st : CdclS L}
    (h : bjUnsat neg fuel st ≠ .fuelOut) : bjSolve neg fuel st ≠ .fuelOut := by
  rcases hu : bjUnsat neg fuel st with e | o | _ | _
  · exact e.elim
  · match o, hu with
    | .sat m, hu =>
      simp only [bjSolve, hu]
      intro hc
      cases hc
    | .unsat d c, hu =>
      simp only [bjSolve, hu]
      intro hc
      cases hc
  · simp only [bjSolve, hu]
    intro hc
    cases hc
  · exact absurd hu h

end TerminationAssembly

/-- C4: for every finite CNF formula over the program's literal type, every
variant's `solve` terminates: some fuel bound (and, by the monotonicity
lemmas, every larger one) lets the Plain, Cdcl, and Backjump searches finish
instead of running out of fuel, so the mutual recursion of `assume`, `bcp`,
and `unsat` is well-founded on the initial state of each engine. -/
theorem solvers_terminate (f : List (List RLit)) :
    ∃ fuel, plainSolve RLit.negate fuel (PlainS.mk0 f) ≠ .fuelOut ∧
      cdclSolve RLit.negate fuel (CdclS.mk0 f) ≠ .fuelOut ∧
      bjSolve RLit.negate fuel (CdclS.mk0 f) ≠ .fuelOut := by
  have hδU : ∀ C ∈ f, ∀ l ∈ C, l ∈ litUniverse RLit.negate f ∧
      RLit.negate l ∈ litUniverse RLit.negate f :=
    fun C hC l hl => litUniverse_closed RLit.negate f hC hl
  have hUp : UOKp RLit.negate (litUniverse RLit.negate f) (PlainS.mk0 f) :=
    ⟨fun l hl => absurd hl (List.not_mem_nil l), hδU⟩
  have hδc : ∀ lc ∈ (CdclS.mk0 f).δ, ∀ l ∈ lc.clause,
      l ∈ litUniverse RLit.negate f ∧
      RLit.negate l ∈ litUniverse RLit.negate f := by
    intro lc hlc l hl
    obtain ⟨C, hC, rfl⟩ := List.mem_map.1 hlc
    exact hδU C hC l hl
  have hUc : UOKc RLit.negate (litUniverse RLit.negate f) (CdclS.mk0 f) :=
    ⟨fun l hl => absurd hl (List.not_mem_nil l), hδc⟩
  have hIc : CdclInv RLit.negate (CdclS.mk0 f) := by
    constructor
    · intro l hl
      exact absurd hl (List.not_mem_nil l)
    · intro lc _ l _
      exact ⟨fun hl => absurd hl (List.not_mem_nil l),
        fun hl => absurd hl (List.not_mem_nil (RLit.negate l))⟩
  obtain ⟨f1, hf1⟩ := plainUnsat_fuel RLit.negate (litUniverse RLit.negate f)
    ((litUniverse RLit.negate f).card) (PlainS.mk0 f) hUp
    (Finset.card_filter_le _ _)
  obtain ⟨f2, hf2⟩ := cdclUnsat_fuel RLit.negate RLit.negate_invol RLit.negate_ne
    (litUniverse RLit.negate f) ((litUniverse RLit.negate f).card) (CdclS.mk0 f)
    hIc hUc (Finset.card_filter_le _ _)
  obtain ⟨f3, hf3⟩ := bjUnsat_fuel RLit.negate RLit.negate_invol RLit.negate_ne
    (litUniverse RLit.negate f) ((litUniverse RLit.negate f).card) (CdclS.mk0 f)
    hIc hUc (Finset.card_filter_le _ _)
  refine ⟨max f1 (max f2 f3), ?_, ?_, ?_⟩
  · show plainUnsat RLit.negate (max f1 (max f2 f3)) (PlainS.mk0 f) ≠ .fuelOut
    rw [plainUnsat_mono RLit.negate f1 (max f1 (max f2 f3)) (by omega) _ hf1]
    exact hf1
  · refine cdclSolve_ne_fuelOut RLit.negate ?_
    rw [cdclUnsat_mono RLit.negate f2 (max f1 (max f2 f3)) (by omega) _ hf2]
    exact hf2
  · refine bjSolve_ne_fuelOut RLit.negate ?_
    rw [bjUnsat_mono RLit.negate f3 (max f1 (max f2 f3)) (by omega) _ hf3]
    exact hf3

section ContainerExtras

variable {L : Type} [LinearOrder L]

/-- A successful alist lookup exhibits a member entry. -/
theorem alistGet_mem {γ : List (L × List L)} {l : L} {v : List L}
    (h : alistGet γ l = some v) : (l, v) ∈ γ := by
  induction γ with
  | nil => simp [alistGet] at h
  | cons p rest ih =>
    obtain ⟨k, w⟩ := p
    by_cases hk : k = l
    · subst hk
      rw [alistGet, if_pos rfl] at h
      cases h
      exact List.mem_cons.2 (Or.inl rfl)
    · rw [alistGet, if_neg hk] at h
      exact List.mem_cons.2 (Or.inr (ih h))

/-- `Set` insertion preserves duplicate-freedom. -/
theorem setInsert_nodup {s : List L} (h : s.Nodup) (x : L) :
    (setInsert s x).Nodup := by
  unfold setInsert
  by_cases hx : x ∈ s
  · rw [if_pos hx]
    exact h
  · rw [if_neg hx]
    exact List.nodup_cons.2 ⟨hx, h⟩

/-- `Set` extension preserves duplicate-freedom of the base set. -/
theorem setExtend_nodup {s : List L} (h : s.Nodup) (t : List L) :
    (setExtend s t).Nodup := by
  induction t generalizing s with
  | nil => exact h
  | cons y ys ih => exact ih (setInsert_nodup h y)

end ContainerExtras

section PlainCompleteness

variable {L : Type} [LinearOrder L] (neg : L → L)

/-- A clause reduction keeps the model-satisfying literal: when the
environment is contained in a consistent model satisfying the clause, the
reduced clause is still satisfied by the model. -/
theorem reduceClause_model {M γ C res : List L} (hMc : consistent neg M)
    (hγM : γ ⊆ M) (hsat : satClause M C)
    (h : reduceClause neg γ C = some res) : satClause M res := by
  obtain ⟨x, hxC, hxM⟩ := hsat
  have h2 : reduceGo neg γ C [] = some res := h
  have hx1 : x ∉ γ := by
    intro hx
    rw [(reduceGo_none neg C []).2 ⟨x, hxC, hx⟩] at h2
    cases h2
  have hx2 : neg x ∉ γ := by
    intro hx
    exact hMc x hxM (hγM hx)
  exact ⟨x, (reduceGo_some neg h2 x).2 (Or.inr ⟨hxC, hx1, hx2⟩), hxM⟩

/-- Model contract of an `assume`-shaped function: assuming a literal of a
consistent model in a state the model satisfies either runs out of fuel or
returns a state the model still satisfies — it cannot raise an outcome or
panic. -/
def MAssumeOK (M : List L) (assumeF : PlainS L → L → PRes L (PlainS L)) : Prop :=
  ∀ st lit, st.γ ⊆ M → (∀ C ∈ st.δ, satClause M C) → lit ∈ M → lit ∉ st.γ →
    assumeF st lit = .fuelOut ∨
    ∃ st2, assumeF st lit = .ok st2 ∧ st2.γ ⊆ M ∧ ∀ C ∈ st2.δ, satClause M C

/-- The `bcp` loop preserves a consistent model of the state. -/
theorem plainBcpGo_model {M : List L} (hMc : consistent neg M)
    {assumeF : PlainS L → L → PRes L (PlainS L)} (hA : MAssumeOK M assumeF) :
    ∀ (todo : List (List L)) (new : PlainS L), new.γ ⊆ M →
      (∀ C, C ∈ new.δ ∨ C ∈ todo → satClause M C) →
      plainBcpGo neg assumeF new todo = .fuelOut ∨
      ∃ st2, plainBcpGo neg assumeF new todo = .ok st2 ∧ st2.γ ⊆ M ∧
        ∀ C ∈ st2.δ, satClause M C := by
  intro todo
  induction todo with
  | nil =>
    intro new hγ hδ
    exact Or.inr ⟨new, rfl, hγ, fun C hC => hδ C (Or.inl hC)⟩
  | cons disj rest ih =>
    intro new hγ hδ
    rcases hr : reduceClause neg new.γ disj with _ | ⟨_ | ⟨l, _ | ⟨b, res2⟩⟩⟩
    · rw [plainBcpGo_cons_drop neg hr]
      exact ih new hγ (fun C hC => hδ C (by tauto))
    · obtain ⟨x, hx, _⟩ :=
        reduceClause_model neg hMc hγ (hδ disj (Or.inr (by simp))) hr
      cases hx
    · obtain ⟨x, hx, hxM⟩ :=
        reduceClause_model neg hMc hγ (hδ disj (Or.inr (by simp))) hr
      rcases List.mem_singleton.1 hx with rfl
      have hlγ : x ∉ new.γ := by
        have hchar := reduceGo_some neg (show reduceGo neg new.γ disj [] = some [x] from hr)
        rcases (hchar x).1 (by simp) with hc | hc
        · cases hc
        · exact hc.2.1
      rcases hA new x hγ (fun C hC => hδ C (Or.inl hC)) hxM hlγ with hfo | ⟨new2, ha, hγ2, hδ2⟩
      · rw [plainBcpGo_cons_unit_fuel neg hr hfo]
        exact Or.inl rfl
      · rw [plainBcpGo_cons_unit_ok neg hr ha]
        exact ih new2 hγ2 (fun C hC => by
          rcases hC with hC | hC
          · exact hδ2 C hC
          · exact hδ C (Or.inr (by simp [hC])))
    · rw [plainBcpGo_cons_keep neg hr]
      have hkept : satClause M (l :: b :: res2) :=
        reduceClause_model neg hMc hγ (hδ disj (Or.inr (by simp))) hr
      exact ih ⟨new.γ, new.δ ++ [l :: b :: res2]⟩ hγ (fun C hC => by
        rcases hC with hC | hC
        · rcases List.mem_append.1 hC with hC | hC
          · exact hδ C (Or.inl hC)
          · rcases List.mem_singleton.1 hC with rfl
            exact hkept
        · exact hδ C (Or.inr (by simp [hC])))

/-- `Plain::assume` satisfies the model contract at every fuel. -/
theorem plainAssume_model {M : List L} (hMc : consistent neg M) :
    ∀ fuel, MAssumeOK M (plainAssume neg fuel) := by
  intro fuel
  induction fuel using Nat.strong_induction_on with
  | _ fuel IH =>
    match fuel with
    | 0 =>
      intro st lit _ _ _ _
      exact Or.inl rfl
    | 1 =>
      intro st lit _ _ _ hlγ
      rw [plainAssume, if_neg hlγ]
      exact Or.inl rfl
    | f + 2 =>
      intro st lit hγ hδ hlM hlγ
      rw [plainAssume, if_neg hlγ, plainBcpFn_succ]
      refine plainBcpGo_model neg hMc (IH f (by omega)) st.δ ⟨lit :: st.γ, []⟩ ?_ ?_
      · intro a ha
        rcases List.mem_cons.1 ha with rfl | ha
        · exact hlM
        · exact hγ ha
      · intro C hC
        rcases hC with hC | hC
        · cases hC
        · exact hδ C hC

/-- Nonemptiness contract of an `assume`-shaped function: a normal return
carries no empty clause in its working CNF. -/
def NEAssumeOK (assumeF : PlainS L → L → PRes L (PlainS L)) : Prop :=
  ∀ st lit st2, assumeF st lit = .ok st2 → ∀ C ∈ st2.δ, C ≠ []

/-- The `bcp` loop keeps working-CNF clauses nonempty. -/
theorem plainBcpGo_ne {assumeF : PlainS L → L → PRes L (PlainS L)}
    (hA : NEAssumeOK assumeF) :
    ∀ (todo : List (List L)) (new st2 : PlainS L), (∀ C ∈ new.δ, C ≠ []) →
      plainBcpGo neg assumeF new todo = .ok st2 → ∀ C ∈ st2.δ, C ≠ [] := by
  intro todo
  induction todo with
  | nil =>
    intro new st2 hnew h
    rw [plainBcpGo] at h
    cases h
    exact hnew
  | cons disj rest ih =>
    intro new st2 hnew h
    rcases hr : reduceClause neg new.γ disj with _ | ⟨_ | ⟨l, _ | ⟨b, res2⟩⟩⟩
    · rw [plainBcpGo_cons_drop neg hr] at h
      exact ih new st2 hnew h
    · rw [plainBcpGo_cons_empty neg hr] at h
      cases h
    · rcases ha : assumeF new l with new2 | o | _ | _
      · rw [plainBcpGo_cons_unit_ok neg hr ha] at h
        exact ih new2 st2 (hA new l new2 ha) h
      · rw [plainBcpGo_cons_unit_out neg hr ha] at h
        cases h
      · rw [plainBcpGo_cons_unit_panic neg hr ha] at h
        cases h
      · rw [plainBcpGo_cons_unit_fuel neg hr ha] at h
        cases h
    · rw [plainBcpGo_cons_keep neg hr] at h
      refine ih ⟨new.γ, new.δ ++ [l :: b :: res2]⟩ st2 ?_ h
      intro C hC
      rcases List.mem_append.1 hC with hC | hC
      · exact hnew C hC
      · rcases List.mem_singleton.1 hC with rfl
        intro hc
        cases hc

/-- `Plain::assume` keeps working-CNF clauses nonempty at every fuel. -/
theorem plainAssume_ne : ∀ fuel, NEAssumeOK (plainAssume neg fuel) := by
  intro fuel
  induction fuel using Nat.strong_induction_on with
  | _ fuel IH =>
    match fuel with
    | 0 =>
      intro st lit st2 h
      cases h
    | 1 =>
      intro st lit st2 h
      rw [plainAssume] at h
      by_cases hlγ : lit ∈ st.γ
      · rw [if_pos hlγ] at h
        cases h
      · rw [if_neg hlγ] at h
        cases h
    | f + 2 =>
      intro st lit st2 h
      rw [plainAssume] at h
      by_cases hlγ : lit ∈ st.γ
      · rw [if_pos hlγ] at h
        cases h
      · rw [if_neg hlγ, plainBcpFn_succ] at h
        exact plainBcpGo_ne neg (IH f (by omega)) st.δ ⟨lit :: st.γ, []⟩ st2
          (fun C hC => by cases hC) h

/-- `Plain::unsat` never panics under the search invariant when every
working-CNF clause is nonempty. -/
theorem plainUnsat_no_panic (hinv : ∀ l, neg (neg l) = l) (hne : ∀ l, neg l ≠ l) :
    ∀ fuel (st : PlainS L), PlainInv neg st → (∀ C ∈ st.δ, C ≠ []) →
      plainUnsat neg fuel st ≠ .panic := by
  intro fuel
  induction fuel with
  | zero =>
    intro st _ _ h
    cases h
  | succ fuel IH =>
    rintro ⟨γ, δ⟩ hI hne2
    match δ, hI, hne2 with
    | [], hI, hne2 =>
      intro h
      cases h
    | [] :: rest, hI, hne2 => exact absurd rfl (hne2 [] (by simp))
    | (lit :: ds) :: rest, hI, hne2 =>
      have hunk := hI.2 (lit :: ds) (by simp) lit (by simp)
      have hstep : ∀ l, l ∉ γ → neg l ∉ γ →
          plainUnsatStep (plainAssume neg fuel) (fun s => plainUnsat neg fuel s)
            ⟨γ, (lit :: ds) :: rest⟩ l ≠ .panic := by
        intro l hl1 hl2
        rcases ha : plainAssume neg fuel ⟨γ, (lit :: ds) :: rest⟩ l with new | o | _ | _
        · rw [plainUnsatStep_ok ha]
          obtain ⟨hI2, _, _, _⟩ :=
            plainAssume_assumeOK neg hinv hne fuel _ l new hI.1 hl1 hl2 ha
          exact IH new hI2 (fun C hC => plainAssume_ne neg fuel _ l new ha C hC)
        · rw [plainUnsatStep_out ha]
          intro h
          cases h
        · exact absurd ha (plainAssume_np neg fuel _ l hl1)
        · rw [plainUnsatStep_fuel ha]
          intro h
          cases h
      simp only [plainUnsat]
      rcases hs1 : plainUnsatStep (plainAssume neg fuel) (fun s => plainUnsat neg fuel s)
          ⟨γ, (lit :: ds) :: rest⟩ lit with o1 | _ | _
      · match o1, hs1 with
        | .sat m, hs1 =>
          intro h
          cases h
        | .unsat, hs1 =>
          exact hstep (neg lit) hunk.2 (by rw [hinv]; exact hunk.1)
      · exact absurd hs1 (hstep lit hunk.1 hunk.2)
      · intro h
        cases h

/-- `Plain::unsat` is complete: a state satisfied by some consistent total
model never reports `Unsat` — when the search finishes, it finds a model. -/
theorem plainUnsat_complete (hinv : ∀ l, neg (neg l) = l) (hne : ∀ l, neg l ≠ l)
    {U : Finset L} {M : List L} (hMc : consistent neg M)
    (htot : ∀ l ∈ U, l ∈ M ∨ neg l ∈ M) :
    ∀ fuel (st : PlainS L), PlainInv neg st → UOKp neg U st → st.γ ⊆ M →
      (∀ C ∈ st.δ, satClause M C) →
      plainUnsat neg fuel st ≠ .fuelOut →
      ∃ m, plainUnsat neg fuel st = .out (.sat m) := by
  intro fuel
  induction fuel with
  | zero =>
    intro st _ _ _ _ hne2
    exact absurd rfl hne2
  | succ fuel IH =>
    rintro ⟨γ, δ⟩ hI hU hγM hδM hne2
    match δ, hI, hU, hδM, hne2 with
    | [], hI, hU, hδM, hne2 => exact ⟨γ, rfl⟩
    | [] :: rest, hI, hU, hδM, hne2 =>
      obtain ⟨x, hx, _⟩ := hδM [] (by simp)
      cases hx
    | (lit :: ds) :: rest, hI, hU, hδM, hne2 =>
      have hunk := hI.2 (lit :: ds) (by simp) lit (by simp)
      have hlitU : lit ∈ U ∧ neg lit ∈ U := hU.2 (lit :: ds) (by simp) lit (by simp)
      have hgood : ∀ l, l ∈ M → l ∈ U → l ∉ γ → neg l ∉ γ →
          plainUnsatStep (plainAssume neg fuel) (fun s => plainUnsat neg fuel s)
            ⟨γ, (lit :: ds) :: rest⟩ l ≠ .fuelOut →
          ∃ m, plainUnsatStep (plainAssume neg fuel) (fun s => plainUnsat neg fuel s)
            ⟨γ, (lit :: ds) :: rest⟩ l = .out (.sat m) := by
        intro l hlM hlU hl1 hl2 hsne
        rcases plainAssume_model neg hMc fuel ⟨γ, (lit :: ds) :: rest⟩ l hγM hδM hlM hl1
          with hfo | ⟨new, ha, hγ2, hδ2⟩
        · rw [plainUnsatStep_fuel hfo] at hsne
          exact absurd rfl hsne
        · rw [plainUnsatStep_ok ha] at hsne ⊢
          obtain ⟨hI2, _, _, _⟩ :=
            plainAssume_assumeOK neg hinv hne fuel _ l new hI.1 hl1 hl2 ha
          obtain ⟨hU2, _, _, _⟩ := plainAssume_uassumeOK neg U fuel _ l new hU hlU ha
          exact IH new hI2 hU2 hγ2 hδ2 hsne
      by_cases hM : lit ∈ M
      · have hs1ne : plainUnsatStep (plainAssume neg fuel) (fun s => plainUnsat neg fuel s)
            ⟨γ, (lit :: ds) :: rest⟩ lit ≠ .fuelOut := by
          intro hfo
          refine hne2 ?_
          simp only [plainUnsat]
          rw [hfo]
        obtain ⟨m, hm⟩ := hgood lit hM hlitU.1 hunk.1 hunk.2 hs1ne
        refine ⟨m, ?_⟩
        simp only [plainUnsat]
        rw [hm]
      · have hMn : neg lit ∈ M := (htot lit hlitU.1).resolve_left hM
        rcases hs1 : plainUnsatStep (plainAssume neg fuel) (fun s => plainUnsat neg fuel s)
            ⟨γ, (lit :: ds) :: rest⟩ lit with o1 | _ | _
        · match o1, hs1 with
          | .sat m, hs1 =>
            refine ⟨m, ?_⟩
            simp only [plainUnsat]
            rw [hs1]
          | .unsat, hs1 =>
            have hs2ne : plainUnsatStep (plainAssume neg fuel)
                (fun s => plainUnsat neg fuel s)
                ⟨γ, (lit :: ds) :: rest⟩ (neg lit) ≠ .fuelOut := by
              intro hfo
              refine hne2 ?_
              simp only [plainUnsat]
              rw [hs1]
              exact hfo
            obtain ⟨m, hm⟩ := hgood (neg lit) hMn hlitU.2 hunk.2
              (by rw [hinv]; exact hunk.1) hs2ne
            refine ⟨m, ?_⟩
            simp only [plainUnsat]
            rw [hs1]
            exact hm
        · have hnp : plainUnsatStep (plainAssume neg fuel)
              (fun s => plainUnsat neg fuel s)
              ⟨γ, (lit :: ds) :: rest⟩ lit ≠ .panic := by
            rcases ha : plainAssume neg fuel ⟨γ, (lit :: ds) :: rest⟩ lit
              with new | o | _ | _
            · rw [plainUnsatStep_ok ha]
              obtain ⟨hI2, _, _, _⟩ :=
                plainAssume_assumeOK neg hinv hne fuel _ lit new hI.1 hunk.1 hunk.2 ha
              exact plainUnsat_no_panic neg hinv hne fuel new hI2
                (fun C hC => plainAssume_ne neg fuel _ lit new ha C hC)
            · rw [plainUnsatStep_out ha]
              intro h
              cases h
            · exact absurd ha (plainAssume_np neg fuel _ lit hunk.1)
            · rw [plainUnsatStep_fuel ha]
              intro h
              cases h
          exact absurd hs1 hnp
        · exact absurd (by simp only [plainUnsat]; rw [hs1]) hne2

end PlainCompleteness

section Models

variable {L : Type} [LinearOrder L] (neg : L → L)

/-- A CNF formula is satisfiable: some consistent set of literals contains a
literal of every clause. -/
def Satisfiable (f : List (List L)) : Prop :=
  ∃ M : List L, consistent neg M ∧ ∀ C ∈ f, satClause M C

/-- Totalize a model over a list of literals: add every literal that is
still undecided. -/
def extendM (M : List L) : List L → List L
  | [] => M
  | l :: rest =>
    if l ∈ extendM M rest ∨ neg l ∈ extendM M rest then extendM M rest
    else l :: extendM M rest

/-- The base model survives totalization. -/
theorem extendM_subset (M : List L) : ∀ lst, M ⊆ extendM neg M lst := by
  intro lst
  induction lst with
  | nil => exact fun a ha => ha
  | cons l rest ih =>
    intro a ha
    unfold extendM
    by_cases h : l ∈ extendM neg M rest ∨ neg l ∈ extendM neg M rest
    · rw [if_pos h]
      exact ih ha
    · rw [if_neg h]
      exact List.mem_cons.2 (Or.inr (ih ha))

/-- Totalization preserves consistency. -/
theorem extendM_consistent (hinv : ∀ l, neg (neg l) = l) (hne : ∀ l, neg l ≠ l)
    {M : List L} (hMc : consistent neg M) :
    ∀ lst, consistent neg (extendM neg M lst) := by
  intro lst
  induction lst with
  | nil => exact hMc
  | cons l rest ih =>
    unfold extendM
    by_cases h : l ∈ extendM neg M rest ∨ neg l ∈ extendM neg M rest
    · rw [if_pos h]
      exact ih
    · rw [if_neg h]
      push_neg at h
      exact consistent_insert neg hinv hne ih h.1 h.2

/-- Totalization decides every listed literal. -/
theorem extendM_total (M : List L) :
    ∀ lst, ∀ l ∈ lst, l ∈ extendM neg M lst ∨ neg l ∈ extendM neg M lst := by
  intro lst
  induction lst with
  | nil =>
    intro l hl
    cases hl
  | cons x rest ih =>
    intro l hl
    unfold extendM
    by_cases h : x ∈ extendM neg M rest ∨ neg x ∈ extendM neg M rest
    · rw [if_pos h]
      rcases List.mem_cons.1 hl with rfl | hl
      · exact h
      · exact ih l hl
    · rw [if_neg h]
      rcases List.mem_cons.1 hl with rfl | hl
      · exact Or.inl (List.mem_cons.2 (Or.inl rfl))
      · rcases ih l hl with h2 | h2
        · exact Or.inl (List.mem_cons.2 (Or.inr h2))
        · exact Or.inr (List.mem_cons.2 (Or.inr h2))

/-- A satisfiable formula has a consistent model that is total over its
literal universe. -/
theorem satisfiable_total (hinv : ∀ l, neg (neg l) = l) (hne : ∀ l, neg l ≠ l)
    {f : List (List L)} (hS : Satisfiable neg f) :
    ∃ M : List L, consistent neg M ∧ (∀ C ∈ f, satClause M C) ∧
      ∀ l ∈ litUniverse neg f, l ∈ M ∨ neg l ∈ M := by
  obtain ⟨M0, hc0, hm0⟩ := hS
  refine ⟨extendM neg M0 (litUniverse neg f).toList,
    extendM_consistent neg hinv hne hc0 _, ?_, ?_⟩
  · intro C hC
    exact satClause_mono (extendM_subset neg M0 _) (hm0 C hC)
  · intro l hl
    exact extendM_total neg M0 _ l ((Finset.mem_toList).2 hl)

end Models

section CdclDeps

variable {L : Type} [LinearOrder L] (neg : L → L)

/-- Dependency bookkeeping of the CDCL clause-reduction loop: the
accumulator only grows, the recorded cause of every dropped false literal is
absorbed, every element is accounted for, and duplicate-freedom is
preserved. -/
theorem creduceGo_deps {γ : List (L × List L)} :
    ∀ (lits accC accD resC resD : List L),
      creduceGo neg γ lits accC accD = some (resC, resD) →
      accD ⊆ resD ∧
      (∀ x ∈ lits, ∀ c, alistGet γ (neg x) = some c → c ⊆ resD) ∧
      (∀ a ∈ resD, a ∈ accD ∨ ∃ x ∈ lits, ∃ c, alistGet γ (neg x) = some c ∧ a ∈ c) ∧
      (accD.Nodup → resD.Nodup) := by
  intro lits
  induction lits with
  | nil =>
    intro accC accD resC resD h
    rw [creduceGo] at h
    cases h
    refine ⟨fun a ha => ha, ?_, fun a ha => Or.inl ha, fun h2 => h2⟩
    intro x hx
    cases hx
  | cons lit rest ih =>
    intro accC accD resC resD h
    by_cases h1 : lit ∈ alistKeys γ
    · rw [creduceGo, if_pos h1] at h
      cases h
    · rw [creduceGo, if_neg h1] at h
      rcases hg : alistGet γ (neg lit) with _ | deps <;> rw [hg] at h
      · obtain ⟨hsub, hdrop, hprov, hnd⟩ := ih (clausePush accC lit) accD resC resD h
        refine ⟨hsub, ?_, ?_, hnd⟩
        · intro x hx c hc
          rcases List.mem_cons.1 hx with rfl | hx
          · rw [hg] at hc
            cases hc
          · exact hdrop x hx c hc
        · intro a ha
          rcases hprov a ha with ha2 | ⟨x, hx, c, hc, hac⟩
          · exact Or.inl ha2
          · exact Or.inr ⟨x, List.mem_cons.2 (Or.inr hx), c, hc, hac⟩
      · obtain ⟨hsub, hdrop, hprov, hnd⟩ := ih accC (setExtend accD deps) resC resD h
        refine ⟨?_, ?_, ?_, ?_⟩
        · intro a ha
          exact hsub ((setExtend_mem accD deps a).2 (Or.inl ha))
        · intro x hx c hc
          rcases List.mem_cons.1 hx with rfl | hx
          · rw [hg] at hc
            cases hc
            intro a ha
            exact hsub ((setExtend_mem accD deps a).2 (Or.inr ha))
          · exact hdrop x hx c hc
        · intro a ha
          rcases hprov a ha with ha2 | ⟨x, hx, c, hc, hac⟩
          · rcases (setExtend_mem accD deps a).1 ha2 with ha3 | ha3
            · exact Or.inl ha3
            · exact Or.inr ⟨lit, List.mem_cons.2 (Or.inl rfl), deps, hg, ha3⟩
          · exact Or.inr ⟨x, List.mem_cons.2 (Or.inr hx), c, hc, hac⟩
        · intro h2
          exact hnd (setExtend_nodup h2 deps)

/-- Dependency bookkeeping of a full labelled-clause reduction. -/
theorem creduceClause_deps {γ : List (L × List L)} {lc : LClause L}
    {resC resD : List L} (h : creduceClause neg γ lc = some (resC, resD)) :
    lc.labels ⊆ resD ∧
    (∀ x ∈ lc.clause, ∀ c, alistGet γ (neg x) = some c → c ⊆ resD) ∧
    (∀ a ∈ resD,
      a ∈ lc.labels ∨ ∃ x ∈ lc.clause, ∃ c, alistGet γ (neg x) = some c ∧ a ∈ c) ∧
    resD.Nodup := by
  unfold creduceClause at h
  rcases hg : creduceGo neg γ lc.clause [] (setExtend [] lc.labels) with _ | ⟨c0, d0⟩ <;>
    rw [hg] at h
  · cases h
  · cases h
    obtain ⟨hsub, hdrop, hprov, hnd⟩ := creduceGo_deps neg lc.clause [] _ resC d0 hg
    refine ⟨?_, ?_, ?_, ?_⟩
    · intro a ha
      exact (setExtend_mem d0 lc.labels a).2 (Or.inr ha)
    · intro x hx c hc a ha
      exact (setExtend_mem d0 lc.labels a).2 (Or.inl (hdrop x hx c hc ha))
    · intro a ha
      rcases (setExtend_mem d0 lc.labels a).1 ha with ha2 | ha2
      · rcases hprov a ha2 with ha3 | ha3
        · rcases (setExtend_mem [] lc.labels a).1 ha3 with h4 | h4
          · cases h4
          · exact Or.inl h4
        · exact Or.inr ha3
      · exact Or.inl ha2
    · exact setExtend_nodup (hnd (setExtend_nodup List.nodup_nil lc.labels)) lc.labels

/-- Entries after a cause merge: unchanged, or the merged entry built from an
existing one. -/
theorem alistMerge_mem {γ : List (L × List L)} {l : L} {c : List L}
    {p : L × List L} (h : p ∈ alistMerge γ l c) :
    p ∈ γ ∨ ∃ old, (l, old) ∈ γ ∧ p = (l, setExtend old c) := by
  induction γ with
  | nil => cases h
  | cons q rest ih =>
    obtain ⟨k, v⟩ := q
    rw [alistMerge] at h
    by_cases hk : k = l
    · rw [if_pos hk] at h
      subst hk
      rcases List.mem_cons.1 h with rfl | h2
      · exact Or.inr ⟨v, List.mem_cons.2 (Or.inl rfl), rfl⟩
      · exact Or.inl (List.mem_cons.2 (Or.inr h2))
    · rw [if_neg hk] at h
      rcases List.mem_cons.1 h with rfl | h2
      · exact Or.inl (List.mem_cons.2 (Or.inl rfl))
      · rcases ih h2 with h3 | ⟨old, hm, he⟩
        · exact Or.inl (List.mem_cons.2 (Or.inr h3))
        · exact Or.inr ⟨old, List.mem_cons.2 (Or.inr hm), he⟩

/-- Membership in a shifted conflict set: every element is either an
untouched clause whose labels avoid the literal, or the shift of a clause
whose labels contain it. -/
theorem cdclShift_mem {lit : L} {cs : List (LClause L)} {x : LClause L}
    (h : x ∈ cdclShift neg lit cs) :
    (∃ y ∈ cs, lit ∈ y.labels ∧
      x = ⟨clausePush y.clause (neg lit), y.labels.erase lit⟩) ∨
    (∃ y ∈ cs, lit ∉ y.labels ∧ x = y) := by
  have key : ∀ (cs2 acc : List (LClause L)),
      x ∈ cs2.foldl
        (fun res lc =>
          lclausesInsert res
            (if lit ∈ lc.labels then ⟨clausePush lc.clause (neg lit), lc.labels.erase lit⟩
             else lc)) acc →
      x ∈ acc ∨
      (∃ y ∈ cs2, lit ∈ y.labels ∧
        x = ⟨clausePush y.clause (neg lit), y.labels.erase lit⟩) ∨
      (∃ y ∈ cs2, lit ∉ y.labels ∧ x = y) := by
    intro cs2
    induction cs2 with
    | nil =>
      intro acc h2
      exact Or.inl h2
    | cons y ys ih =>
      intro acc h2
      rcases ih _ h2 with h3 | h3 | h3
      · rcases lclausesInsert_mem h3 with h4 | h4
        · exact Or.inl h4
        · by_cases hy : lit ∈ y.labels
          · rw [if_pos hy] at h4
            exact Or.inr (Or.inl ⟨y, List.mem_cons.2 (Or.inl rfl), hy, h4⟩)
          · rw [if_neg hy] at h4
            exact Or.inr (Or.inr ⟨y, List.mem_cons.2 (Or.inl rfl), hy, h4⟩)
      · obtain ⟨z, hz, hz2, hz3⟩ := h3
        exact Or.inr (Or.inl ⟨z, List.mem_cons.2 (Or.inr hz), hz2, hz3⟩)
      · obtain ⟨z, hz, hz2, hz3⟩ := h3
        exact Or.inr (Or.inr ⟨z, List.mem_cons.2 (Or.inr hz), hz2, hz3⟩)
  rcases key cs [] h with h2 | h2 | h2
  · cases h2
  · exact Or.inl h2
  · exact Or.inr h2

end CdclDeps

section CdclSemantics

variable {L : Type} [LinearOrder L] (neg : L → L)

/-- Semantic reading of a CDCL environment against a model: every recorded
literal is forced by its cause. -/
def envForced (M : List L) (γ : List (L × List L)) : Prop :=
  ∀ p ∈ γ, p.2 ⊆ M → p.1 ∈ M

/-- Semantic reading of a labelled CNF against a model: every clause is
entailed under its labels. -/
def cnfEntailed (M : List L) (δ : List (LClause L)) : Prop :=
  ∀ lc ∈ δ, lc.labels ⊆ M → satClause M lc.clause

/-- Semantic content of a successful labelled-clause reduction: when the
accumulated dependencies hold in a consistent model and the source clause is
entailed, the reduced clause is satisfied. -/
theorem creduce_sem {M : List L} (hMc : consistent neg M)
    {γ : List (L × List L)} {lc : LClause L} {resC resD : List L}
    (hγ : envForced M γ) (hb : lc.labels ⊆ M → satClause M lc.clause)
    (h : creduceClause neg γ lc = some (resC, resD)) (hD : resD ⊆ M) :
    satClause M resC := by
  obtain ⟨hlab, hdrop, _, _⟩ := creduceClause_deps neg h
  obtain ⟨x, hx, hxM⟩ := hb (fun a ha => hD (hlab ha))
  have hx1 : x ∉ alistKeys γ := by
    intro hk
    rw [(creduceClause_none neg).2 ⟨x, hx, hk⟩] at h
    cases h
  by_cases hnx : neg x ∈ alistKeys γ
  · obtain ⟨c, hc⟩ : ∃ c, alistGet γ (neg x) = some c := by
      rcases hgx : alistGet γ (neg x) with _ | c
      · exact absurd hnx (alistGet_none.1 hgx)
      · exact ⟨c, rfl⟩
    have : neg x ∈ M :=
      hγ (neg x, c) (alistGet_mem hc) (fun a ha => hD (hdrop x hx c hc ha))
    exact absurd this (hMc x hxM)
  · exact ⟨x, (creduceClause_some neg h x).2 ⟨hx, hx1, hnx⟩, hxM⟩

/-- Semantic contract of a CDCL `assume`-shaped function: when the new
entry is forced by its cause, a normal return preserves the semantic
reading, and a raised refutation's dependencies cannot all hold in the
model. -/
def SemAssumeOK (M : List L) (assumeF : CdclS L → L → List L → CRes L (CdclS L)) : Prop :=
  ∀ st l c, envForced M st.γ → cnfEntailed M st.δ → (c ⊆ M → l ∈ M) →
    (∀ st2, assumeF st l c = .ok st2 → envForced M st2.γ ∧ cnfEntailed M st2.δ) ∧
    (∀ d cf, assumeF st l c = .out (.unsat d cf) → ¬ d ⊆ M)

/-- The CDCL `bcp` loop preserves the semantic reading and only raises
refutations whose dependencies fail in the model. -/
theorem cdclBcpGo_sem {M : List L} (hMc : consistent neg M)
    {assumeF : CdclS L → L → List L → CRes L (CdclS L)} (hA : SemAssumeOK M assumeF) :
    ∀ (todo : List (LClause L)) (new : CdclS L),
      envForced M new.γ → cnfEntailed M new.δ →
      (∀ lc ∈ todo, lc.labels ⊆ M → satClause M lc.clause) →
      (∀ st2, cdclBcpGo neg assumeF new todo = .ok st2 →
        envForced M st2.γ ∧ cnfEntailed M st2.δ) ∧
      (∀ d cf, cdclBcpGo neg assumeF new todo = .out (.unsat d cf) → ¬ d ⊆ M) := by
  intro todo
  induction todo with
  | nil =>
    intro new hγ hδ _
    constructor
    · intro st2 h
      rw [cdclBcpGo] at h
      cases h
      exact ⟨hγ, hδ⟩
    · intro d cf h
      rw [cdclBcpGo] at h
      cases h
  | cons lc rest ih =>
    intro new hγ hδ htodo
    rcases hr : creduceClause neg new.γ lc with _ | ⟨_ | ⟨l, _ | ⟨b, res2⟩⟩, deps⟩
    · constructor
      · intro st2 h
        rw [cdclBcpGo_cons_drop neg hr] at h
        exact (ih new hγ hδ (fun D hD => htodo D (by simp [hD]))).1 st2 h
      · intro d cf h
        rw [cdclBcpGo_cons_drop neg hr] at h
        exact (ih new hγ hδ (fun D hD => htodo D (by simp [hD]))).2 d cf h
    · constructor
      · intro st2 h
        rw [cdclBcpGo_cons_empty neg hr] at h
        cases h
      · intro d cf h
        rw [cdclBcpGo_cons_empty neg hr] at h
        cases h
        intro hD
        obtain ⟨x, hx, _⟩ :=
          creduce_sem neg hMc hγ (htodo lc (by simp)) hr hD
        cases hx
    · have hecd : deps ⊆ M → l ∈ M := by
        intro hD
        obtain ⟨x, hx, hxM⟩ :=
          creduce_sem neg hMc hγ (htodo lc (by simp)) hr hD
        rcases List.mem_singleton.1 hx with rfl
        exact hxM
      rcases ha : assumeF new l deps with new2 | o | _ | _
      · obtain ⟨hγ2, hδ2⟩ := (hA new l deps hγ hδ hecd).1 new2 ha
        constructor
        · intro st2 h
          rw [cdclBcpGo_cons_unit_ok neg hr ha] at h
          exact (ih new2 hγ2 hδ2 (fun D hD => htodo D (by simp [hD]))).1 st2 h
        · intro d cf h
          rw [cdclBcpGo_cons_unit_ok neg hr ha] at h
          exact (ih new2 hγ2 hδ2 (fun D hD => htodo D (by simp [hD]))).2 d cf h
      · constructor
        · intro st2 h
          rw [cdclBcpGo_cons_unit_out neg hr ha] at h
          cases h
        · intro d cf h
          rw [cdclBcpGo_cons_unit_out neg hr ha] at h
          cases h
          exact (hA new l deps hγ hδ hecd).2 d cf ha
      · constructor
        · intro st2 h
          rw [cdclBcpGo_cons_unit_panic neg hr ha] at h
          cases h
        · intro d cf h
          rw [cdclBcpGo_cons_unit_panic neg hr ha] at h
          cases h
      · constructor
        · intro st2 h
          rw [cdclBcpGo_cons_unit_fuel neg hr ha] at h
          cases h
        · intro d cf h
          rw [cdclBcpGo_cons_unit_fuel neg hr ha] at h
          cases h
    · have hδ2 : cnfEntailed M (new.δ ++ [⟨l :: b :: res2, deps⟩]) := by
        intro D hD
        rcases List.mem_append.1 hD with hD | hD
        · exact hδ D hD
        · rcases List.mem_singleton.1 hD with rfl
          intro hlab
          exact creduce_sem neg hMc hγ (htodo lc (by simp)) hr hlab
      constructor
      · intro st2 h
        rw [cdclBcpGo_cons_keep neg hr] at h
        exact (ih ⟨new.γ, new.δ ++ [⟨l :: b :: res2, deps⟩]⟩ hγ hδ2
          (fun D hD => htodo D (by simp [hD]))).1 st2 h
      · intro d cf h
        rw [cdclBcpGo_cons_keep neg hr] at h
        exact (ih ⟨new.γ, new.δ ++ [⟨l :: b :: res2, deps⟩]⟩ hγ hδ2
          (fun D hD => htodo D (by simp [hD]))).2 d cf h

/-- `Cdcl::assume` satisfies the semantic contract at every fuel. -/
theorem cdclAssume_sem {M : List L} (hMc : consistent neg M) :
    ∀ fuel, SemAssumeOK M (cdclAssume neg fuel) := by
  intro fuel
  induction fuel using Nat.strong_induction_on with
  | _ fuel IH =>
    match fuel with
    | 0 =>
      intro st l c _ _ _
      exact ⟨fun st2 h => (nomatch h), fun d cf h => (nomatch h)⟩
    | fuel + 1 =>
      intro st l c hγ hδ hec
      rw [cdclAssume]
      by_cases hb : cdclBadEnv neg st.γ
      · rw [if_pos hb]
        exact ⟨fun st2 h => (nomatch h), fun d cf h => (nomatch h)⟩
      · rw [if_neg hb]
        by_cases h1 : l ∈ alistKeys st.γ
        · rw [if_pos h1]
          refine ⟨fun st2 h => ?_, fun d cf h => by cases h⟩
          cases h
          refine ⟨?_, hδ⟩
          intro p hp hpM
          rcases alistMerge_mem hp with hp2 | ⟨old, hm, rfl⟩
          · exact hγ p hp2 hpM
          · refine hγ (l, old) hm ?_
            intro a ha
            exact hpM ((setExtend_mem old c a).2 (Or.inl ha))
        · rw [if_neg h1]
          match fuel with
          | 0 => exact ⟨fun st2 h => (nomatch h), fun d cf h => (nomatch h)⟩
          | f + 1 =>
            rw [cdclBcpFn_succ]
            by_cases hb2 : cdclBadEnv neg ((l, c) :: st.γ)
            · rw [if_pos hb2]
              exact ⟨fun st2 h => (nomatch h), fun d cf h => (nomatch h)⟩
            · rw [if_neg hb2]
              refine cdclBcpGo_sem neg hMc (IH f (by omega)) st.δ ⟨(l, c) :: st.γ, []⟩
                ?_ ?_ hδ
              · intro p hp hpM
                rcases List.mem_cons.1 hp with rfl | hp
                · exact hec hpM
                · exact hγ p hp hpM
              · intro D hD
                cases hD

end CdclSemantics

section CdclRefute

variable {L : Type} [LinearOrder L] (neg : L → L)

/-- `Cdcl::shift` preserves entailment of the conflict clauses in any model
that decides the shifted literal. -/
theorem cdclShift_sem {M : List L} {lit : L}
    (hMlit : lit ∈ M ∨ neg lit ∈ M) {cs : List (LClause L)}
    (hcs : cnfEntailed M cs) : cnfEntailed M (cdclShift neg lit cs) := by
  intro x hx hlab
  rcases cdclShift_mem neg hx with ⟨y, hy, hyl, rfl⟩ | ⟨y, hy, hyl, rfl⟩
  · rcases hMlit with hl | hl
    · have hylM : y.labels ⊆ M := by
        intro a ha
        by_cases hal : a = lit
        · subst hal
          exact hl
        · exact hlab ((List.mem_erase_of_ne hal).2 ha)
      obtain ⟨z, hz, hzM⟩ := hcs y hy hylM
      exact ⟨z, (clausePush_mem y.clause (neg lit) z).2 (Or.inl hz), hzM⟩
    · exact ⟨neg lit, (clausePush_mem y.clause (neg lit) (neg lit)).2 (Or.inr rfl), hl⟩
  · exact hcs x hy hlab

/-- Refutation soundness of `Cdcl::unsat` against a consistent model that is
total over the state's universe: a raised refutation's dependency set cannot
all hold in the model, and every returned conflict clause is entailed under
its labels. -/
theorem cdclUnsat_refute (hinv : ∀ l, neg (neg l) = l) {U : Finset L} {M : List L}
    (hMc : consistent neg M) (htot : ∀ l ∈ U, l ∈ M ∨ neg l ∈ M) :
    ∀ fuel (st : CdclS L) deps conf, UOKc neg U st →
      envForced M st.γ → cnfEntailed M st.δ →
      cdclUnsat neg fuel st = .out (.unsat deps conf) →
      ¬ deps ⊆ M ∧ cnfEntailed M conf := by
  intro fuel
  induction fuel with
  | zero =>
    intro st deps conf _ _ _ h
    cases h
  | succ fuel IH =>
    rintro ⟨γ, δ⟩ deps conf hU hγsem hδsem h
    by_cases hb : cdclBadEnv neg γ
    · simp only [cdclUnsat, if_pos hb] at h
      cases h
    · match δ, hU, hδsem, h with
      | [], hU, hδsem, h =>
        simp only [cdclUnsat, if_neg hb] at h
        cases h
      | ⟨[], labs⟩ :: rest, hU, hδsem, h =>
        simp only [cdclUnsat, if_neg hb] at h
        cases h
      | ⟨lit :: ds, labs⟩ :: rest, hU, hδsem, h =>
        have hlitU : lit ∈ U ∧ neg lit ∈ U :=
          hU.2 ⟨lit :: ds, labs⟩ (by simp) lit (by simp)
        have hMlit : lit ∈ M ∨ neg lit ∈ M := htot lit hlitU.1
        simp only [cdclUnsat, if_neg hb] at h
        rcases hs1 : cdclUnsatStep (cdclAssume neg fuel) (fun s => cdclUnsat neg fuel s)
            ⟨γ, ⟨lit :: ds, labs⟩ :: rest⟩ lit (setInsert [] lit)
          with e | o1 | _ | _ <;> simp only [hs1] at h
        · cases h
        · match o1, hs1, h with
          | .sat m, hs1, h => cases h
          | .unsat deps0 conf0, hs1, h =>
            have hecd : setInsert [] lit ⊆ M → lit ∈ M := fun hs =>
              hs ((setInsert_mem [] lit lit).2 (Or.inr rfl))
            have hb1 : ¬ deps0 ⊆ M ∧ cnfEntailed M conf0 := by
              rcases ha : cdclAssume neg fuel ⟨γ, ⟨lit :: ds, labs⟩ :: rest⟩ lit
                  (setInsert [] lit) with new | o | _ | _
              · rw [cdclUnsatStep_ok ha] at hs1
                obtain ⟨hγ2, hδ2⟩ :=
                  (cdclAssume_sem neg hMc fuel _ lit _ hγsem hδsem hecd).1 new ha
                obtain ⟨hU2, _, _⟩ :=
                  cdclAssume_cuassumeOK neg U fuel _ lit _ new hU hlitU.1 ha
                exact IH new deps0 conf0 hU2 hγ2 hδ2 hs1
              · rw [cdclUnsatStep_out ha] at hs1
                cases hs1
                have hnil := cdclAssume_conf_nil neg fuel _ _ _ _ _ ha
                subst hnil
                refine ⟨(cdclAssume_sem neg hMc fuel _ lit _ hγsem hδsem hecd).2
                  deps0 [] ha, ?_⟩
                intro lc hlc
                cases hlc
              · rw [cdclUnsatStep_panic ha] at hs1
                cases hs1
              · rw [cdclUnsatStep_fuel ha] at hs1
                cases hs1
            have hconf0U : ∀ lc ∈ conf0, ∀ l ∈ lc.clause, l ∈ U ∧ neg l ∈ U := by
              rcases ha : cdclAssume neg fuel ⟨γ, ⟨lit :: ds, labs⟩ :: rest⟩ lit
                  (setInsert [] lit) with new | o | _ | _
              · rw [cdclUnsatStep_ok ha] at hs1
                obtain ⟨hU2, _, _⟩ :=
                  cdclAssume_cuassumeOK neg U fuel _ lit _ new hU hlitU.1 ha
                exact cdclUnsat_conf_uok neg hinv fuel new deps0 conf0 hU2 hs1
              · rw [cdclUnsatStep_out ha] at hs1
                cases hs1
                rw [cdclAssume_conf_nil neg fuel _ _ _ _ _ ha]
                intro lc hlc
                cases hlc
              · rw [cdclUnsatStep_panic ha] at hs1
                cases hs1
              · rw [cdclUnsatStep_fuel ha] at hs1
                cases hs1
            have hshift_sem : cnfEntailed M (cdclShift neg lit conf0) :=
              cdclShift_sem neg hMlit hb1.2
            simp only [cdclSecond] at h
            by_cases hmem : lit ∈ deps0
            · rw [if_pos hmem] at h
              have hecd2 : deps0.erase lit ⊆ M → neg lit ∈ M := by
                intro hD
                by_cases hlM : lit ∈ M
                · exfalso
                  refine hb1.1 ?_
                  intro a ha
                  by_cases hal : a = lit
                  · subst hal
                    exact hlM
                  · exact hD ((List.mem_erase_of_ne hal).2 ha)
                · rcases hMlit with h2 | h2
                  · exact absurd h2 hlM
                  · exact h2
              have hcore : ∀ stB : CdclS L, UOKc neg U stB →
                  envForced M stB.γ → cnfEntailed M stB.δ →
                  (match cdclAssume neg fuel stB (neg lit) (deps0.erase lit) with
                    | CRes.ok new2 =>
                      match cdclUnsat neg fuel new2 with
                      | CRes.out (COut.unsat newDeps newConflict) =>
                          CRes.out (.unsat newDeps
                            (lclausesInsert
                              (lclausesExtend (cdclShift neg lit conf0) newConflict)
                              ⟨clauseNew [neg lit], deps0.erase lit⟩))
                      | r2 => r2
                    | CRes.out o => CRes.out o
                    | CRes.panic => CRes.panic
                    | CRes.fuelOut => CRes.fuelOut) = .out (.unsat deps conf) →
                  ¬ deps ⊆ M ∧ cnfEntailed M conf := by
                intro stB hUB hγB hδB hm
                rcases ha2 : cdclAssume neg fuel stB (neg lit) (deps0.erase lit)
                  with new2 | o | _ | _ <;> simp only [ha2] at hm
                · obtain ⟨hγ3, hδ3⟩ :=
                    (cdclAssume_sem neg hMc fuel stB _ _ hγB hδB hecd2).1 new2 ha2
                  obtain ⟨hU3, _, _⟩ :=
                    cdclAssume_cuassumeOK neg U fuel stB _ _ new2 hUB hlitU.2 ha2
                  rcases hs2 : cdclUnsat neg fuel new2
                    with e2 | o2 | _ | _ <;> simp only [hs2] at hm
                  · cases hm
                  · match o2, hs2, hm with
                    | .sat m2, hs2, hm => cases hm
                    | .unsat nd nc, hs2, hm =>
                      have hb2 : ¬ nd ⊆ M ∧ cnfEntailed M nc :=
                        IH new2 nd nc hU3 hγ3 hδ3 hs2
                      cases hm
                      refine ⟨hb2.1, ?_⟩
                      intro lc hlc
                      rcases lclausesInsert_mem hlc with hlc2 | hlc2
                      · rcases lclausesExtend_mem hlc2 with hlc3 | hlc3
                        · exact hshift_sem lc hlc3
                        · exact hb2.2 lc hlc3
                      · subst hlc2
                        intro hlab
                        exact ⟨neg lit, List.mem_singleton.2 rfl, hecd2 hlab⟩
                  · cases hm
                  · cases hm
                · cases hm
                  have hnil := cdclAssume_conf_nil neg fuel _ _ _ _ _ ha2
                  subst hnil
                  refine ⟨(cdclAssume_sem neg hMc fuel stB _ _ hγB hδB hecd2).2
                    deps [] ha2, ?_⟩
                  intro lc hlc
                  cases hlc
                · cases hm
                · cases hm
              by_cases hce : cdclShift neg lit conf0 = []
              · rw [if_pos hce] at h
                exact hcore ⟨γ, ⟨lit :: ds, labs⟩ :: rest⟩ hU hγsem hδsem h
              · rw [if_neg hce] at h
                refine hcore ⟨γ, (⟨lit :: ds, labs⟩ :: rest) ++ cdclShift neg lit conf0⟩
                  ⟨hU.1, ?_⟩ hγsem ?_ h
                · intro lc hlc
                  rcases List.mem_append.1 hlc with hlc | hlc
                  · exact hU.2 lc hlc
                  · exact cdclShift_uok neg hinv hlitU.1 hlitU.2 hconf0U lc hlc
                · intro lc hlc
                  rcases List.mem_append.1 hlc with hlc | hlc
                  · exact hδsem lc hlc
                  · exact hshift_sem lc hlc
            · rw [if_neg hmem] at h
              cases h
              exact ⟨hb1.1, hshift_sem⟩
        · cases h
        · cases h

end CdclRefute

section CdclDepsBound

variable {L : Type} [LinearOrder L] (neg : L → L)

/-- The dependency set of a successful reduction satisfies any predicate
holding of the clause's labels and all recorded causes, and is
duplicate-free. -/
theorem creduce_S {S : L → Prop} {γ : List (L × List L)} {lc : LClause L}
    {resC resD : List L}
    (hγ : ∀ p ∈ γ, ∀ a ∈ p.2, S a) (hlab : ∀ a ∈ lc.labels, S a)
    (h : creduceClause neg γ lc = some (resC, resD)) :
    (∀ a ∈ resD, S a) ∧ resD.Nodup := by
  obtain ⟨_, _, hprov, hnd⟩ := creduceClause_deps neg h
  refine ⟨?_, hnd⟩
  intro a ha
  rcases hprov a ha with h2 | ⟨x, _, c2, hc2, hac⟩
  · exact hlab a h2
  · exact hγ (neg x, c2) (alistGet_mem hc2) a hac

/-- Provenance contract of a CDCL `assume`-shaped function over a literal
predicate: causes and labels satisfying it are preserved, and a raised
refutation's dependency set satisfies it and is duplicate-free. -/
def CLAssumeOK (S : L → Prop) (assumeF : CdclS L → L → List L → CRes L (CdclS L)) : Prop :=
  ∀ st l c, (∀ p ∈ st.γ, ∀ a ∈ p.2, S a) → (∀ lc ∈ st.δ, ∀ a ∈ lc.labels, S a) →
    (∀ a ∈ c, S a) →
    (∀ st2, assumeF st l c = .ok st2 →
      (∀ p ∈ st2.γ, ∀ a ∈ p.2, S a) ∧ (∀ lc ∈ st2.δ, ∀ a ∈ lc.labels, S a)) ∧
    (∀ d cf, assumeF st l c = .out (.unsat d cf) → (∀ a ∈ d, S a) ∧ d.Nodup)

/-- The CDCL `bcp` loop satisfies the provenance contract. -/
theorem cdclBcpGo_CL {S : L → Prop}
    {assumeF : CdclS L → L → List L → CRes L (CdclS L)} (hA : CLAssumeOK S assumeF) :
    ∀ (todo : List (LClause L)) (new : CdclS L),
      (∀ p ∈ new.γ, ∀ a ∈ p.2, S a) → (∀ lc ∈ new.δ, ∀ a ∈ lc.labels, S a) →
      (∀ lc ∈ todo, ∀ a ∈ lc.labels, S a) →
      (∀ st2, cdclBcpGo neg assumeF new todo = .ok st2 →
        (∀ p ∈ st2.γ, ∀ a ∈ p.2, S a) ∧ (∀ lc ∈ st2.δ, ∀ a ∈ lc.labels, S a)) ∧
      (∀ d cf, cdclBcpGo neg assumeF new todo = .out (.unsat d cf) →
        (∀ a ∈ d, S a) ∧ d.Nodup) := by
  intro todo
  induction todo with
  | nil =>
    intro new hγ hδ _
    constructor
    · intro st2 h
      rw [cdclBcpGo] at h
      cases h
      exact ⟨hγ, hδ⟩
    · intro d cf h
      rw [cdclBcpGo] at h
      cases h
  | cons lc rest ih =>
    intro new hγ hδ htodo
    rcases hr : creduceClause neg new.γ lc with _ | ⟨_ | ⟨l, _ | ⟨b, res2⟩⟩, deps⟩
    · constructor
      · intro st2 h
        rw [cdclBcpGo_cons_drop neg hr] at h
        exact (ih new hγ hδ (fun D hD => htodo D (by simp [hD]))).1 st2 h
      · intro d cf h
        rw [cdclBcpGo_cons_drop neg hr] at h
        exact (ih new hγ hδ (fun D hD => htodo D (by simp [hD]))).2 d cf h
    · have hdep := creduce_S neg hγ (htodo lc (by simp)) hr
      constructor
      · intro st2 h
        rw [cdclBcpGo_cons_empty neg hr] at h
        cases h
      · intro d cf h
        rw [cdclBcpGo_cons_empty neg hr] at h
        cases h
        exact hdep
    · have hdep := creduce_S neg hγ (htodo lc (by simp)) hr
      rcases ha : assumeF new l deps with new2 | o | _ | _
      · obtain ⟨hγ2, hδ2⟩ := (hA new l deps hγ hδ hdep.1).1 new2 ha
        constructor
        · intro st2 h
          rw [cdclBcpGo_cons_unit_ok neg hr ha] at h
          exact (ih new2 hγ2 hδ2 (fun D hD => htodo D (by simp [hD]))).1 st2 h
        · intro d cf h
          rw [cdclBcpGo_cons_unit_ok neg hr ha] at h
          exact (ih new2 hγ2 hδ2 (fun D hD => htodo D (by simp [hD]))).2 d cf h
      · constructor
        · intro st2 h
          rw [cdclBcpGo_cons_unit_out neg hr ha] at h
          cases h
        · intro d cf h
          rw [cdclBcpGo_cons_unit_out neg hr ha] at h
          cases h
          exact (hA new l deps hγ hδ hdep.1).2 d cf ha
      · constructor
        · intro st2 h
          rw [cdclBcpGo_cons_unit_panic neg hr ha] at h
          cases h
        · intro d cf h
          rw [cdclBcpGo_cons_unit_panic neg hr ha] at h
          cases h
      · constructor
        · intro st2 h
          rw [cdclBcpGo_cons_unit_fuel neg hr ha] at h
          cases h
        · intro d cf h
          rw [cdclBcpGo_cons_unit_fuel neg hr ha] at h
          cases h
    · have hdep := creduce_S neg hγ (htodo lc (by simp)) hr
      have hδ2 : ∀ D ∈ new.δ ++ [⟨l :: b :: res2, deps⟩], ∀ a ∈ D.labels, S a := by
        intro D hD
        rcases List.mem_append.1 hD with hD | hD
        · exact hδ D hD
        · rcases List.mem_singleton.1 hD with rfl
          exact hdep.1
      constructor
      · intro st2 h
        rw [cdclBcpGo_cons_keep neg hr] at h
        exact (ih ⟨new.γ, new.δ ++ [⟨l :: b :: res2, deps⟩]⟩ hγ hδ2
          (fun D hD => htodo D (by simp [hD]))).1 st2 h
      · intro d cf h
        rw [cdclBcpGo_cons_keep neg hr] at h
        exact (ih ⟨new.γ, new.δ ++ [⟨l :: b :: res2, deps⟩]⟩ hγ hδ2
          (fun D hD => htodo D (by simp [hD]))).2 d cf h

/-- `Cdcl::assume` satisfies the provenance contract at every fuel. -/
theorem cdclAssume_CL {S : L → Prop} :
    ∀ fuel, CLAssumeOK S (cdclAssume neg fuel) := by
  intro fuel
  induction fuel using Nat.strong_induction_on with
  | _ fuel IH =>
    match fuel with
    | 0 =>
      intro st l c _ _ _
      exact ⟨fun st2 h => (nomatch h), fun d cf h => (nomatch h)⟩
    | fuel + 1 =>
      intro st l c hγ hδ hc
      rw [cdclAssume]
      by_cases hb : cdclBadEnv neg st.γ
      · rw [if_pos hb]
        exact ⟨fun st2 h => (nomatch h), fun d cf h => (nomatch h)⟩
      · rw [if_neg hb]
        by_cases h1 : l ∈ alistKeys st.γ
        · rw [if_pos h1]
          refine ⟨fun st2 h => ?_, fun d cf h => (nomatch h)⟩
          cases h
          refine ⟨?_, hδ⟩
          intro p hp a ha
          rcases alistMerge_mem hp with hp2 | ⟨old, hm, rfl⟩
          · exact hγ p hp2 a ha
          · rcases (setExtend_mem old c a).1 ha with ha2 | ha2
            · exact hγ (l, old) hm a ha2
            · exact hc a ha2
        · rw [if_neg h1]
          match fuel with
          | 0 => exact ⟨fun st2 h => (nomatch h), fun d cf h => (nomatch h)⟩
          | f + 1 =>
            rw [cdclBcpFn_succ]
            by_cases hb2 : cdclBadEnv neg ((l, c) :: st.γ)
            · rw [if_pos hb2]
              exact ⟨fun st2 h => (nomatch h), fun d cf h => (nomatch h)⟩
            · rw [if_neg hb2]
              refine cdclBcpGo_CL neg (IH f (by omega)) st.δ ⟨(l, c) :: st.γ, []⟩
                ?_ ?_ hδ
              · intro p hp a ha
                rcases List.mem_cons.1 hp with rfl | hp
                · exact hc a ha
                · exact hγ p hp a ha
              · intro D hD
                cases hD

/-- The dependency set of any `Cdcl::unsat` refutation is duplicate-free and
drawn from the recorded causes and labels of the state — decision literals
are erased before a refutation crosses their scope — and the same holds for
the labels of every returned conflict clause. -/
theorem cdclUnsat_DS :
    ∀ fuel (S : L → Prop) (st : CdclS L)
      (deps : List L) (conf : List (LClause L)),
      (∀ p ∈ st.γ, ∀ a ∈ p.2, S a) → (∀ lc ∈ st.δ, ∀ a ∈ lc.labels, S a) →
      cdclUnsat neg fuel st = .out (.unsat deps conf) →
      ((∀ a ∈ deps, S a) ∧ deps.Nodup) ∧
      ∀ lc ∈ conf, (∀ a ∈ lc.labels, S a) ∧ lc.labels.Nodup := by
  intro fuel
  induction fuel with
  | zero =>
    intro S st deps conf _ _ h
    cases h
  | succ fuel IH =>
    rintro S ⟨γ, δ⟩ deps conf hγS hδS h
    by_cases hb : cdclBadEnv neg γ
    · simp only [cdclUnsat, if_pos hb] at h
      cases h
    · match δ, hδS, h with
      | [], hδS, h =>
        simp only [cdclUnsat, if_neg hb] at h
        cases h
      | ⟨[], labs⟩ :: rest, hδS, h =>
        simp only [cdclUnsat, if_neg hb] at h
        cases h
      | ⟨lit :: ds, labs⟩ :: rest, hδS, h =>
        have hγS2 : ∀ p ∈ γ, ∀ a ∈ p.2, S a ∨ a = lit :=
          fun p hp a ha => Or.inl (hγS p hp a ha)
        have hδS2 : ∀ lc ∈ (⟨lit :: ds, labs⟩ :: rest : List (LClause L)),
            ∀ a ∈ lc.labels, S a ∨ a = lit :=
          fun lc hlc a ha => Or.inl (hδS lc hlc a ha)
        have hcS : ∀ a ∈ setInsert [] lit, S a ∨ a = lit := by
          intro a ha
          rcases (setInsert_mem [] lit a).1 ha with ha2 | ha2
          · cases ha2
          · exact Or.inr ha2
        simp only [cdclUnsat, if_neg hb] at h
        rcases hs1 : cdclUnsatStep (cdclAssume neg fuel) (fun s => cdclUnsat neg fuel s)
            ⟨γ, ⟨lit :: ds, labs⟩ :: rest⟩ lit (setInsert [] lit)
          with e | o1 | _ | _ <;> simp only [hs1] at h
        · cases h
        · match o1, hs1, h with
          | .sat m, hs1, h => cases h
          | .unsat deps0 conf0, hs1, h =>
            have hb1 : ((∀ a ∈ deps0, S a ∨ a = lit) ∧ deps0.Nodup) ∧
                ∀ lc ∈ conf0, (∀ a ∈ lc.labels, S a ∨ a = lit) ∧ lc.labels.Nodup := by
              rcases ha : cdclAssume neg fuel ⟨γ, ⟨lit :: ds, labs⟩ :: rest⟩ lit
                  (setInsert [] lit) with new | o | _ | _
              · rw [cdclUnsatStep_ok ha] at hs1
                obtain ⟨hγ2, hδ2⟩ :=
                  (cdclAssume_CL neg fuel _ lit _ hγS2 hδS2 hcS).1 new ha
                exact IH (fun a => S a ∨ a = lit) new deps0 conf0 hγ2 hδ2 hs1
              · rw [cdclUnsatStep_out ha] at hs1
                cases hs1
                have hnil := cdclAssume_conf_nil neg fuel _ _ _ _ _ ha
                subst hnil
                refine ⟨(cdclAssume_CL neg fuel _ lit _ hγS2 hδS2 hcS).2 deps0 [] ha, ?_⟩
                intro lc hlc
                cases hlc
              · rw [cdclUnsatStep_panic ha] at hs1
                cases hs1
              · rw [cdclUnsatStep_fuel ha] at hs1
                cases hs1
            have hshiftS : ∀ lc ∈ cdclShift neg lit conf0,
                (∀ a ∈ lc.labels, S a) ∧ lc.labels.Nodup := by
              intro x hx
              rcases cdclShift_mem neg hx with ⟨y, hy, hyl, rfl⟩ | ⟨y, hy, hyl, rfl⟩
              · obtain ⟨hyS, hynd⟩ := hb1.2 y hy
                refine ⟨?_, hynd.erase lit⟩
                intro a ha
                have h2 := (List.Nodup.mem_erase_iff hynd).1 ha
                rcases hyS a h2.2 with h3 | h3
                · exact h3
                · exact absurd h3 h2.1
              · obtain ⟨hyS, hynd⟩ := hb1.2 x hy
                refine ⟨?_, hynd⟩
                intro a ha
                rcases hyS a ha with h3 | h3
                · exact h3
                · subst h3
                  exact absurd ha hyl
            simp only [cdclSecond] at h
            by_cases hmem : lit ∈ deps0
            · rw [if_pos hmem] at h
              have hd2 : (∀ a ∈ deps0.erase lit, S a) ∧ (deps0.erase lit).Nodup := by
                refine ⟨?_, hb1.1.2.erase lit⟩
                intro a ha
                have h2 := (List.Nodup.mem_erase_iff hb1.1.2).1 ha
                rcases hb1.1.1 a h2.2 with h3 | h3
                · exact h3
                · exact absurd h3 h2.1
              have hcore : ∀ stB : CdclS L,
                  (∀ p ∈ stB.γ, ∀ a ∈ p.2, S a) → (∀ lc ∈ stB.δ, ∀ a ∈ lc.labels, S a) →
                  (match cdclAssume neg fuel stB (neg lit) (deps0.erase lit) with
                    | CRes.ok new2 =>
                      match cdclUnsat neg fuel new2 with
                      | CRes.out (COut.unsat newDeps newConflict) =>
                          CRes.out (.unsat newDeps
                            (lclausesInsert
                              (lclausesExtend (cdclShift neg lit conf0) newConflict)
                              ⟨clauseNew [neg lit], deps0.erase lit⟩))
                      | r2 => r2
                    | CRes.out o => CRes.out o
                    | CRes.panic => CRes.panic
                    | CRes.fuelOut => CRes.fuelOut) = .out (.unsat deps conf) →
                  ((∀ a ∈ deps, S a) ∧ deps.Nodup) ∧
                  ∀ lc ∈ conf, (∀ a ∈ lc.labels, S a) ∧ lc.labels.Nodup := by
                intro stB hγB hδB hm
                rcases ha2 : cdclAssume neg fuel stB (neg lit) (deps0.erase lit)
                  with new2 | o | _ | _ <;> simp only [ha2] at hm
                · obtain ⟨hγ3, hδ3⟩ :=
                    (cdclAssume_CL neg fuel stB _ _ hγB hδB hd2.1).1 new2 ha2
                  rcases hs2 : cdclUnsat neg fuel new2
                    with e2 | o2 | _ | _ <;> simp only [hs2] at hm
                  · cases hm
                  · match o2, hs2, hm with
                    | .sat m2, hs2, hm => cases hm
                    | .unsat nd nc, hs2, hm =>
                      have hb2 : ((∀ a ∈ nd, S a) ∧ nd.Nodup) ∧
                          ∀ lc ∈ nc, (∀ a ∈ lc.labels, S a) ∧ lc.labels.Nodup :=
                        IH S new2 nd nc hγ3 hδ3 hs2
                      cases hm
                      refine ⟨hb2.1, ?_⟩
                      intro lc hlc
                      rcases lclausesInsert_mem hlc with hlc2 | hlc2
                      · rcases lclausesExtend_mem hlc2 with hlc3 | hlc3
                        · exact hshiftS lc hlc3
                        · exact hb2.2 lc hlc3
                      · subst hlc2
                        exact hd2
                  · cases hm
                  · cases hm
                · cases hm
                  have hnil := cdclAssume_conf_nil neg fuel _ _ _ _ _ ha2
                  subst hnil
                  refine ⟨(cdclAssume_CL neg fuel stB _ _ hγB hδB hd2.1).2
                    deps [] ha2, ?_⟩
                  intro lc hlc
                  cases hlc
                · cases hm
                · cases hm
              by_cases hce : cdclShift neg lit conf0 = []
              · rw [if_pos hce] at h
                exact hcore ⟨γ, ⟨lit :: ds, labs⟩ :: rest⟩ hγS hδS h
              · rw [if_neg hce] at h
                refine hcore ⟨γ, (⟨lit :: ds, labs⟩ :: rest) ++ cdclShift neg lit conf0⟩
                  hγS ?_ h
                intro lc hlc
                rcases List.mem_append.1 hlc with hlc | hlc
                · exact hδS lc hlc
                · exact (hshiftS lc hlc).1
            · rw [if_neg hmem] at h
              cases h
              refine ⟨⟨?_, hb1.1.2⟩, hshiftS⟩
              intro a ha
              rcases hb1.1.1 a ha with h3 | h3
              · exact h3
              · subst h3
                exact absurd ha hmem
        · cases h
        · cases h

end CdclDepsBound

section CdclSafety

variable {L : Type} [LinearOrder L] (neg : L → L)

/-- Nonemptiness contract of a CDCL `assume`-shaped function. -/
def CNEAssumeOK (assumeF : CdclS L → L → List L → CRes L (CdclS L)) : Prop :=
  ∀ st l c st2, assumeF st l c = .ok st2 → (∀ lc ∈ st.δ, lc.clause ≠ []) →
    ∀ lc ∈ st2.δ, lc.clause ≠ []

/-- The CDCL `bcp` loop keeps working-CNF clauses nonempty. -/
theorem cdclBcpGo_cne {assumeF : CdclS L → L → List L → CRes L (CdclS L)}
    (hA : CNEAssumeOK assumeF) :
    ∀ (todo : List (LClause L)) (new st2 : CdclS L),
      (∀ lc ∈ new.δ, lc.clause ≠ []) →
      cdclBcpGo neg assumeF new todo = .ok st2 → ∀ lc ∈ st2.δ, lc.clause ≠ [] := by
  intro todo
  induction todo with
  | nil =>
    intro new st2 hnew h
    rw [cdclBcpGo] at h
    cases h
    exact hnew
  | cons lc rest ih =>
    intro new st2 hnew h
    rcases hr : creduceClause neg new.γ lc with _ | ⟨_ | ⟨l, _ | ⟨b, res2⟩⟩, deps⟩
    · rw [cdclBcpGo_cons_drop neg hr] at h
      exact ih new st2 hnew h
    · rw [cdclBcpGo_cons_empty neg hr] at h
      cases h
    · rcases ha : assumeF new l deps with new2 | o | _ | _
      · rw [cdclBcpGo_cons_unit_ok neg hr ha] at h
        exact ih new2 st2 (hA new l deps new2 ha hnew) h
      · rw [cdclBcpGo_cons_unit_out neg hr ha] at h
        cases h
      · rw [cdclBcpGo_cons_unit_panic neg hr ha] at h
        cases h
      · rw [cdclBcpGo_cons_unit_fuel neg hr ha] at h
        cases h
    · rw [cdclBcpGo_cons_keep neg hr] at h
      refine ih ⟨new.γ, new.δ ++ [⟨l :: b :: res2, deps⟩]⟩ st2 ?_ h
      intro D hD
      rcases List.mem_append.1 hD with hD | hD
      · exact hnew D hD
      · rcases List.mem_singleton.1 hD with rfl
        intro hc
        cases hc

/-- `Cdcl::assume` keeps working-CNF clauses nonempty at every fuel. -/
theorem cdclAssume_cne : ∀ fuel, CNEAssumeOK (cdclAssume neg fuel) := by
  intro fuel
  induction fuel using Nat.strong_induction_on with
  | _ fuel IH =>
    match fuel with
    | 0 =>
      intro st l c st2 h
      cases h
    | fuel + 1 =>
      intro st l c st2 h hne2
      rw [cdclAssume] at h
      by_cases hb : cdclBadEnv neg st.γ
      · rw [if_pos hb] at h
        cases h
      · rw [if_neg hb] at h
        by_cases h1 : l ∈ alistKeys st.γ
        · rw [if_pos h1] at h
          cases h
          exact hne2
        · rw [if_neg h1] at h
          match fuel, h with
          | 0, h => cases h
          | f + 1, h =>
            rw [cdclBcpFn_succ] at h
            by_cases hb2 : cdclBadEnv neg ((l, c) :: st.γ)
            · rw [if_pos hb2] at h
              cases h
            · rw [if_neg hb2] at h
              exact cdclBcpGo_cne neg (IH f (by omega)) st.δ ⟨(l, c) :: st.γ, []⟩ st2
                (fun lc hlc => (nomatch hlc)) h

/-- The conflict clauses of any `Cdcl::unsat` refutation are nonempty. -/
theorem cdclUnsat_conf_ne :
    ∀ fuel (st : CdclS L) deps conf,
      cdclUnsat neg fuel st = .out (.unsat deps conf) →
      ∀ lc ∈ conf, lc.clause ≠ [] := by
  intro fuel
  induction fuel with
  | zero =>
    intro st deps conf h
    cases h
  | succ fuel IH =>
    rintro ⟨γ, δ⟩ deps conf h
    by_cases hb : cdclBadEnv neg γ
    · simp only [cdclUnsat, if_pos hb] at h
      cases h
    · match δ, h with
      | [], h =>
        simp only [cdclUnsat, if_neg hb] at h
        cases h
      | ⟨[], labs⟩ :: rest, h =>
        simp only [cdclUnsat, if_neg hb] at h
        cases h
      | ⟨lit :: ds, labs⟩ :: rest, h =>
        simp only [cdclUnsat, if_neg hb] at h
        rcases hs1 : cdclUnsatStep (cdclAssume neg fuel) (fun s => cdclUnsat neg fuel s)
            ⟨γ, ⟨lit :: ds, labs⟩ :: rest⟩ lit (setInsert [] lit)
          with e | o1 | _ | _ <;> simp only [hs1] at h
        · cases h
        · match o1, hs1, h with
          | .sat m, hs1, h => cases h
          | .unsat deps0 conf0, hs1, h =>
            have hb1 : ∀ lc ∈ conf0, lc.clause ≠ [] := by
              rcases ha : cdclAssume neg fuel ⟨γ, ⟨lit :: ds, labs⟩ :: rest⟩ lit
                  (setInsert [] lit) with new | o | _ | _
              · rw [cdclUnsatStep_ok ha] at hs1
                exact IH new deps0 conf0 hs1
              · rw [cdclUnsatStep_out ha] at hs1
                cases hs1
                rw [cdclAssume_conf_nil neg fuel _ _ _ _ _ ha]
                intro lc hlc
                cases hlc
              · rw [cdclUnsatStep_panic ha] at hs1
                cases hs1
              · rw [cdclUnsatStep_fuel ha] at hs1
                cases hs1
            have hshiftne : ∀ lc ∈ cdclShift neg lit conf0, lc.clause ≠ [] := by
              intro x hx
              rcases cdclShift_mem neg hx with ⟨y, hy, hyl, rfl⟩ | ⟨y, hy, hyl, rfl⟩
              · intro hc
                exact List.not_mem_nil (neg lit)
                  (hc ▸ (clausePush_mem y.clause (neg lit) (neg lit)).2 (Or.inr rfl))
              · exact hb1 x hy
            simp only [cdclSecond] at h
            by_cases hmem : lit ∈ deps0
            · rw [if_pos hmem] at h
              have hcore : ∀ stB : CdclS L,
                  (match cdclAssume neg fuel stB (neg lit) (deps0.erase lit) with
                    | CRes.ok new2 =>
                      match cdclUnsat neg fuel new2 with
                      | CRes.out (COut.unsat newDeps newConflict) =>
                          CRes.out (.unsat newDeps
                            (lclausesInsert
                              (lclausesExtend (cdclShift neg lit conf0) newConflict)
                              ⟨clauseNew [neg lit], deps0.erase lit⟩))
                      | r2 => r2
                    | CRes.out o => CRes.out o
                    | CRes.panic => CRes.panic
                    | CRes.fuelOut => CRes.fuelOut) = .out (.unsat deps conf) →
                  ∀ lc ∈ conf, lc.clause ≠ [] := by
                intro stB hm
                rcases ha2 : cdclAssume neg fuel stB (neg lit) (deps0.erase lit)
                  with new2 | o | _ | _ <;> simp only [ha2] at hm
                · rcases hs2 : cdclUnsat neg fuel new2
                    with e2 | o2 | _ | _ <;> simp only [hs2] at hm
                  · cases hm
                  · match o2, hs2, hm with
                    | .sat m2, hs2, hm => cases hm
                    | .unsat nd nc, hs2, hm =>
                      have hb2 : ∀ lc ∈ nc, lc.clause ≠ [] :=
                        IH new2 nd nc hs2
                      cases hm
                      intro lc hlc
                      rcases lclausesInsert_mem hlc with hlc2 | hlc2
                      · rcases lclausesExtend_mem hlc2 with hlc3 | hlc3
                        · exact hshiftne lc hlc3
                        · exact hb2 lc hlc3
                      · subst hlc2
                        intro hc
                        exact List.not_mem_nil (neg lit)
                          (hc ▸ List.mem_singleton.2 rfl)
                  · cases hm
                  · cases hm
                · cases hm
                  rw [cdclAssume_conf_nil neg fuel _ _ _ _ _ ha2]
                  intro lc hlc
                  cases hlc
                · cases hm
                · cases hm
              by_cases hce : cdclShift neg lit conf0 = []
              · rw [if_pos hce] at h
                exact hcore _ h
              · rw [if_neg hce] at h
                exact hcore _ h
            · rw [if_neg hmem] at h
              cases h
              exact hshiftne
        · cases h
        · cases h

end CdclSafety

section CdclNoPanic

variable {L : Type} [LinearOrder L] (neg : L → L)

/-- Panic-freedom contract of a CDCL `assume`-shaped function on a consistent
environment and an unknown literal. -/
def CNPAssumeOK (assumeF : CdclS L → L → List L → CRes L (CdclS L)) : Prop :=
  ∀ st l c, consistent neg (alistKeys st.γ) → l ∉ alistKeys st.γ →
    neg l ∉ alistKeys st.γ → assumeF st l c ≠ .panic

/-- The CDCL `bcp` loop never panics on a consistent environment when its
`assume` satisfies the contracts. -/
theorem cdclBcpGo_cnp {assumeF : CdclS L → L → List L → CRes L (CdclS L)}
    (hNP : CNPAssumeOK neg assumeF) (hOK : CAssumeOK neg assumeF) :
    ∀ (todo : List (LClause L)) (new : CdclS L),
      consistent neg (alistKeys new.γ) →
      cdclBcpGo neg assumeF new todo ≠ .panic := by
  intro todo
  induction todo with
  | nil =>
    intro new _ h
    rw [cdclBcpGo] at h
    cases h
  | cons lc rest ih =>
    intro new hc h
    rcases hr : creduceClause neg new.γ lc with _ | ⟨_ | ⟨l, _ | ⟨b, res2⟩⟩, deps⟩
    · rw [cdclBcpGo_cons_drop neg hr] at h
      exact ih new hc h
    · rw [cdclBcpGo_cons_empty neg hr] at h
      cases h
    · have hchar := (creduceClause_some neg hr l).1 (by simp)
      rcases ha : assumeF new l deps with new2 | o | _ | _
      · rw [cdclBcpGo_cons_unit_ok neg hr ha] at h
        obtain ⟨hI2, _, _, _⟩ := hOK new l deps new2 hc hchar.2.1 hchar.2.2 ha
        exact ih new2 hI2.1 h
      · rw [cdclBcpGo_cons_unit_out neg hr ha] at h
        cases h
      · exact absurd ha (hNP new l deps hc hchar.2.1 hchar.2.2)
      · rw [cdclBcpGo_cons_unit_fuel neg hr ha] at h
        cases h
    · rw [cdclBcpGo_cons_keep neg hr] at h
      exact ih ⟨new.γ, new.δ ++ [⟨l :: b :: res2, deps⟩]⟩ hc h

/-- `Cdcl::assume` never panics on a consistent environment and an unknown
literal. -/
theorem cdclAssume_np (hinv : ∀ l, neg (neg l) = l) (hne : ∀ l, neg l ≠ l) :
    ∀ fuel, CNPAssumeOK neg (cdclAssume neg fuel) := by
  intro fuel
  induction fuel using Nat.strong_induction_on with
  | _ fuel IH =>
    match fuel with
    | 0 =>
      intro st l c _ _ _ h
      cases h
    | fuel + 1 =>
      intro st l c hcons hl1 hl2 h
      have hnb : ¬ cdclBadEnv neg st.γ :=
        (cdclBadEnv_iff_not_consistent neg st.γ).2 hcons
      rw [cdclAssume, if_neg hnb, if_neg hl1] at h
      match fuel, h with
      | 0, h => cases h
      | f + 1, h =>
        rw [cdclBcpFn_succ] at h
        have hcons2 : consistent neg (alistKeys ((l, c) :: st.γ)) :=
          consistent_insert neg hinv hne hcons hl1 hl2
        have hnb2 : ¬ cdclBadEnv neg ((l, c) :: st.γ) :=
          (cdclBadEnv_iff_not_consistent neg _).2 hcons2
        rw [if_neg hnb2] at h
        exact cdclBcpGo_cnp neg (IH f (by omega))
          (cdclAssume_assumeOK neg hinv hne f) st.δ ⟨(l, c) :: st.γ, []⟩ hcons2 h

/-- Conflict-clause literals of a `Cdcl::unsat` refutation are unknown in the
environment of the refuted state. -/
theorem cdclUnsat_conf_unknown (hinv : ∀ l, neg (neg l) = l) (hne : ∀ l, neg l ≠ l) :
    ∀ fuel (st : CdclS L) deps conf, CdclInv neg st →
      cdclUnsat neg fuel st = .out (.unsat deps conf) →
      ∀ lc ∈ conf, ∀ x ∈ lc.clause, x ∉ alistKeys st.γ ∧ neg x ∉ alistKeys st.γ := by
  intro fuel
  induction fuel with
  | zero =>
    intro st deps conf _ h
    cases h
  | succ fuel IH =>
    rintro ⟨γ, δ⟩ deps conf hI h
    by_cases hb : cdclBadEnv neg γ
    · simp only [cdclUnsat, if_pos hb] at h
      cases h
    · match δ, hI, h with
      | [], hI, h =>
        simp only [cdclUnsat, if_neg hb] at h
        cases h
      | ⟨[], labs⟩ :: rest, hI, h =>
        simp only [cdclUnsat, if_neg hb] at h
        cases h
      | ⟨lit :: ds, labs⟩ :: rest, hI, h =>
        have hunk : lit ∉ alistKeys γ ∧ neg lit ∉ alistKeys γ :=
          hI.2 ⟨lit :: ds, labs⟩ (by simp) lit (by simp)
        simp only [cdclUnsat, if_neg hb] at h
        rcases hs1 : cdclUnsatStep (cdclAssume neg fuel) (fun s => cdclUnsat neg fuel s)
            ⟨γ, ⟨lit :: ds, labs⟩ :: rest⟩ lit (setInsert [] lit)
          with e | o1 | _ | _ <;> simp only [hs1] at h
        · cases h
        · match o1, hs1, h with
          | .sat m, hs1, h => cases h
          | .unsat deps0 conf0, hs1, h =>
            have hb1 : ∀ lc ∈ conf0, ∀ x ∈ lc.clause,
                x ∉ alistKeys γ ∧ neg x ∉ alistKeys γ := by
              rcases ha : cdclAssume neg fuel ⟨γ, ⟨lit :: ds, labs⟩ :: rest⟩ lit
                  (setInsert [] lit) with new | o | _ | _
              · rw [cdclUnsatStep_ok ha] at hs1
                obtain ⟨hI2, hsub2, _, _⟩ := cdclAssume_assumeOK neg hinv hne fuel
                  _ lit _ new hI.1 hunk.1 hunk.2 ha
                intro lc hlc x hx
                obtain ⟨h1, h2⟩ := IH new deps0 conf0 hI2 hs1 lc hlc x hx
                exact ⟨fun hk => h1 (hsub2 hk), fun hk => h2 (hsub2 hk)⟩
              · rw [cdclUnsatStep_out ha] at hs1
                cases hs1
                rw [cdclAssume_conf_nil neg fuel _ _ _ _ _ ha]
                intro lc hlc
                cases hlc
              · rw [cdclUnsatStep_panic ha] at hs1
                cases hs1
              · rw [cdclUnsatStep_fuel ha] at hs1
                cases hs1
            have hshiftu : ∀ lc ∈ cdclShift neg lit conf0, ∀ x ∈ lc.clause,
                x ∉ alistKeys γ ∧ neg x ∉ alistKeys γ := by
              intro z hz x hx
              rcases cdclShift_mem neg hz with ⟨y, hy, hyl, rfl⟩ | ⟨y, hy, hyl, rfl⟩
              · rcases (clausePush_mem y.clause (neg lit) x).1 hx with hx2 | rfl
                · exact hb1 y hy x hx2
                · refine ⟨hunk.2, ?_⟩
                  rw [hinv]
                  exact hunk.1
              · exact hb1 z hy x hx
            simp only [cdclSecond] at h
            by_cases hmem : lit ∈ deps0
            · rw [if_pos hmem] at h
              have hcore : ∀ stB : CdclS L, stB.γ = γ → CdclInv neg stB →
                  (match cdclAssume neg fuel stB (neg lit) (deps0.erase lit) with
                    | CRes.ok new2 =>
                      match cdclUnsat neg fuel new2 with
                      | CRes.out (COut.unsat newDeps newConflict) =>
                          CRes.out (.unsat newDeps
                            (lclausesInsert
                              (lclausesExtend (cdclShift neg lit conf0) newConflict)
                              ⟨clauseNew [neg lit], deps0.erase lit⟩))
                      | r2 => r2
                    | CRes.out o => CRes.out o
                    | CRes.panic => CRes.panic
                    | CRes.fuelOut => CRes.fuelOut) = .out (.unsat deps conf) →
                  ∀ lc ∈ conf, ∀ x ∈ lc.clause,
                    x ∉ alistKeys γ ∧ neg x ∉ alistKeys γ := by
                intro stB hγB hIB hm
                rcases ha2 : cdclAssume neg fuel stB (neg lit) (deps0.erase lit)
                  with new2 | o | _ | _ <;> simp only [ha2] at hm
                · obtain ⟨hI3, hsub3, _, _⟩ := cdclAssume_assumeOK neg hinv hne fuel
                    stB (neg lit) _ new2 hIB.1
                    (by rw [hγB]; exact hunk.2)
                    (by rw [hγB, hinv]; exact hunk.1) ha2
                  rcases hs2 : cdclUnsat neg fuel new2
                    with e2 | o2 | _ | _ <;> simp only [hs2] at hm
                  · cases hm
                  · match o2, hs2, hm with
                    | .sat m2, hs2, hm => cases hm
                    | .unsat nd nc, hs2, hm =>
                      have hb2 : ∀ lc ∈ nc, ∀ x ∈ lc.clause,
                          x ∉ alistKeys γ ∧ neg x ∉ alistKeys γ := by
                        intro lc hlc x hx
                        obtain ⟨h1, h2⟩ := IH new2 nd nc hI3 hs2 lc hlc x hx
                        rw [← hγB]
                        exact ⟨fun hk => h1 (hsub3 hk), fun hk => h2 (hsub3 hk)⟩
                      cases hm
                      intro lc hlc
                      rcases lclausesInsert_mem hlc with hlc2 | hlc2
                      · rcases lclausesExtend_mem hlc2 with hlc3 | hlc3
                        · exact hshiftu lc hlc3
                        · exact hb2 lc hlc3
                      · subst hlc2
                        intro x hx
                        rcases List.mem_singleton.1 hx with rfl
                        refine ⟨hunk.2, ?_⟩
                        rw [hinv]
                        exact hunk.1
                  · cases hm
                  · cases hm
                · cases hm
                  rw [cdclAssume_conf_nil neg fuel _ _ _ _ _ ha2]
                  intro lc hlc
                  cases hlc
                · cases hm
                · cases hm
              by_cases hce : cdclShift neg lit conf0 = []
              · rw [if_pos hce] at h
                exact hcore ⟨γ, ⟨lit :: ds, labs⟩ :: rest⟩ rfl hI h
              · rw [if_neg hce] at h
                refine hcore ⟨γ, (⟨lit :: ds, labs⟩ :: rest) ++ cdclShift neg lit conf0⟩
                  rfl ⟨hI.1, ?_⟩ h
                intro lc hlc
                rcases List.mem_append.1 hlc with hlc | hlc
                · exact hI.2 lc hlc
                · exact hshiftu lc hlc
            · rw [if_neg hmem] at h
              cases h
              exact hshiftu
        · cases h
        · cases h

end CdclNoPanic

section CdclNoPanicMain

variable {L : Type} [LinearOrder L] (neg : L → L)

/-- `Cdcl::unsat` never panics under the search invariant when every
working-CNF clause is nonempty. -/
theorem cdclUnsat_no_panic (hinv : ∀ l, neg (neg l) = l) (hne : ∀ l, neg l ≠ l) :
    ∀ fuel (st : CdclS L), CdclInv neg st → (∀ lc ∈ st.δ, lc.clause ≠ []) →
      cdclUnsat neg fuel st ≠ .panic := by
  intro fuel
  induction fuel with
  | zero =>
    intro st _ _ h
    cases h
  | succ fuel IH =>
    rintro ⟨γ, δ⟩ hI hne2
    have hnb : ¬ cdclBadEnv neg γ := (cdclBadEnv_iff_not_consistent neg γ).2 hI.1
    match δ, hI, hne2 with
    | [], hI, hne2 =>
      simp only [cdclUnsat, if_neg hnb]
      intro h
      cases h
    | ⟨[], labs⟩ :: rest, hI, hne2 =>
      exact absurd rfl (hne2 ⟨[], labs⟩ (by simp))
    | ⟨lit :: ds, labs⟩ :: rest, hI, hne2 =>
      have hunk : lit ∉ alistKeys γ ∧ neg lit ∉ alistKeys γ :=
        hI.2 ⟨lit :: ds, labs⟩ (by simp) lit (by simp)
      have hstep : ∀ (stB : CdclS L) l2 cause, CdclInv neg stB →
          (∀ lc ∈ stB.δ, lc.clause ≠ []) → l2 ∉ alistKeys stB.γ →
          neg l2 ∉ alistKeys stB.γ →
          cdclUnsatStep (cdclAssume neg fuel) (fun s => cdclUnsat neg fuel s)
            stB l2 cause ≠ .panic := by
        intro stB l2 cause hIB hneB hu1 hu2
        rcases ha : cdclAssume neg fuel stB l2 cause with new | o | _ | _
        · rw [cdclUnsatStep_ok ha]
          obtain ⟨hI2, _, _, _⟩ :=
            cdclAssume_assumeOK neg hinv hne fuel stB l2 cause new hIB.1 hu1 hu2 ha
          exact IH new hI2 (cdclAssume_cne neg fuel stB l2 cause new ha hneB)
        · rw [cdclUnsatStep_out ha]
          intro h
          cases h
        · exact absurd ha (cdclAssume_np neg hinv hne fuel stB l2 cause hIB.1 hu1 hu2)
        · rw [cdclUnsatStep_fuel ha]
          intro h
          cases h
      simp only [cdclUnsat, if_neg hnb]
      rcases hs1 : cdclUnsatStep (cdclAssume neg fuel) (fun s => cdclUnsat neg fuel s)
          ⟨γ, ⟨lit :: ds, labs⟩ :: rest⟩ lit (setInsert [] lit) with e | o1 | _ | _
      · intro h
        cases h
      · match o1, hs1 with
        | .sat m, hs1 =>
          intro h
          cases h
        | .unsat deps0 conf0, hs1 =>
          show cdclSecond neg (cdclAssume neg fuel) (fun s => cdclUnsat neg fuel s)
            ⟨γ, ⟨lit :: ds, labs⟩ :: rest⟩ lit deps0 conf0 ≠ .panic
          have hfacts : (∀ lc ∈ conf0, ∀ x ∈ lc.clause,
              x ∉ alistKeys γ ∧ neg x ∉ alistKeys γ) ∧
              ∀ lc ∈ conf0, lc.clause ≠ [] := by
            rcases ha : cdclAssume neg fuel ⟨γ, ⟨lit :: ds, labs⟩ :: rest⟩ lit
                (setInsert [] lit) with new | o | _ | _
            · rw [cdclUnsatStep_ok ha] at hs1
              obtain ⟨hI2, hsub2, _, _⟩ := cdclAssume_assumeOK neg hinv hne fuel
                _ lit _ new hI.1 hunk.1 hunk.2 ha
              refine ⟨?_, cdclUnsat_conf_ne neg fuel new deps0 conf0 hs1⟩
              intro lc hlc x hx
              obtain ⟨h1, h2⟩ := cdclUnsat_conf_unknown neg hinv hne fuel new
                deps0 conf0 hI2 hs1 lc hlc x hx
              exact ⟨fun hk => h1 (hsub2 hk), fun hk => h2 (hsub2 hk)⟩
            · rw [cdclUnsatStep_out ha] at hs1
              cases hs1
              rw [cdclAssume_conf_nil neg fuel _ _ _ _ _ ha]
              exact ⟨fun lc hlc => (nomatch hlc), fun lc hlc => (nomatch hlc)⟩
            · rw [cdclUnsatStep_panic ha] at hs1
              cases hs1
            · rw [cdclUnsatStep_fuel ha] at hs1
              cases hs1
          have hshiftu : ∀ lc ∈ cdclShift neg lit conf0, ∀ x ∈ lc.clause,
              x ∉ alistKeys γ ∧ neg x ∉ alistKeys γ := by
            intro z hz x hx
            rcases cdclShift_mem neg hz with ⟨y, hy, hyl, rfl⟩ | ⟨y, hy, hyl, rfl⟩
            · rcases (clausePush_mem y.clause (neg lit) x).1 hx with hx2 | rfl
              · exact hfacts.1 y hy x hx2
              · refine ⟨hunk.2, ?_⟩
                rw [hinv]
                exact hunk.1
            · exact hfacts.1 z hy x hx
          have hshiftne : ∀ lc ∈ cdclShift neg lit conf0, lc.clause ≠ [] := by
            intro z hz
            rcases cdclShift_mem neg hz with ⟨y, hy, hyl, rfl⟩ | ⟨y, hy, hyl, rfl⟩
            · intro hc
              exact List.not_mem_nil (neg lit)
                (hc ▸ (clausePush_mem y.clause (neg lit) (neg lit)).2 (Or.inr rfl))
            · exact hfacts.2 z hy
          have hsecond : ∀ stB : CdclS L, stB.γ = γ → CdclInv neg stB →
              (∀ lc ∈ stB.δ, lc.clause ≠ []) →
              (match cdclAssume neg fuel stB (neg lit) (deps0.erase lit) with
                | CRes.ok new2 =>
                  match cdclUnsat neg fuel new2 with
                  | CRes.out (COut.unsat newDeps newConflict) =>
                      CRes.out (.unsat newDeps
                        (lclausesInsert
                          (lclausesExtend (cdclShift neg lit conf0) newConflict)
                          ⟨clauseNew [neg lit], deps0.erase lit⟩))
                  | r2 => r2
                | CRes.out o => CRes.out o
                | CRes.panic => CRes.panic
                | CRes.fuelOut => CRes.fuelOut) = .panic → False := by
            intro stB hγB hIB hneB hm
            rcases ha2 : cdclAssume neg fuel stB (neg lit) (deps0.erase lit)
              with new2 | o | _ | _ <;> simp only [ha2] at hm
            · obtain ⟨hI2, _, _, _⟩ := cdclAssume_assumeOK neg hinv hne fuel stB
                (neg lit) _ new2 hIB.1 (by rw [hγB]; exact hunk.2)
                (by rw [hγB, hinv]; exact hunk.1) ha2
              have hup : cdclUnsat neg fuel new2 ≠ .panic :=
                IH new2 hI2 (cdclAssume_cne neg fuel stB (neg lit) _ new2 ha2 hneB)
              rcases hs2 : cdclUnsat neg fuel new2 with e2 | o2 | _ | _ <;>
                simp only [hs2] at hm
              · exact nomatch hm
              · match o2, hm with
                | .sat m2, hm => exact nomatch hm
                | .unsat nd nc, hm => exact nomatch hm
              · exact hup hs2
              · exact nomatch hm
            · exact nomatch hm
            · exact cdclAssume_np neg hinv hne fuel stB (neg lit) _
                hIB.1 (by rw [hγB]; exact hunk.2)
                (by rw [hγB, hinv]; exact hunk.1) ha2
            · exact nomatch hm
          simp only [cdclSecond]
          by_cases hmem : lit ∈ deps0
          · rw [if_pos hmem]
            by_cases hce : cdclShift neg lit conf0 = []
            · rw [if_pos hce]
              intro h
              exact hsecond ⟨γ, ⟨lit :: ds, labs⟩ :: rest⟩ rfl hI hne2 h
            · rw [if_neg hce]
              have hIB : CdclInv neg
                  ⟨γ, (⟨lit :: ds, labs⟩ :: rest) ++ cdclShift neg lit conf0⟩ := by
                refine ⟨hI.1, ?_⟩
                intro lc hlc
                rcases List.mem_append.1 hlc with hlc | hlc
                · exact hI.2 lc hlc
                · exact hshiftu lc hlc
              have hneB : ∀ lc ∈ (⟨lit :: ds, labs⟩ :: rest) ++ cdclShift neg lit conf0,
                  lc.clause ≠ [] := by
                intro lc hlc
                rcases List.mem_append.1 hlc with hlc | hlc
                · exact hne2 lc hlc
                · exact hshiftne lc hlc
              intro h
              exact hsecond ⟨γ, (⟨lit :: ds, labs⟩ :: rest) ++ cdclShift neg lit conf0⟩
                rfl hIB hneB h
          · rw [if_neg hmem]
            intro h
            cases h
      · exact absurd hs1 (hstep ⟨γ, ⟨lit :: ds, labs⟩ :: rest⟩ lit (setInsert [] lit)
          hI hne2 hunk.1 hunk.2)
      · intro h
        cases h

end CdclNoPanicMain

section CdclModel

variable {L : Type} [LinearOrder L] (neg : L → L)

/-- Strong model reading of a `Cdcl` state: every assumed literal and every
recorded cause and label literal lies in the model, and every working clause
is satisfied. -/
def cdclMT (M : List L) (st : CdclS L) : Prop :=
  (∀ p ∈ st.γ, p.1 ∈ M ∧ ∀ a ∈ p.2, a ∈ M) ∧
  ∀ lc ∈ st.δ, (∀ a ∈ lc.labels, a ∈ M) ∧ satClause M lc.clause

/-- Under the strong model reading, a successful reduction has all its
dependencies in the model and its reduced clause satisfied. -/
theorem creduce_MT {M : List L} (hMc : consistent neg M) {γ : List (L × List L)}
    {lc : LClause L} {resC resD : List L}
    (hγ : ∀ p ∈ γ, p.1 ∈ M ∧ ∀ a ∈ p.2, a ∈ M)
    (hlc : (∀ a ∈ lc.labels, a ∈ M) ∧ satClause M lc.clause)
    (h : creduceClause neg γ lc = some (resC, resD)) :
    (∀ a ∈ resD, a ∈ M) ∧ satClause M resC := by
  obtain ⟨_, _, hprov, _⟩ := creduceClause_deps neg h
  refine ⟨?_, ?_⟩
  · intro a ha
    rcases hprov a ha with h2 | ⟨x, _, c2, hc2, hac⟩
    · exact hlc.1 a h2
    · exact (hγ (neg x, c2) (alistGet_mem hc2)).2 a hac
  · obtain ⟨x, hx, hxM⟩ := hlc.2
    have hx1 : x ∉ alistKeys γ := by
      intro hk
      rw [(creduceClause_none neg).2 ⟨x, hx, hk⟩] at h
      cases h
    by_cases hnx : neg x ∈ alistKeys γ
    · exfalso
      obtain ⟨c, hc⟩ : ∃ c, alistGet γ (neg x) = some c := by
        rcases hgx : alistGet γ (neg x) with _ | c
        · exact absurd hnx (alistGet_none.1 hgx)
        · exact ⟨c, rfl⟩
      exact hMc x hxM (hγ (neg x, c) (alistGet_mem hc)).1
    · exact ⟨x, (creduceClause_some neg h x).2 ⟨hx, hx1, hnx⟩, hxM⟩

/-- Strong-model contract of a CDCL `assume`-shaped function. -/
def MTAssumeOK (M : List L) (assumeF : CdclS L → L → List L → CRes L (CdclS L)) : Prop :=
  ∀ st l c, cdclMT M st → l ∈ M → (∀ a ∈ c, a ∈ M) →
    assumeF st l c = .fuelOut ∨ ∃ st2, assumeF st l c = .ok st2 ∧ cdclMT M st2

/-- The CDCL `bcp` loop preserves the strong model reading. -/
theorem cdclBcpGo_MT {M : List L} (hMc : consistent neg M)
    {assumeF : CdclS L → L → List L → CRes L (CdclS L)} (hA : MTAssumeOK M assumeF) :
    ∀ (todo : List (LClause L)) (new : CdclS L),
      (∀ p ∈ new.γ, p.1 ∈ M ∧ ∀ a ∈ p.2, a ∈ M) →
      (∀ lc ∈ new.δ, (∀ a ∈ lc.labels, a ∈ M) ∧ satClause M lc.clause) →
      (∀ lc ∈ todo, (∀ a ∈ lc.labels, a ∈ M) ∧ satClause M lc.clause) →
      cdclBcpGo neg assumeF new todo = .fuelOut ∨
      ∃ st2, cdclBcpGo neg assumeF new todo = .ok st2 ∧ cdclMT M st2 := by
  intro todo
  induction todo with
  | nil =>
    intro new hγ hδ _
    exact Or.inr ⟨new, rfl, hγ, hδ⟩
  | cons lc rest ih =>
    intro new hγ hδ htodo
    rcases hr : creduceClause neg new.γ lc with _ | ⟨_ | ⟨l, _ | ⟨b, res2⟩⟩, deps⟩
    · rw [cdclBcpGo_cons_drop neg hr]
      exact ih new hγ hδ (fun D hD => htodo D (by simp [hD]))
    · obtain ⟨_, ⟨x, hx, _⟩⟩ := creduce_MT neg hMc hγ (htodo lc (by simp)) hr
      cases hx
    · obtain ⟨hD, hsat⟩ := creduce_MT neg hMc hγ (htodo lc (by simp)) hr
      obtain ⟨x, hx, hxM⟩ := hsat
      rcases List.mem_singleton.1 hx with rfl
      rcases hA new x deps ⟨hγ, hδ⟩ hxM hD with hfo | ⟨new2, ha, hMT2⟩
      · rw [cdclBcpGo_cons_unit_fuel neg hr hfo]
        exact Or.inl rfl
      · rw [cdclBcpGo_cons_unit_ok neg hr ha]
        exact ih new2 hMT2.1 hMT2.2 (fun D hD2 => htodo D (by simp [hD2]))
    · obtain ⟨hD, hsat⟩ := creduce_MT neg hMc hγ (htodo lc (by simp)) hr
      rw [cdclBcpGo_cons_keep neg hr]
      refine ih ⟨new.γ, new.δ ++ [⟨l :: b :: res2, deps⟩]⟩ hγ ?_
        (fun D hD2 => htodo D (by simp [hD2]))
      intro D hD2
      rcases List.mem_append.1 hD2 with hD2 | hD2
      · exact hδ D hD2
      · rcases List.mem_singleton.1 hD2 with rfl
        exact ⟨hD, hsat⟩

/-- `Cdcl::assume` satisfies the strong-model contract at every fuel. -/
theorem cdclAssume_MT {M : List L} (hMc : consistent neg M) :
    ∀ fuel, MTAssumeOK M (cdclAssume neg fuel) := by
  intro fuel
  induction fuel using Nat.strong_induction_on with
  | _ fuel IH =>
    match fuel with
    | 0 =>
      intro st l c _ _ _
      exact Or.inl rfl
    | fuel + 1 =>
      intro st l c hMT hlM hcM
      have hkeys : ∀ x ∈ alistKeys st.γ, x ∈ M := by
        intro x hx
        obtain ⟨p, hp, rfl⟩ := List.mem_map.1 hx
        exact (hMT.1 p hp).1
      have hnb : ¬ cdclBadEnv neg st.γ := by
        rintro ⟨l2, hl2, hnl2⟩
        exact hMc l2 (hkeys l2 hl2) (hkeys (neg l2) hnl2)
      rw [cdclAssume, if_neg hnb]
      by_cases h1 : l ∈ alistKeys st.γ
      · rw [if_pos h1]
        refine Or.inr ⟨⟨alistMerge st.γ l c, st.δ⟩, rfl, ?_, hMT.2⟩
        intro p hp
        rcases alistMerge_mem hp with hp2 | ⟨old, hm, rfl⟩
        · exact hMT.1 p hp2
        · refine ⟨(hMT.1 (l, old) hm).1, ?_⟩
          intro a ha
          rcases (setExtend_mem old c a).1 ha with ha2 | ha2
          · exact (hMT.1 (l, old) hm).2 a ha2
          · exact hcM a ha2
      · rw [if_neg h1]
        match fuel with
        | 0 => exact Or.inl rfl
        | f + 1 =>
          rw [cdclBcpFn_succ]
          have hkeys2 : ∀ x ∈ alistKeys ((l, c) :: st.γ), x ∈ M := by
            intro x hx
            rcases List.mem_cons.1 hx with rfl | hx
            · exact hlM
            · exact hkeys x hx
          have hnb2 : ¬ cdclBadEnv neg ((l, c) :: st.γ) := by
            rintro ⟨l2, hl2, hnl2⟩
            exact hMc l2 (hkeys2 l2 hl2) (hkeys2 (neg l2) hnl2)
          rw [if_neg hnb2]
          refine cdclBcpGo_MT neg hMc (IH f (by omega)) st.δ ⟨(l, c) :: st.γ, []⟩
            ?_ (fun lc hlc => (nomatch hlc)) hMT.2
          intro p hp
          rcases List.mem_cons.1 hp with rfl | hp
          · exact ⟨hlM, hcM⟩
          · exact hMT.1 p hp

end CdclModel

section CdclCompleteMain

variable {L : Type} [LinearOrder L] (neg : L → L)

/-- `Cdcl::unsat` is complete: a state strongly satisfied by a consistent
total model never reports `Unsat` — when the search finishes, it finds a
model. -/
theorem cdclUnsat_complete (hinv : ∀ l, neg (neg l) = l) (hne : ∀ l, neg l ≠ l)
    {U : Finset L} {M : List L} (hMc : consistent neg M)
    (htot : ∀ l ∈ U, l ∈ M ∨ neg l ∈ M) :
    ∀ fuel (st : CdclS L), CdclInv neg st → UOKc neg U st → cdclMT M st →
      (∀ lc ∈ st.δ, lc.clause ≠ []) →
      cdclUnsat neg fuel st ≠ .fuelOut →
      ∃ m, cdclUnsat neg fuel st = .out (.sat m) := by
  intro fuel
  induction fuel with
  | zero =>
    intro st _ _ _ _ hne3
    exact absurd rfl hne3
  | succ fuel IH =>
    rintro ⟨γ, δ⟩ hI hU hMT hne2 hne3
    have hnb : ¬ cdclBadEnv neg γ := (cdclBadEnv_iff_not_consistent neg γ).2 hI.1
    match δ, hI, hU, hMT, hne2, hne3 with
    | [], hI, hU, hMT, hne2, hne3 =>
      refine ⟨alistKeys γ, ?_⟩
      simp only [cdclUnsat, if_neg hnb]
    | ⟨[], labs⟩ :: rest, hI, hU, hMT, hne2, hne3 =>
      exact absurd rfl (hne2 ⟨[], labs⟩ (by simp))
    | ⟨lit :: ds, labs⟩ :: rest, hI, hU, hMT, hne2, hne3 =>
      have hunk : lit ∉ alistKeys γ ∧ neg lit ∉ alistKeys γ :=
        hI.2 ⟨lit :: ds, labs⟩ (by simp) lit (by simp)
      have hlitU : lit ∈ U ∧ neg lit ∈ U :=
        hU.2 ⟨lit :: ds, labs⟩ (by simp) lit (by simp)
      by_cases hM : lit ∈ M
      · have hcM : ∀ a ∈ setInsert [] lit, a ∈ M := by
          intro a ha
          rcases (setInsert_mem [] lit a).1 ha with h2 | h2
          · cases h2
          · subst h2
            exact hM
        rcases cdclAssume_MT neg hMc fuel ⟨γ, ⟨lit :: ds, labs⟩ :: rest⟩ lit
            (setInsert [] lit) hMT hM hcM with hfo | ⟨new, ha, hMT2⟩
        · exfalso
          refine hne3 ?_
          simp only [cdclUnsat, if_neg hnb]
          rw [cdclUnsatStep_fuel hfo]
        · obtain ⟨hI2, _, _, _⟩ := cdclAssume_assumeOK neg hinv hne fuel
            _ lit _ new hI.1 hunk.1 hunk.2 ha
          obtain ⟨hU2, _, _⟩ := cdclAssume_cuassumeOK neg U fuel _ lit _ new hU hlitU.1 ha
          have hne2b := cdclAssume_cne neg fuel _ lit _ new ha hne2
          have hinner : cdclUnsat neg fuel new ≠ .fuelOut := by
            intro hfo
            refine hne3 ?_
            simp only [cdclUnsat, if_neg hnb]
            rw [cdclUnsatStep_ok ha, hfo]
          obtain ⟨m, hm⟩ := IH new hI2 hU2 hMT2 hne2b hinner
          refine ⟨m, ?_⟩
          simp only [cdclUnsat, if_neg hnb]
          rw [cdclUnsatStep_ok ha, hm]
      · have hMn : neg lit ∈ M := (htot lit hlitU.1).resolve_left hM
        rcases hs1 : cdclUnsatStep (cdclAssume neg fuel) (fun s => cdclUnsat neg fuel s)
            ⟨γ, ⟨lit :: ds, labs⟩ :: rest⟩ lit (setInsert [] lit) with e | o1 | _ | _
        · exact e.elim
        · match o1, hs1 with
          | .sat m, hs1 =>
            refine ⟨m, ?_⟩
            simp only [cdclUnsat, if_neg hnb]
            rw [hs1]
          | .unsat deps0 conf0, hs1 =>
            have hγsem : envForced M γ := fun p hp _ => (hMT.1 p hp).1
            have hδsem : cnfEntailed M (⟨lit :: ds, labs⟩ :: rest) :=
              fun lc hlc _ => (hMT.2 lc hlc).2
            have hγS : ∀ p ∈ γ, ∀ a ∈ p.2, a ∈ M ∨ a = lit :=
              fun p hp a ha => Or.inl ((hMT.1 p hp).2 a ha)
            have hδS : ∀ lc ∈ (⟨lit :: ds, labs⟩ :: rest : List (LClause L)),
                ∀ a ∈ lc.labels, a ∈ M ∨ a = lit :=
              fun lc hlc a ha => Or.inl ((hMT.2 lc hlc).1 a ha)
            have hcS : ∀ a ∈ setInsert [] lit, a ∈ M ∨ a = lit := by
              intro a ha
              rcases (setInsert_mem [] lit a).1 ha with h2 | h2
              · cases h2
              · exact Or.inr h2
            have hecd : setInsert [] lit ⊆ M → lit ∈ M := fun hs =>
              hs ((setInsert_mem [] lit lit).2 (Or.inr rfl))
            have hfacts : (¬ deps0 ⊆ M) ∧ cnfEntailed M conf0 ∧
                (∀ a ∈ deps0, a ∈ M ∨ a = lit) ∧ deps0.Nodup ∧
                (∀ lc ∈ conf0, (∀ a ∈ lc.labels, a ∈ M ∨ a = lit) ∧ lc.labels.Nodup) ∧
                (∀ lc ∈ conf0, ∀ x ∈ lc.clause,
                  x ∉ alistKeys γ ∧ neg x ∉ alistKeys γ) ∧
                (∀ lc ∈ conf0, lc.clause ≠ []) ∧
                (∀ lc ∈ conf0, ∀ x ∈ lc.clause, x ∈ U ∧ neg x ∈ U) := by
              rcases ha : cdclAssume neg fuel ⟨γ, ⟨lit :: ds, labs⟩ :: rest⟩ lit
                  (setInsert [] lit) with new | o | _ | _
              · rw [cdclUnsatStep_ok ha] at hs1
                obtain ⟨hγ2, hδ2⟩ :=
                  (cdclAssume_sem neg hMc fuel _ lit _ hγsem hδsem hecd).1 new ha
                obtain ⟨hU2, _, _⟩ :=
                  cdclAssume_cuassumeOK neg U fuel _ lit _ new hU hlitU.1 ha
                obtain ⟨hI2, hsub2, _, _⟩ := cdclAssume_assumeOK neg hinv hne fuel
                  _ lit _ new hI.1 hunk.1 hunk.2 ha
                obtain ⟨hγ3, hδ3⟩ := (cdclAssume_CL neg fuel _ lit _ hγS hδS hcS).1 new ha
                obtain ⟨hr1, hr2⟩ := cdclUnsat_refute neg hinv hMc htot fuel new
                  deps0 conf0 hU2 hγ2 hδ2 hs1
                obtain ⟨⟨hd1, hd2⟩, hcl⟩ := cdclUnsat_DS neg fuel
                  (fun x => x ∈ M ∨ x = lit) new deps0 conf0 hγ3 hδ3 hs1
                have hcu := cdclUnsat_conf_unknown neg hinv hne fuel new
                  deps0 conf0 hI2 hs1
                refine ⟨hr1, hr2, hd1, hd2, hcl, ?_,
                  cdclUnsat_conf_ne neg fuel new deps0 conf0 hs1,
                  cdclUnsat_conf_uok neg hinv fuel new deps0 conf0 hU2 hs1⟩
                intro lc hlc x hx
                obtain ⟨u1, u2⟩ := hcu lc hlc x hx
                exact ⟨fun hk => u1 (hsub2 hk), fun hk => u2 (hsub2 hk)⟩
              · rw [cdclUnsatStep_out ha] at hs1
                cases hs1
                have hnil := cdclAssume_conf_nil neg fuel _ _ _ _ _ ha
                subst hnil
                obtain ⟨hd1, hd2⟩ :=
                  (cdclAssume_CL neg fuel _ lit _ hγS hδS hcS).2 deps0 [] ha
                exact ⟨(cdclAssume_sem neg hMc fuel _ lit _ hγsem hδsem hecd).2
                    deps0 [] ha,
                  fun lc hlc => (nomatch hlc), hd1, hd2, fun lc hlc => (nomatch hlc),
                  fun lc hlc => (nomatch hlc), fun lc hlc => (nomatch hlc),
                  fun lc hlc => (nomatch hlc)⟩
              · rw [cdclUnsatStep_panic ha] at hs1
                cases hs1
              · rw [cdclUnsatStep_fuel ha] at hs1
                cases hs1
            obtain ⟨hnds, hcent, hdS, hdnd, hclbl, hcunk, hcne2, hcuok⟩ := hfacts
            by_cases hmem : lit ∈ deps0
            · have hd2M : ∀ a ∈ deps0.erase lit, a ∈ M := by
                intro a ha
                have h2 := (List.Nodup.mem_erase_iff hdnd).1 ha
                rcases hdS a h2.2 with h3 | h3
                · exact h3
                · exact absurd h3 h2.1
              have hshiftMT : ∀ lc ∈ cdclShift neg lit conf0,
                  (∀ a ∈ lc.labels, a ∈ M) ∧ satClause M lc.clause := by
                intro z hz
                rcases cdclShift_mem neg hz with ⟨y, hy, hyl, rfl⟩ | ⟨y, hy, hyl, rfl⟩
                · obtain ⟨hyS, hynd⟩ := hclbl y hy
                  refine ⟨?_, ⟨neg lit,
                    (clausePush_mem y.clause (neg lit) (neg lit)).2 (Or.inr rfl), hMn⟩⟩
                  intro a ha
                  have h2 := (List.Nodup.mem_erase_iff hynd).1 ha
                  rcases hyS a h2.2 with h3 | h3
                  · exact h3
                  · exact absurd h3 h2.1
                · obtain ⟨hyS, hynd⟩ := hclbl z hy
                  have hlabM : ∀ a ∈ z.labels, a ∈ M := by
                    intro a ha
                    rcases hyS a ha with h3 | h3
                    · exact h3
                    · subst h3
                      exact absurd ha hyl
                  exact ⟨hlabM, hcent z hy hlabM⟩
              have hshiftunk : ∀ lc ∈ cdclShift neg lit conf0, ∀ x ∈ lc.clause,
                  x ∉ alistKeys γ ∧ neg x ∉ alistKeys γ := by
                intro z hz x hx
                rcases cdclShift_mem neg hz with ⟨y, hy, hyl, rfl⟩ | ⟨y, hy, hyl, rfl⟩
                · rcases (clausePush_mem y.clause (neg lit) x).1 hx with hx2 | rfl
                  · exact hcunk y hy x hx2
                  · refine ⟨hunk.2, ?_⟩
                    rw [hinv]
                    exact hunk.1
                · exact hcunk z hy x hx
              have hshiftne : ∀ lc ∈ cdclShift neg lit conf0, lc.clause ≠ [] := by
                intro z hz
                rcases cdclShift_mem neg hz with ⟨y, hy, hyl, rfl⟩ | ⟨y, hy, hyl, rfl⟩
                · intro hc
                  exact List.not_mem_nil (neg lit)
                    (hc ▸ (clausePush_mem y.clause (neg lit) (neg lit)).2 (Or.inr rfl))
                · exact hcne2 z hy
              have hshiftuok : ∀ lc ∈ cdclShift neg lit conf0, ∀ x ∈ lc.clause,
                  x ∈ U ∧ neg x ∈ U :=
                cdclShift_uok neg hinv hlitU.1 hlitU.2 hcuok
              by_cases hce : cdclShift neg lit conf0 = []
              · rcases cdclAssume_MT neg hMc fuel ⟨γ, ⟨lit :: ds, labs⟩ :: rest⟩
                    (neg lit) (deps0.erase lit) hMT hMn hd2M with hfo2 | ⟨new2, ha2, hMT3⟩
                · exfalso
                  refine hne3 ?_
                  simp only [cdclUnsat, if_neg hnb]
                  rw [hs1]
                  show cdclSecond neg (cdclAssume neg fuel)
                      (fun s => cdclUnsat neg fuel s)
                      ⟨γ, ⟨lit :: ds, labs⟩ :: rest⟩ lit deps0 conf0 = .fuelOut
                  simp only [cdclSecond]
                  rw [if_pos hmem, if_pos hce]
                  simp only [hfo2]
                · obtain ⟨hI3, _, _, _⟩ := cdclAssume_assumeOK neg hinv hne fuel
                    _ (neg lit) _ new2 hI.1 hunk.2 (by rw [hinv]; exact hunk.1) ha2
                  obtain ⟨hU3, _, _⟩ := cdclAssume_cuassumeOK neg U fuel
                    _ (neg lit) _ new2 hU hlitU.2 ha2
                  have hne4 := cdclAssume_cne neg fuel _ (neg lit) _ new2 ha2 hne2
                  have hinner2 : cdclUnsat neg fuel new2 ≠ .fuelOut := by
                    intro hfo
                    refine hne3 ?_
                    simp only [cdclUnsat, if_neg hnb]
                    rw [hs1]
                    show cdclSecond neg (cdclAssume neg fuel)
                        (fun s => cdclUnsat neg fuel s)
                        ⟨γ, ⟨lit :: ds, labs⟩ :: rest⟩ lit deps0 conf0 = .fuelOut
                    simp only [cdclSecond]
                    rw [if_pos hmem, if_pos hce]
                    simp only [ha2, hfo]
                  obtain ⟨m, hm⟩ := IH new2 hI3 hU3 hMT3 hne4 hinner2
                  refine ⟨m, ?_⟩
                  simp only [cdclUnsat, if_neg hnb]
                  rw [hs1]
                  show cdclSecond neg (cdclAssume neg fuel)
                      (fun s => cdclUnsat neg fuel s)
                      ⟨γ, ⟨lit :: ds, labs⟩ :: rest⟩ lit deps0 conf0 = .out (.sat m)
                  simp only [cdclSecond]
                  rw [if_pos hmem, if_pos hce]
                  simp only [ha2, hm]
              · have hIB : CdclInv neg
                    ⟨γ, (⟨lit :: ds, labs⟩ :: rest) ++ cdclShift neg lit conf0⟩ := by
                  refine ⟨hI.1, ?_⟩
                  intro lc hlc
                  rcases List.mem_append.1 hlc with hlc | hlc
                  · exact hI.2 lc hlc
                  · exact hshiftunk lc hlc
                have hUB : UOKc neg U
                    ⟨γ, (⟨lit :: ds, labs⟩ :: rest) ++ cdclShift neg lit conf0⟩ := by
                  refine ⟨hU.1, ?_⟩
                  intro lc hlc
                  rcases List.mem_append.1 hlc with hlc | hlc
                  · exact hU.2 lc hlc
                  · exact hshiftuok lc hlc
                have hMTB : cdclMT M
                    ⟨γ, (⟨lit :: ds, labs⟩ :: rest) ++ cdclShift neg lit conf0⟩ := by
                  refine ⟨hMT.1, ?_⟩
                  intro lc hlc
                  rcases List.mem_append.1 hlc with hlc | hlc
                  · exact hMT.2 lc hlc
                  · exact hshiftMT lc hlc
                have hneB : ∀ lc ∈ (⟨lit :: ds, labs⟩ :: rest) ++
                    cdclShift neg lit conf0, lc.clause ≠ [] := by
                  intro lc hlc
                  rcases List.mem_append.1 hlc with hlc | hlc
                  · exact hne2 lc hlc
                  · exact hshiftne lc hlc
                rcases cdclAssume_MT neg hMc fuel
                    ⟨γ, (⟨lit :: ds, labs⟩ :: rest) ++ cdclShift neg lit conf0⟩
                    (neg lit) (deps0.erase lit) hMTB hMn hd2M with hfo2 | ⟨new2, ha2, hMT3⟩
                · exfalso
                  refine hne3 ?_
                  simp only [cdclUnsat, if_neg hnb]
                  rw [hs1]
                  show cdclSecond neg (cdclAssume neg fuel)
                      (fun s => cdclUnsat neg fuel s)
                      ⟨γ, ⟨lit :: ds, labs⟩ :: rest⟩ lit deps0 conf0 = .fuelOut
                  simp only [cdclSecond]
                  rw [if_pos hmem, if_neg hce]
                  simp only [hfo2]
                · obtain ⟨hI3, _, _, _⟩ := cdclAssume_assumeOK neg hinv hne fuel
                    _ (neg lit) _ new2 hIB.1 hunk.2 (by rw [hinv]; exact hunk.1) ha2
                  obtain ⟨hU3, _, _⟩ := cdclAssume_cuassumeOK neg U fuel
                    _ (neg lit) _ new2 hUB hlitU.2 ha2
                  have hne4 := cdclAssume_cne neg fuel _ (neg lit) _ new2 ha2 hneB
                  have hinner2 : cdclUnsat neg fuel new2 ≠ .fuelOut := by
                    intro hfo
                    refine hne3 ?_
                    simp only [cdclUnsat, if_neg hnb]
                    rw [hs1]
                    show cdclSecond neg (cdclAssume neg fuel)
                        (fun s => cdclUnsat neg fuel s)
                        ⟨γ, ⟨lit :: ds, labs⟩ :: rest⟩ lit deps0 conf0 = .fuelOut
                    simp only [cdclSecond]
                    rw [if_pos hmem, if_neg hce]
                    simp only [ha2, hfo]
                  obtain ⟨m, hm⟩ := IH new2 hI3 hU3 hMT3 hne4 hinner2
                  refine ⟨m, ?_⟩
                  simp only [cdclUnsat, if_neg hnb]
                  rw [hs1]
                  show cdclSecond neg (cdclAssume neg fuel)
                      (fun s => cdclUnsat neg fuel s)
                      ⟨γ, ⟨lit :: ds, labs⟩ :: rest⟩ lit deps0 conf0 = .out (.sat m)
                  simp only [cdclSecond]
                  rw [if_pos hmem, if_neg hce]
                  simp only [ha2, hm]
            · exfalso
              refine hnds ?_
              intro a ha
              rcases hdS a ha with h3 | h3
              · exact h3
              · subst h3
                exact absurd ha hmem
        · exfalso
          have hw : cdclUnsat neg (fuel + 1) ⟨γ, ⟨lit :: ds, labs⟩ :: rest⟩ = .panic := by
            simp only [cdclUnsat, if_neg hnb]
            rw [hs1]
          exact cdclUnsat_no_panic neg hinv hne (fuel + 1) _ hI hne2 hw
        · exact absurd (by simp only [cdclUnsat, if_neg hnb]; rw [hs1]) hne3

end CdclCompleteMain

section BjSoundComplete

variable {L : Type} [LinearOrder L] (neg : L → L)

/-- Modelled from the spec: a `Sat` outcome of the Backjump engine's `unsat`
carries a consistent environment satisfying the state. -/
theorem bjUnsat_sat_sound (hinv : ∀ l, neg (neg l) = l) (hne : ∀ l, neg l ≠ l) :
    ∀ fuel (st : CdclS L) m, CdclInv neg st →
      bjUnsat neg fuel st = .out (.sat m) →
      consistent neg m ∧ alistKeys st.γ ⊆ m ∧ ∀ lc ∈ st.δ, satClause m lc.clause := by
  intro fuel
  induction fuel with
  | zero =>
    intro st m _ h
    cases h
  | succ fuel IH =>
    rintro ⟨γ, δ⟩ m hI h
    match δ, hI, h with
    | [], hI, h =>
      cases h
      exact ⟨hI.1, fun a ha => ha, fun lc hlc => (nomatch hlc)⟩
    | ⟨[], labs⟩ :: rest, hI, h => cases h
    | ⟨lit :: ds, labs⟩ :: rest, hI, h =>
      have hunk : lit ∉ alistKeys γ ∧ neg lit ∉ alistKeys γ :=
        hI.2 ⟨lit :: ds, labs⟩ (by simp) lit (by simp)
      have hstep : ∀ l2 cause m2, l2 ∉ alistKeys γ → neg l2 ∉ alistKeys γ →
          cdclUnsatStep (cdclAssume neg fuel) (fun s => bjUnsat neg fuel s)
            ⟨γ, ⟨lit :: ds, labs⟩ :: rest⟩ l2 cause = .out (.sat m2) →
          consistent neg m2 ∧ alistKeys γ ⊆ m2 ∧
            ∀ lc ∈ (⟨lit :: ds, labs⟩ :: rest : List (LClause L)),
              satClause m2 lc.clause := by
        intro l2 cause m2 hu1 hu2 hs
        rcases ha : cdclAssume neg fuel ⟨γ, ⟨lit :: ds, labs⟩ :: rest⟩ l2 cause
          with new | o | _ | _
        · rw [cdclUnsatStep_ok ha] at hs
          obtain ⟨hI2, hsub2, _, hcov2⟩ := cdclAssume_assumeOK neg hinv hne fuel
            _ l2 cause new hI.1 hu1 hu2 ha
          obtain ⟨hcm, hsubm, hmodm⟩ := IH new m2 hI2 hs
          exact ⟨hcm, hsub2.trans hsubm,
            fun lc hlc => satClause_of_coversC (hcov2 lc hlc) hsubm hmodm⟩
        · rw [cdclUnsatStep_out ha] at hs
          cases hs
          exact absurd ha (cdclAssume_no_sat neg fuel _ l2 cause m2)
        · rw [cdclUnsatStep_panic ha] at hs
          cases hs
        · rw [cdclUnsatStep_fuel ha] at hs
          cases hs
      simp only [bjUnsat] at h
      rcases hs1 : cdclUnsatStep (cdclAssume neg fuel) (fun s => bjUnsat neg fuel s)
          ⟨γ, ⟨lit :: ds, labs⟩ :: rest⟩ lit (setInsert [] lit)
        with e | o1 | _ | _ <;> simp only [hs1] at h
      · cases h
      · match o1, hs1, h with
        | .sat m2, hs1, h =>
          cases h
          exact hstep lit (setInsert [] lit) m hunk.1 hunk.2 hs1
        | .unsat deps0 conf0, hs1, h =>
          replace h : (if lit ∈ deps0 then
              cdclUnsatStep (cdclAssume neg fuel) (fun s => bjUnsat neg fuel s)
                ⟨γ, ⟨lit :: ds, labs⟩ :: rest⟩ (neg lit) (deps0.erase lit)
            else .out (.unsat deps0 [])) = .out (.sat m) := h
          by_cases hmem : lit ∈ deps0
          · rw [if_pos hmem] at h
            exact hstep (neg lit) (deps0.erase lit) m hunk.2
              (by rw [hinv]; exact hunk.1) h
          · rw [if_neg hmem] at h
            cases h
      · cases h
      · cases h

/-- Modelled from the spec: refutation soundness of the Backjump engine's
`unsat`. -/
theorem bjUnsat_refute (hinv : ∀ l, neg (neg l) = l) {U : Finset L} {M : List L}
    (hMc : consistent neg M) (htot : ∀ l ∈ U, l ∈ M ∨ neg l ∈ M) :
    ∀ fuel (st : CdclS L) deps conf, UOKc neg U st →
      envForced M st.γ → cnfEntailed M st.δ →
      bjUnsat neg fuel st = .out (.unsat deps conf) →
      ¬ deps ⊆ M := by
  intro fuel
  induction fuel with
  | zero =>
    intro st deps conf _ _ _ h
    cases h
  | succ fuel IH =>
    rintro ⟨γ, δ⟩ deps conf hU hγsem hδsem h
    match δ, hU, hδsem, h with
    | [], hU, hδsem, h => cases h
    | ⟨[], labs⟩ :: rest, hU, hδsem, h => cases h
    | ⟨lit :: ds, labs⟩ :: rest, hU, hδsem, h =>
      have hlitU : lit ∈ U ∧ neg lit ∈ U :=
        hU.2 ⟨lit :: ds, labs⟩ (by simp) lit (by simp)
      have hMlit : lit ∈ M ∨ neg lit ∈ M := htot lit hlitU.1
      have hecd : setInsert [] lit ⊆ M → lit ∈ M := fun hs =>
        hs ((setInsert_mem [] lit lit).2 (Or.inr rfl))
      simp only [bjUnsat] at h
      rcases hs1 : cdclUnsatStep (cdclAssume neg fuel) (fun s => bjUnsat neg fuel s)
          ⟨γ, ⟨lit :: ds, labs⟩ :: rest⟩ lit (setInsert [] lit)
        with e | o1 | _ | _ <;> simp only [hs1] at h
      · cases h
      · match o1, hs1, h with
        | .sat m, hs1, h => cases h
        | .unsat deps0 conf0, hs1, h =>
          have hb1 : ¬ deps0 ⊆ M := by
            rcases ha : cdclAssume neg fuel ⟨γ, ⟨lit :: ds, labs⟩ :: rest⟩ lit
                (setInsert [] lit) with new | o | _ | _
            · rw [cdclUnsatStep_ok ha] at hs1
              obtain ⟨hγ2, hδ2⟩ :=
                (cdclAssume_sem neg hMc fuel _ lit _ hγsem hδsem hecd).1 new ha
              obtain ⟨hU2, _, _⟩ :=
                cdclAssume_cuassumeOK neg U fuel _ lit _ new hU hlitU.1 ha
              exact IH new deps0 conf0 hU2 hγ2 hδ2 hs1
            · rw [cdclUnsatStep_out ha] at hs1
              cases hs1
              exact (cdclAssume_sem neg hMc fuel _ lit _ hγsem hδsem hecd).2
                deps0 conf0 ha
            · rw [cdclUnsatStep_panic ha] at hs1
              cases hs1
            · rw [cdclUnsatStep_fuel ha] at hs1
              cases hs1
          replace h : (if lit ∈ deps0 then
              cdclUnsatStep (cdclAssume neg fuel) (fun s => bjUnsat neg fuel s)
                ⟨γ, ⟨lit :: ds, labs⟩ :: rest⟩ (neg lit) (deps0.erase lit)
            else .out (.unsat deps0 [])) = .out (.unsat deps conf) := h
          by_cases hmem : lit ∈ deps0
          · rw [if_pos hmem] at h
            have hecd2 : deps0.erase lit ⊆ M → neg lit ∈ M := by
              intro hD
              by_cases hlM : lit ∈ M
              · exfalso
                refine hb1 ?_
                intro a ha
                by_cases hal : a = lit
                · subst hal
                  exact hlM
                · exact hD ((List.mem_erase_of_ne hal).2 ha)
              · rcases hMlit with h2 | h2
                · exact absurd h2 hlM
                · exact h2
            rcases ha2 : cdclAssume neg fuel ⟨γ, ⟨lit :: ds, labs⟩ :: rest⟩ (neg lit)
                (deps0.erase lit) with new2 | o | _ | _
            · rw [cdclUnsatStep_ok ha2] at h
              obtain ⟨hγ3, hδ3⟩ :=
                (cdclAssume_sem neg hMc fuel _ (neg lit) _ hγsem hδsem hecd2).1 new2 ha2
              obtain ⟨hU3, _, _⟩ :=
                cdclAssume_cuassumeOK neg U fuel _ (neg lit) _ new2 hU hlitU.2 ha2
              exact IH new2 deps conf hU3 hγ3 hδ3 h
            · rw [cdclUnsatStep_out ha2] at h
              cases h
              exact (cdclAssume_sem neg hMc fuel _ (neg lit) _ hγsem hδsem hecd2).2
                deps conf ha2
            · rw [cdclUnsatStep_panic ha2] at h
              cases h
            · rw [cdclUnsatStep_fuel ha2] at h
              cases h
          · rw [if_neg hmem] at h
            cases h
            exact hb1
      · cases h
      · cases h

/-- Modelled from the spec: the dependency set of a Backjump refutation is
duplicate-free and drawn from the recorded causes and labels. -/
theorem bjUnsat_DS :
    ∀ fuel (S : L → Prop) (st : CdclS L) (deps : List L) (conf : List (LClause L)),
      (∀ p ∈ st.γ, ∀ a ∈ p.2, S a) → (∀ lc ∈ st.δ, ∀ a ∈ lc.labels, S a) →
      bjUnsat neg fuel st = .out (.unsat deps conf) →
      (∀ a ∈ deps, S a) ∧ deps.Nodup := by
  intro fuel
  induction fuel with
  | zero =>
    intro S st deps conf _ _ h
    cases h
  | succ fuel IH =>
    rintro S ⟨γ, δ⟩ deps conf hγS hδS h
    match δ, hδS, h with
    | [], hδS, h => cases h
    | ⟨[], labs⟩ :: rest, hδS, h => cases h
    | ⟨lit :: ds, labs⟩ :: rest, hδS, h =>
      have hγS2 : ∀ p ∈ γ, ∀ a ∈ p.2, S a ∨ a = lit :=
        fun p hp a ha => Or.inl (hγS p hp a ha)
      have hδS2 : ∀ lc ∈ (⟨lit :: ds, labs⟩ :: rest : List (LClause L)),
          ∀ a ∈ lc.labels, S a ∨ a = lit :=
        fun lc hlc a ha => Or.inl (hδS lc hlc a ha)
      have hcS : ∀ a ∈ setInsert [] lit, S a ∨ a = lit := by
        intro a ha
        rcases (setInsert_mem [] lit a).1 ha with ha2 | ha2
        · cases ha2
        · exact Or.inr ha2
      simp only [bjUnsat] at h
      rcases hs1 : cdclUnsatStep (cdclAssume neg fuel) (fun s => bjUnsat neg fuel s)
          ⟨γ, ⟨lit :: ds, labs⟩ :: rest⟩ lit (setInsert [] lit)
        with e | o1 | _ | _ <;> simp only [hs1] at h
      · cases h
      · match o1, hs1, h with
        | .sat m, hs1, h => cases h
        | .unsat deps0 conf0, hs1, h =>
          have hb1 : (∀ a ∈ deps0, S a ∨ a = lit) ∧ deps0.Nodup := by
            rcases ha : cdclAssume neg fuel ⟨γ, ⟨lit :: ds, labs⟩ :: rest⟩ lit
                (setInsert [] lit) with new | o | _ | _
            · rw [cdclUnsatStep_ok ha] at hs1
              obtain ⟨hγ2, hδ2⟩ := (cdclAssume_CL neg fuel _ lit _ hγS2 hδS2 hcS).1 new ha
              exact IH (fun x => S x ∨ x = lit) new deps0 conf0 hγ2 hδ2 hs1
            · rw [cdclUnsatStep_out ha] at hs1
              cases hs1
              exact (cdclAssume_CL neg fuel _ lit _ hγS2 hδS2 hcS).2 deps0 conf0 ha
            · rw [cdclUnsatStep_panic ha] at hs1
              cases hs1
            · rw [cdclUnsatStep_fuel ha] at hs1
              cases hs1
          replace h : (if lit ∈ deps0 then
              cdclUnsatStep (cdclAssume neg fuel) (fun s => bjUnsat neg fuel s)
                ⟨γ, ⟨lit :: ds, labs⟩ :: rest⟩ (neg lit) (deps0.erase lit)
            else .out (.unsat deps0 [])) = .out (.unsat deps conf) := h
          by_cases hmem : lit ∈ deps0
          · rw [if_pos hmem] at h
            have hd2 : (∀ a ∈ deps0.erase lit, S a) ∧ (deps0.erase lit).Nodup := by
              refine ⟨?_, hb1.2.erase lit⟩
              intro a ha
              have h2 := (List.Nodup.mem_erase_iff hb1.2).1 ha
              rcases hb1.1 a h2.2 with h3 | h3
              · exact h3
              · exact absurd h3 h2.1
            rcases ha2 : cdclAssume neg fuel ⟨γ, ⟨lit :: ds, labs⟩ :: rest⟩ (neg lit)
                (deps0.erase lit) with new2 | o | _ | _
            · rw [cdclUnsatStep_ok ha2] at h
              obtain ⟨hγ3, hδ3⟩ :=
                (cdclAssume_CL neg fuel _ (neg lit) _ hγS hδS hd2.1).1 new2 ha2
              exact IH S new2 deps conf hγ3 hδ3 h
            · rw [cdclUnsatStep_out ha2] at h
              cases h
              exact (cdclAssume_CL neg fuel _ (neg lit) _ hγS hδS hd2.1).2 deps conf ha2
            · rw [cdclUnsatStep_panic ha2] at h
              cases h
            · rw [cdclUnsatStep_fuel ha2] at h
              cases h
          · rw [if_neg hmem] at h
            cases h
            refine ⟨?_, hb1.2⟩
            intro a ha
            rcases hb1.1 a ha with h3 | h3
            · exact h3
            · subst h3
              exact absurd ha hmem
      · cases h
      · cases h

/-- Modelled from the spec: the Backjump engine's `unsat` never panics under
the search invariant when every working clause is nonempty. -/
theorem bjUnsat_no_panic (hinv : ∀ l, neg (neg l) = l) (hne : ∀ l, neg l ≠ l) :
    ∀ fuel (st : CdclS L), CdclInv neg st → (∀ lc ∈ st.δ, lc.clause ≠ []) →
      bjUnsat neg fuel st ≠ .panic := by
  intro fuel
  induction fuel with
  | zero =>
    intro st _ _ h
    cases h
  | succ fuel IH =>
    rintro ⟨γ, δ⟩ hI hne2
    match δ, hI, hne2 with
    | [], hI, hne2 =>
      intro h
      cases h
    | ⟨[], labs⟩ :: rest, hI, hne2 =>
      exact absurd rfl (hne2 ⟨[], labs⟩ (by simp))
    | ⟨lit :: ds, labs⟩ :: rest, hI, hne2 =>
      have hunk : lit ∉ alistKeys γ ∧ neg lit ∉ alistKeys γ :=
        hI.2 ⟨lit :: ds, labs⟩ (by simp) lit (by simp)
      have hstep : ∀ l2 cause, l2 ∉ alistKeys γ → neg l2 ∉ alistKeys γ →
          cdclUnsatStep (cdclAssume neg fuel) (fun s => bjUnsat neg fuel s)
            ⟨γ, ⟨lit :: ds, labs⟩ :: rest⟩ l2 cause ≠ .panic := by
        intro l2 cause hu1 hu2
        rcases ha : cdclAssume neg fuel ⟨γ, ⟨lit :: ds, labs⟩ :: rest⟩ l2 cause
          with new | o | _ | _
        · rw [cdclUnsatStep_ok ha]
          obtain ⟨hI2, _, _, _⟩ :=
            cdclAssume_assumeOK neg hinv hne fuel _ l2 cause new hI.1 hu1 hu2 ha
          exact IH new hI2 (cdclAssume_cne neg fuel _ l2 cause new ha hne2)
        · rw [cdclUnsatStep_out ha]
          intro h
          cases h
        · exact absurd ha (cdclAssume_np neg hinv hne fuel _ l2 cause hI.1 hu1 hu2)
        · rw [cdclUnsatStep_fuel ha]
          intro h
          cases h
      simp only [bjUnsat]
      rcases hs1 : cdclUnsatStep (cdclAssume neg fuel) (fun s => bjUnsat neg fuel s)
          ⟨γ, ⟨lit :: ds, labs⟩ :: rest⟩ lit (setInsert [] lit) with e | o1 | _ | _
      · intro h
        cases h
      · match o1, hs1 with
        | .sat m, hs1 =>
          intro h
          cases h
        | .unsat deps0 conf0, hs1 =>
          by_cases hmem : lit ∈ deps0
          · show (if lit ∈ deps0 then
                cdclUnsatStep (cdclAssume neg fuel) (fun s => bjUnsat neg fuel s)
                  ⟨γ, ⟨lit :: ds, labs⟩ :: rest⟩ (neg lit) (deps0.erase lit)
              else .out (.unsat deps0 [])) ≠ .panic
            rw [if_pos hmem]
            exact hstep (neg lit) (deps0.erase lit) hunk.2 (by rw [hinv]; exact hunk.1)
          · show (if lit ∈ deps0 then
                cdclUnsatStep (cdclAssume neg fuel) (fun s => bjUnsat neg fuel s)
                  ⟨γ, ⟨lit :: ds, labs⟩ :: rest⟩ (neg lit) (deps0.erase lit)
              else .out (.unsat deps0 [])) ≠ .panic
            rw [if_neg hmem]
            intro h
            cases h
      · exact absurd hs1 (hstep lit (setInsert [] lit) hunk.1 hunk.2)
      · intro h
        cases h

/-- Modelled from the spec: the Backjump engine's `unsat` is complete — a
state strongly satisfied by a consistent total model never reports
`Unsat`. -/
theorem bjUnsat_complete (hinv : ∀ l, neg (neg l) = l) (hne : ∀ l, neg l ≠ l)
    {U : Finset L} {M : List L} (hMc : consistent neg M)
    (htot : ∀ l ∈ U, l ∈ M ∨ neg l ∈ M) :
    ∀ fuel (st : CdclS L), CdclInv neg st → UOKc neg U st → cdclMT M st →
      (∀ lc ∈ st.δ, lc.clause ≠ []) →
      bjUnsat neg fuel st ≠ .fuelOut →
      ∃ m, bjUnsat neg fuel st = .out (.sat m) := by
  intro fuel
  induction fuel with
  | zero =>
    intro st _ _ _ _ hne3
    exact absurd rfl hne3
  | succ fuel IH =>
    rintro ⟨γ, δ⟩ hI hU hMT hne2 hne3
    match δ, hI, hU, hMT, hne2, hne3 with
    | [], hI, hU, hMT, hne2, hne3 => exact ⟨alistKeys γ, rfl⟩
    | ⟨[], labs⟩ :: rest, hI, hU, hMT, hne2, hne3 =>
      exact absurd rfl (hne2 ⟨[], labs⟩ (by simp))
    | ⟨lit :: ds, labs⟩ :: rest, hI, hU, hMT, hne2, hne3 =>
      have hunk : lit ∉ alistKeys γ ∧ neg lit ∉ alistKeys γ :=
        hI.2 ⟨lit :: ds, labs⟩ (by simp) lit (by simp)
      have hlitU : lit ∈ U ∧ neg lit ∈ U :=
        hU.2 ⟨lit :: ds, labs⟩ (by simp) lit (by simp)
      by_cases hM : lit ∈ M
      · have hcM : ∀ a ∈ setInsert [] lit, a ∈ M := by
          intro a ha
          rcases (setInsert_mem [] lit a).1 ha with h2 | h2
          · cases h2
          · subst h2
            exact hM
        rcases cdclAssume_MT neg hMc fuel ⟨γ, ⟨lit :: ds, labs⟩ :: rest⟩ lit
            (setInsert [] lit) hMT hM hcM with hfo | ⟨new, ha, hMT2⟩
        · exfalso
          refine hne3 ?_
          simp only [bjUnsat]
          rw [cdclUnsatStep_fuel hfo]
        · obtain ⟨hI2, _, _, _⟩ := cdclAssume_assumeOK neg hinv hne fuel
            _ lit _ new hI.1 hunk.1 hunk.2 ha
          obtain ⟨hU2, _, _⟩ := cdclAssume_cuassumeOK neg U fuel _ lit _ new hU hlitU.1 ha
          have hne2b := cdclAssume_cne neg fuel _ lit _ new ha hne2
          have hinner : bjUnsat neg fuel new ≠ .fuelOut := by
            intro hfo
            refine hne3 ?_
            simp only [bjUnsat]
            rw [cdclUnsatStep_ok ha, hfo]
          obtain ⟨m, hm⟩ := IH new hI2 hU2 hMT2 hne2b hinner
          refine ⟨m, ?_⟩
          simp only [bjUnsat]
          rw [cdclUnsatStep_ok ha, hm]
      · have hMn : neg lit ∈ M := (htot lit hlitU.1).resolve_left hM
        rcases hs1 : cdclUnsatStep (cdclAssume neg fuel) (fun s => bjUnsat neg fuel s)
            ⟨γ, ⟨lit :: ds, labs⟩ :: rest⟩ lit (setInsert [] lit) with e | o1 | _ | _
        · exact e.elim
        · match o1, hs1 with
          | .sat m, hs1 =>
            refine ⟨m, ?_⟩
            simp only [bjUnsat]
            rw [hs1]
          | .unsat deps0 conf0, hs1 =>
            have hγsem : envForced M γ := fun p hp _ => (hMT.1 p hp).1
            have hδsem : cnfEntailed M (⟨lit :: ds, labs⟩ :: rest) :=
              fun lc hlc _ => (hMT.2 lc hlc).2
            have hγS : ∀ p ∈ γ, ∀ a ∈ p.2, a ∈ M ∨ a = lit :=
              fun p hp a ha => Or.inl ((hMT.1 p hp).2 a ha)
            have hδS : ∀ lc ∈ (⟨lit :: ds, labs⟩ :: rest : List (LClause L)),
                ∀ a ∈ lc.labels, a ∈ M ∨ a = lit :=
              fun lc hlc a ha => Or.inl ((hMT.2 lc hlc).1 a ha)
            have hcS : ∀ a ∈ setInsert [] lit, a ∈ M ∨ a = lit := by
              intro a ha
              rcases (setInsert_mem [] lit a).1 ha with h2 | h2
              · cases h2
              · exact Or.inr h2
            have hecd : setInsert [] lit ⊆ M → lit ∈ M := fun hs =>
              hs ((setInsert_mem [] lit lit).2 (Or.inr rfl))
            have hfacts : (¬ deps0 ⊆ M) ∧ (∀ a ∈ deps0, a ∈ M ∨ a = lit) ∧
                deps0.Nodup := by
              rcases ha : cdclAssume neg fuel ⟨γ, ⟨lit :: ds, labs⟩ :: rest⟩ lit
                  (setInsert [] lit) with new | o | _ | _
              · rw [cdclUnsatStep_ok ha] at hs1
                obtain ⟨hγ2, hδ2⟩ :=
                  (cdclAssume_sem neg hMc fuel _ lit _ hγsem hδsem hecd).1 new ha
                obtain ⟨hU2, _, _⟩ :=
                  cdclAssume_cuassumeOK neg U fuel _ lit _ new hU hlitU.1 ha
                obtain ⟨hγ3, hδ3⟩ := (cdclAssume_CL neg fuel _ lit _ hγS hδS hcS).1 new ha
                obtain ⟨hd1, hd2⟩ := bjUnsat_DS neg fuel (fun x => x ∈ M ∨ x = lit)
                  new deps0 conf0 hγ3 hδ3 hs1
                exact ⟨bjUnsat_refute neg hinv hMc htot fuel new deps0 conf0
                  hU2 hγ2 hδ2 hs1, hd1, hd2⟩
              · rw [cdclUnsatStep_out ha] at hs1
                cases hs1
                obtain ⟨hd1, hd2⟩ :=
                  (cdclAssume_CL neg fuel _ lit _ hγS hδS hcS).2 deps0 conf0 ha
                exact ⟨(cdclAssume_sem neg hMc fuel _ lit _ hγsem hδsem hecd).2
                  deps0 conf0 ha, hd1, hd2⟩
              · rw [cdclUnsatStep_panic ha] at hs1
                cases hs1
              · rw [cdclUnsatStep_fuel ha] at hs1
                cases hs1
            by_cases hmem : lit ∈ deps0
            · have hd2M : ∀ a ∈ deps0.erase lit, a ∈ M := by
                intro a ha
                have h2 := (List.Nodup.mem_erase_iff hfacts.2.2).1 ha
                rcases hfacts.2.1 a h2.2 with h3 | h3
                · exact h3
                · exact absurd h3 h2.1
              rcases cdclAssume_MT neg hMc fuel ⟨γ, ⟨lit :: ds, labs⟩ :: rest⟩
                  (neg lit) (deps0.erase lit) hMT hMn hd2M with hfo2 | ⟨new2, ha2, hMT3⟩
              · exfalso
                refine hne3 ?_
                simp only [bjUnsat]
                rw [hs1]
                show (if lit ∈ deps0 then
                    cdclUnsatStep (cdclAssume neg fuel) (fun s => bjUnsat neg fuel s)
                      ⟨γ, ⟨lit :: ds, labs⟩ :: rest⟩ (neg lit) (deps0.erase lit)
                  else .out (.unsat deps0 [])) = .fuelOut
                rw [if_pos hmem, cdclUnsatStep_fuel hfo2]
              · obtain ⟨hI3, _, _, _⟩ := cdclAssume_assumeOK neg hinv hne fuel
                  _ (neg lit) _ new2 hI.1 hunk.2 (by rw [hinv]; exact hunk.1) ha2
                obtain ⟨hU3, _, _⟩ := cdclAssume_cuassumeOK neg U fuel
                  _ (neg lit) _ new2 hU hlitU.2 ha2
                have hne4 := cdclAssume_cne neg fuel _ (neg lit) _ new2 ha2 hne2
                have hinner2 : bjUnsat neg fuel new2 ≠ .fuelOut := by
                  intro hfo
                  refine hne3 ?_
                  simp only [bjUnsat]
                  rw [hs1]
                  show (if lit ∈ deps0 then
                      cdclUnsatStep (cdclAssume neg fuel) (fun s => bjUnsat neg fuel s)
                        ⟨γ, ⟨lit :: ds, labs⟩ :: rest⟩ (neg lit) (deps0.erase lit)
                    else .out (.unsat deps0 [])) = .fuelOut
                  rw [if_pos hmem, cdclUnsatStep_ok ha2, hfo]
                obtain ⟨m, hm⟩ := IH new2 hI3 hU3 hMT3 hne4 hinner2
                refine ⟨m, ?_⟩
                simp only [bjUnsat]
                rw [hs1]
                show (if lit ∈ deps0 then
                    cdclUnsatStep (cdclAssume neg fuel) (fun s => bjUnsat neg fuel s)
                      ⟨γ, ⟨lit :: ds, labs⟩ :: rest⟩ (neg lit) (deps0.erase lit)
                  else .out (.unsat deps0 [])) = .out (.sat m)
                rw [if_pos hmem, cdclUnsatStep_ok ha2, hm]
            · exfalso
              refine hfacts.1 ?_
              intro a ha
              rcases hfacts.2.1 a ha with h3 | h3
              · exact h3
              · subst h3
                exact absurd ha hmem
        · exfalso
          have hw : bjUnsat neg (fuel + 1) ⟨γ, ⟨lit :: ds, labs⟩ :: rest⟩ = .panic := by
            simp only [bjUnsat]
            rw [hs1]
          exact bjUnsat_no_panic neg hinv hne (fuel + 1) _ hI hne2 hw
        · exact absurd (by simp only [bjUnsat]; rw [hs1]) hne3

end BjSoundComplete

section EngineCharacterizations

variable {L : Type} [LinearOrder L] (neg : L → L)

/-- `Plain::solve` reports `Sat` at some fuel exactly on satisfiable
formulas. -/
theorem plainSolve_sat_iff (hinv : ∀ l, neg (neg l) = l) (hne : ∀ l, neg l ≠ l)
    (f : List (List L)) :
    (∃ fuel m, plainSolve neg fuel (PlainS.mk0 f) = .out (.sat m)) ↔
      Satisfiable neg f := by
  constructor
  · rintro ⟨fuel, m, hm⟩
    obtain ⟨h1, h2⟩ := plainSolve_sat_sound neg hinv hne fuel f m hm
    exact ⟨m, h1, h2⟩
  · intro hS
    obtain ⟨M, hMc, hMmod, htot⟩ := satisfiable_total neg hinv hne hS
    have hUp : UOKp neg (litUniverse neg f) (PlainS.mk0 f) :=
      ⟨fun l hl => absurd hl (List.not_mem_nil l),
        fun C hC l hl => litUniverse_closed neg f hC hl⟩
    have hIp : PlainInv neg (PlainS.mk0 f) :=
      ⟨fun l hl => absurd hl (List.not_mem_nil l),
        fun C _ l _ => ⟨List.not_mem_nil l, List.not_mem_nil (neg l)⟩⟩
    obtain ⟨fuel, hfuel⟩ := plainUnsat_fuel neg (litUniverse neg f)
      ((litUniverse neg f).card) (PlainS.mk0 f) hUp (Finset.card_filter_le _ _)
    obtain ⟨m, hm⟩ := plainUnsat_complete neg hinv hne hMc htot fuel (PlainS.mk0 f)
      hIp hUp (fun a ha => absurd ha (List.not_mem_nil a)) hMmod hfuel
    exact ⟨fuel, m, hm⟩

/-- `Cdcl::solve` reports `Sat` at some fuel exactly on satisfiable
formulas. -/
theorem cdclSolve_sat_iff (hinv : ∀ l, neg (neg l) = l) (hne : ∀ l, neg l ≠ l)
    (f : List (List L)) :
    (∃ fuel m, cdclSolve neg fuel (CdclS.mk0 f) = .out (.sat m)) ↔
      Satisfiable neg f := by
  constructor
  · rintro ⟨fuel, m, hm⟩
    obtain ⟨h1, h2⟩ := cdclSolve_sat_sound neg hinv hne fuel f m hm
    exact ⟨m, h1, h2⟩
  · intro hS
    obtain ⟨M, hMc, hMmod, htot⟩ := satisfiable_total neg hinv hne hS
    have hUc : UOKc neg (litUniverse neg f) (CdclS.mk0 f) := by
      refine ⟨fun l hl => absurd hl (List.not_mem_nil l), ?_⟩
      intro lc hlc l hl
      obtain ⟨C, hC, rfl⟩ := List.mem_map.1 hlc
      exact litUniverse_closed neg f hC hl
    have hIc : CdclInv neg (CdclS.mk0 f) :=
      ⟨fun l hl => absurd hl (List.not_mem_nil l),
        fun lc _ l _ => ⟨List.not_mem_nil l, List.not_mem_nil (neg l)⟩⟩
    have hMTc : cdclMT M (CdclS.mk0 f) := by
      refine ⟨fun p hp => absurd hp (List.not_mem_nil p), ?_⟩
      intro lc hlc
      obtain ⟨C, hC, rfl⟩ := List.mem_map.1 hlc
      exact ⟨fun a ha => absurd ha (List.not_mem_nil a), hMmod C hC⟩
    have hnec : ∀ lc ∈ (CdclS.mk0 f).δ, lc.clause ≠ [] := by
      intro lc hlc
      obtain ⟨C, hC, rfl⟩ := List.mem_map.1 hlc
      obtain ⟨x, hx, _⟩ := hMmod C hC
      exact List.ne_nil_of_mem hx
    obtain ⟨fuel, hfuel⟩ := cdclUnsat_fuel neg hinv hne (litUniverse neg f)
      ((litUniverse neg f).card) (CdclS.mk0 f) hIc hUc (Finset.card_filter_le _ _)
    obtain ⟨m, hm⟩ := cdclUnsat_complete neg hinv hne hMc htot fuel (CdclS.mk0 f)
      hIc hUc hMTc hnec hfuel
    refine ⟨fuel, m, ?_⟩
    simp only [cdclSolve, hm]

/-- Modelled from the spec: the Backjump engine's `solve` reports `Sat` at
some fuel exactly on satisfiable formulas. -/
theorem bjSolve_sat_iff (hinv : ∀ l, neg (neg l) = l) (hne : ∀ l, neg l ≠ l)
    (f : List (List L)) :
    (∃ fuel m, bjSolve neg fuel (CdclS.mk0 f) = .out (.sat m)) ↔
      Satisfiable neg f := by
  have hIc : CdclInv neg (CdclS.mk0 f) :=
    ⟨fun l hl => absurd hl (List.not_mem_nil l),
      fun lc _ l _ => ⟨List.not_mem_nil l, List.not_mem_nil (neg l)⟩⟩
  constructor
  · rintro ⟨fuel, m, hm⟩
    rcases hu : bjUnsat neg fuel (CdclS.mk0 f) with e | o | _ | _ <;>
      simp only [bjSolve, hu] at hm
    · exact e.elim
    · match o, hm with
      | .sat m2, hm =>
        cases hm
        obtain ⟨h1, _, h3⟩ := bjUnsat_sat_sound neg hinv hne fuel _ m hIc hu
        refine ⟨m, h1, ?_⟩
        intro C hC
        exact h3 ⟨C, []⟩ (List.mem_map.2 ⟨C, hC, rfl⟩)
    · cases hm
    · cases hm
  · intro hS
    obtain ⟨M, hMc, hMmod, htot⟩ := satisfiable_total neg hinv hne hS
    have hUc : UOKc neg (litUniverse neg f) (CdclS.mk0 f) := by
      refine ⟨fun l hl => absurd hl (List.not_mem_nil l), ?_⟩
      intro lc hlc l hl
      obtain ⟨C, hC, rfl⟩ := List.mem_map.1 hlc
      exact litUniverse_closed neg f hC hl
    have hMTc : cdclMT M (CdclS.mk0 f) := by
      refine ⟨fun p hp => absurd hp (List.not_mem_nil p), ?_⟩
      intro lc hlc
      obtain ⟨C, hC, rfl⟩ := List.mem_map.1 hlc
      exact ⟨fun a ha => absurd ha (List.not_mem_nil a), hMmod C hC⟩
    have hnec : ∀ lc ∈ (CdclS.mk0 f).δ, lc.clause ≠ [] := by
      intro lc hlc
      obtain ⟨C, hC, rfl⟩ := List.mem_map.1 hlc
      obtain ⟨x, hx, _⟩ := hMmod C hC
      exact List.ne_nil_of_mem hx
    obtain ⟨fuel, hfuel⟩ := bjUnsat_fuel neg hinv hne (litUniverse neg f)
      ((litUniverse neg f).card) (CdclS.mk0 f) hIc hUc (Finset.card_filter_le _ _)
    obtain ⟨m, hm⟩ := bjUnsat_complete neg hinv hne hMc htot fuel (CdclS.mk0 f)
      hIc hUc hMTc hnec hfuel
    refine ⟨fuel, m, ?_⟩
    simp only [bjSolve, hm]

end EngineCharacterizations

/-- C2: the Plain, Backjump, and Cdcl engines agree on the satisfiability
verdict: for every CNF formula over the program's literal type, Plain's
`solve` reports a `Sat` outcome at some fuel if and only if Cdcl's does, and
if and only if the Backjump engine's does (all three report `Sat` exactly on
satisfiable formulas; the models may differ). -/
theorem solvers_agree (f : List (List RLit)) :
    ((∃ fuel m, plainSolve RLit.negate fuel (PlainS.mk0 f) = .out (.sat m)) ↔
      (∃ fuel m, cdclSolve RLit.negate fuel (CdclS.mk0 f) = .out (.sat m))) ∧
    ((∃ fuel m, plainSolve RLit.negate fuel (PlainS.mk0 f) = .out (.sat m)) ↔
      (∃ fuel m, bjSolve RLit.negate fuel (CdclS.mk0 f) = .out (.sat m))) :=
  ⟨(plainSolve_sat_iff RLit.negate RLit.negate_invol RLit.negate_ne f).trans
      (cdclSolve_sat_iff RLit.negate RLit.negate_invol RLit.negate_ne f).symm,
    (plainSolve_sat_iff RLit.negate RLit.negate_invol RLit.negate_ne f).trans
      (bjSolve_sat_iff RLit.negate RLit.negate_invol RLit.negate_ne f).symm⟩
